import Mathlib

/-!
Verification of the OmniCloudOrg/metrics contributor pipeline.

Strings of the JavaScript source are modelled as `List Char`; JS `Map`s
(which preserve insertion order) are modelled as association lists; JS
`Set`s of strings as duplicate-free insertion-ordered lists.  Fallible
operations (JSON parsing) are modelled with `Option`.  Every definition is
a direct translation of the corresponding function in
`scripts/collect-metrics.js` or the enhanced collector script; the JS
regular expressions are translated to executable scanners whose semantics
follow the ECMAScript backtracking behaviour of the concrete pattern, as
noted at each definition.
-/

namespace CollectMetrics

/-- JS `String.prototype.toLowerCase` restricted to the ASCII range, which is
the only range the scripts' data uses. -/
def lc (c : Char) : Char := c.toLower

/-- Lowercase an entire string. -/
def lcs (s : List Char) : List Char := s.map lc

/-- JS whitespace class `\s` (ASCII part). -/
def isWsC (c : Char) : Bool :=
  c = ' ' || c = '\t' || c = '\n' || c = '\r' || c = '\x0b' || c = '\x0c'

def isDigitC (c : Char) : Bool := '0' ≤ c && c ≤ '9'

def isLowerAZ (c : Char) : Bool := 'a' ≤ c && c ≤ 'z'

def isUpperAZ (c : Char) : Bool := 'A' ≤ c && c ≤ 'Z'

def isAlphaC (c : Char) : Bool := isLowerAZ c || isUpperAZ c

def isAlnumC (c : Char) : Bool := isAlphaC c || isDigitC c

/-- JS word character class `\w` = `[A-Za-z0-9_]`, used for `\b` boundaries. -/
def isWordC (c : Char) : Bool := isAlnumC c || c = '_'

/-- JS `String.prototype.trim`, left half. -/
def trimL (s : List Char) : List Char := s.dropWhile (fun c => isWsC c)

/-- JS `String.prototype.trim`, right half. -/
def trimR (s : List Char) : List Char := (trimL s.reverse).reverse

/-- JS `String.prototype.trim`. -/
def trimS (s : List Char) : List Char := trimR (trimL s)

/-- JS `message.split('\n')`. -/
def splitNl : List Char → List (List Char)
  | [] => [[]]
  | c :: cs =>
    if c = '\n' then [] :: splitNl cs
    else
      match splitNl cs with
      | [] => [[c]]
      | l :: ls => (c :: l) :: ls

/-- JS `message.replace(/\r\n/g, '\n')` (left-to-right, non-overlapping:
on a match the scan advances past both characters, else by one). -/
def replCRLF : List Char → List Char
  | [] => []
  | [c] => [c]
  | c :: c2 :: cs =>
    if c = '\r' ∧ c2 = '\n' then '\n' :: replCRLF cs
    else c :: replCRLF (c2 :: cs)

/-- JS `message.replace(/\r\n/g, ' ')`. -/
def replCRLFsp : List Char → List Char
  | [] => []
  | [c] => [c]
  | c :: c2 :: cs =>
    if c = '\r' ∧ c2 = '\n' then ' ' :: replCRLFsp cs
    else c :: replCRLFsp (c2 :: cs)

/-- JS `s.replace(/\n/g, ' ')`. -/
def nlToSp (s : List Char) : List Char := s.map (fun c => if c = '\n' then ' ' else c)

/-- Case-insensitive prefix test (the `/i` flag on a literal pattern). -/
def ciPref : List Char → List Char → Bool
  | [], _ => true
  | _ :: _, [] => false
  | p :: ps, c :: cs => (lc p = lc c) && ciPref ps cs

/-- JS `String.prototype.includes` (exact case). -/
def hasSub (pat : List Char) : List Char → Bool
  | [] => pat.isPrefixOf ([] : List Char)
  | c :: cs => pat.isPrefixOf (c :: cs) || hasSub pat cs

/-- Case-insensitive substring test: `/pat/i.test(s)` for a literal `pat`. -/
def hasCiSub (pat : List Char) : List Char → Bool
  | [] => ciPref pat []
  | c :: cs => ciPref pat (c :: cs) || hasCiSub pat cs

/-- JS `email.split('@')[0]`: everything before the first `@` (the whole
string when there is no `@`). -/
def beforeAt (s : List Char) : List Char := s.takeWhile (fun c => c ≠ '@')

/-! ### The identity normalizer `extractUsername` (scripts/collect-metrics.js) -/

def usersNoreplySuffix : List Char := "@users.noreply.github.com".toList

/-- JS `email.match(/^(\d+)\+(.+)@users\.noreply\.github\.com$/i)`, returning
capture group 2.  The anchored regex matches iff the email ends with the
no-reply suffix (case-insensitively), the part before the suffix starts with
a maximal nonempty digit run immediately followed by `+`, and at least one
character remains between that `+` and the suffix; group 2 is that remainder
(the greedy `(.+)` runs up to the end-anchored literal suffix). -/
def noreplyNumericMatch (email : List Char) : Option (List Char) :=
  if usersNoreplySuffix.length < email.length then
    let p := email.take (email.length - usersNoreplySuffix.length)
    if lcs (email.drop (email.length - usersNoreplySuffix.length)) = usersNoreplySuffix then
      let d := p.takeWhile isDigitC
      if d ≠ [] ∧ (p.drop d.length).head? = some '+' ∧ d.length + 1 < p.length then
        some (p.drop (d.length + 1))
      else none
    else none
  else none

/-- One character of a handle: the class `[a-zA-Z0-9\-]`. -/
def handleChar (c : Char) : Bool := isAlnumC c || c = '-'

/-- JS `name.match(/@([a-zA-Z0-9\-]+)/)`, returning capture group 1: the
leftmost `@` followed by at least one handle character yields the maximal
handle-character run after it; an `@` with no handle character after it is
skipped and the scan continues. -/
def mentionIn : List Char → Option (List Char)
  | [] => none
  | '@' :: cs =>
    let h := cs.takeWhile handleChar
    if h = [] then mentionIn cs else some h
  | _ :: cs => mentionIn cs

/-- `extractUsername(email, name)` from scripts/collect-metrics.js
(lines 566-608), rule for rule and in source order: the numeric no-reply
regex first, then the three first-party suffix checks, then the `@handle`
mention in the name, then the email local part (length > 2, not all
digits), then the cleaned lowercased name, else `null`. -/
def extractUsername (email name : List Char) : Option (List Char) :=
  match noreplyNumericMatch email with
  | some h => some h
  | none =>
    if ("@github.com".toList).isSuffixOf email then some (beforeAt email)
    else if ("@users.github.com".toList).isSuffixOf email then some (beforeAt email)
    else if ("@users.noreply.github.com".toList).isSuffixOf email
            && !(email.contains '+') then some (beforeAt email)
    else
      match (if name ≠ [] then mentionIn name else none) with
      | some h => some h
      | none =>
        let eu := beforeAt email
        if 2 < eu.length ∧ ¬ (eu.all isDigitC) then some eu
        else if name ≠ [] then
          some ((lcs name).filter (fun c => isLowerAZ c || isDigitC c))
        else none

/-! ### Claims C4 and C7: precedence and nullability of the normalizer -/

/-- C4 (counterexample): the claim says the `@handle` mention in the name
takes precedence over the numeric-id no-reply email rule.  On the input
`email = "123+octocat@users.noreply.github.com"`, `name = "@alice"` the name
does contain the mention `alice`, yet `extractUsername` returns `octocat`
from the email: in the code the no-reply rule runs first. -/
theorem extractUsername_mention_loses :
    mentionIn (("@alice").toList) = some (("alice").toList) ∧
    extractUsername (("123+octocat@users.noreply.github.com").toList) (("@alice").toList)
      = some (("octocat").toList) ∧
    ("octocat").toList ≠ ("alice").toList := by
  refine ⟨by decide, by decide, by decide⟩

/-- C4 (amended): in `extractUsername` the numeric-id no-reply email rule
runs before the name-mention rule: whenever the no-reply pattern matches,
its handle is returned regardless of the name; the `@handle` mention in the
name is used only when the no-reply pattern and all three first-party
email-suffix rules fail. -/
theorem extractUsername_precedence :
    (∀ email name h, noreplyNumericMatch email = some h →
        extractUsername email name = some h) ∧
    (∀ email name h, noreplyNumericMatch email = none →
        ¬ ("@github.com".toList <:+ email) →
        ¬ ("@users.github.com".toList <:+ email) →
        ¬ ("@users.noreply.github.com".toList <:+ email ∧ '+' ∉ email) →
        name ≠ [] → mentionIn name = some h →
        extractUsername email name = some h) := by
  constructor
  · intro email name h hm
    unfold extractUsername
    rw [hm]
  · intro email name h hm h1 h2 h3 hn hmen
    unfold extractUsername
    rw [hm, if_neg (by simpa using h1), if_neg (by simpa using h2),
      if_neg (by simpa using h3)]
    simp [hn, hmen]

/-- Witness for `extractUsername_precedence` at concrete inputs. -/
theorem extractUsername_precedence_witness :
    extractUsername (("123+octocat@users.noreply.github.com").toList) (("@alice").toList)
      = some (("octocat").toList) ∧
    extractUsername (("x@y.com").toList) (("@zed").toList) = some (("zed").toList) := by
  constructor
  · exact extractUsername_precedence.1 _ _ _ (by decide)
  · exact extractUsername_precedence.2 _ _ _ (by decide) (by decide) (by decide)
      (by decide) (by decide) (by decide)

/-- C7 (counterexample): the claim says `null` is returned only when both
email and name are empty.  But with the nonempty email `ab@x.com` and empty
name, every rule fails (the local part `ab` has length 2, not > 2) and the
function returns `null`. -/
theorem extractUsername_null_nonempty_email :
    ("ab@x.com").toList ≠ [] ∧
    extractUsername (("ab@x.com").toList) [] = none := by
  refine ⟨by decide, by decide⟩

/-- C7 (amended): `extractUsername` returns `null` exactly when the name is
empty and every email-based rule fails (no numeric no-reply match, no
first-party suffix match, and the local part has length ≤ 2 or is all
digits).  In particular it never returns `null` when the name is nonempty. -/
theorem extractUsername_none_iff (email name : List Char) :
    extractUsername email name = none ↔
      name = [] ∧ noreplyNumericMatch email = none ∧
      ¬ ("@github.com".toList <:+ email) ∧
      ¬ ("@users.github.com".toList <:+ email) ∧
      ¬ ("@users.noreply.github.com".toList <:+ email ∧ '+' ∉ email) ∧
      ¬ (2 < (beforeAt email).length ∧ ¬ ((beforeAt email).all isDigitC)) := by
  unfold extractUsername
  cases hm : noreplyNumericMatch email with
  | some h => simp [hm]
  | none =>
    by_cases hn : name = []
    · subst hn
      simp only [ne_eq, not_true_eq_false, if_false]
      split_ifs with h1 h2 h3 h4 <;> simp_all
    · simp only [ne_eq, hn, not_false_eq_true, if_true]
      cases hmen : mentionIn name with
      | some h =>
        simp only [hmen]
        split_ifs <;> simp [hn]
      | none =>
        simp only [hmen]
        split_ifs with h1 h2 h3 h4 <;> simp_all

/-! ### The contributor registry (`contributorsMap` in the enhanced collector)

JS `Map` preserves insertion order and has unique keys; we model it as an
association list together with a `Nodup` hypothesis on the keys where a
proof needs it.  JS `Set`s of repository names are insertion-ordered
duplicate-free lists (`addRepo`). -/

/-- One absorbed-alias entry pushed during deduplication merging. -/
structure AliasEntry where
  loginA : List Char
  typeA : List Char
  contributionsA : Nat
  repositoriesA : List (List Char)
deriving Repr, DecidableEq, Inhabited

/-- A contributor record, with the fields the enhanced collector stores.
Optional JS fields are `Option`; `aliases` starts `[]` (the code creates it
lazily with `if (!primaryData.aliases) primaryData.aliases = []`, which is
the identity in this model). -/
structure CRecord where
  login : List Char := []
  email : Option (List Char) := none
  avatar_url : List Char := []
  html_url : List Char := []
  contributions : Nat := 0
  lines_contributed : Nat := 0
  repositories : List (List Char) := []
  github_login : Option (List Char) := none
  matched_by_email : Bool := false
  matched_by_name : Bool := false
  pending_github_lookup : Bool := false
  aliases : List AliasEntry := []
deriving Repr, DecidableEq, Inhabited

abbrev Registry := List (List Char × CRecord)

def rkeys (reg : Registry) : List (List Char) := reg.map Prod.fst

/-- JS `map.has(k)`. -/
def rhas (reg : Registry) (k : List Char) : Bool := reg.any (fun p => p.1 = k)

/-- JS `map.get(k)`. -/
def rget? (reg : Registry) (k : List Char) : Option CRecord :=
  (reg.find? (fun p => p.1 = k)).map Prod.snd

/-- JS `map.set(k, v)`: replace in place if the key exists, else append. -/
def rset : Registry → List Char → CRecord → Registry
  | [], k, v => [(k, v)]
  | (k', v') :: rest, k, v =>
    if k' = k then (k, v) :: rest else (k', v') :: rset rest k v

/-- In-place mutation of the record stored under `k` (a JS object update
through the reference returned by `map.get`). -/
def rupd1 : Registry → List Char → (CRecord → CRecord) → Registry
  | [], _, _ => []
  | (k', v) :: rest, k, f =>
    if k' = k then (k', f v) :: rest else (k', v) :: rupd1 rest k f

/-- JS `map.delete(k)`. -/
def rdel : Registry → List Char → Registry
  | [], _ => []
  | (k', v') :: rest, k => if k' = k then rest else (k', v') :: rdel rest k

/-- Sum of `contributions` over all live records. -/
def totalContrib (reg : Registry) : Nat :=
  (reg.map (fun p => p.2.contributions)).sum

/-- JS `Set.prototype.add` on an insertion-ordered set of strings. -/
def addRepo (rs : List (List Char)) (r : List Char) : List (List Char) :=
  if rs.contains r then rs else rs ++ [r]

/-- JS truthiness of an optional string field. -/
def optTruthy : Option (List Char) → Bool
  | some s => s ≠ []
  | none => false

/-! ### Decimal rendering of the fallback counters (JS template literals) -/

def digitChar (n : Nat) : Char :=
  match n with
  | 0 => '0' | 1 => '1' | 2 => '2' | 3 => '3' | 4 => '4'
  | 5 => '5' | 6 => '6' | 7 => '7' | 8 => '8' | _ => '9'

def digitVal (c : Char) : Nat :=
  match c with
  | '0' => 0 | '1' => 1 | '2' => 2 | '3' => 3 | '4' => 4
  | '5' => 5 | '6' => 6 | '7' => 7 | '8' => 8 | _ => 9

def natDigitsAux : Nat → Nat → List Char
  | 0, _ => []
  | fuel + 1, n =>
    if n < 10 then [digitChar n]
    else natDigitsAux fuel (n / 10) ++ [digitChar (n % 10)]

/-- Decimal rendering of a natural number, as `${n}` renders a JS integer. -/
def natDigits (n : Nat) : List Char := natDigitsAux (n + 1) n

def digitsVal (ds : List Char) : Nat := ds.foldl (fun a c => a * 10 + digitVal c) 0

theorem digitVal_digitChar {n : Nat} (h : n < 10) : digitVal (digitChar n) = n := by
  interval_cases n <;> rfl

theorem digitsVal_append (xs : List Char) (c : Char) :
    digitsVal (xs ++ [c]) = digitsVal xs * 10 + digitVal c := by
  simp [digitsVal, List.foldl_append]

theorem digitsVal_natDigitsAux :
    ∀ fuel n, n < fuel → digitsVal (natDigitsAux fuel n) = n := by
  intro fuel
  induction fuel with
  | zero => intro n h; omega
  | succ f ih =>
    intro n h
    by_cases h10 : n < 10
    · simp [natDigitsAux, h10, digitsVal, digitVal_digitChar h10]
    · have hdiv : n / 10 < f := by omega
      simp only [natDigitsAux, h10, if_false, digitsVal_append, ih _ hdiv]
      have h0 : n % 10 < 10 := Nat.mod_lt _ (by omega)
      rw [digitVal_digitChar h0]
      omega

theorem digitsVal_natDigits (n : Nat) : digitsVal (natDigits n) = n :=
  digitsVal_natDigitsAux _ n (Nat.lt_succ_self n)

theorem natDigits_injective : Function.Injective natDigits := by
  intro a b h
  have := congrArg digitsVal h
  rwa [digitsVal_natDigits, digitsVal_natDigits] at this

/-! ### Co-author upsert (enhanced collector, commit-processing loop) -/

/-- The cleanup `username.trim().toLowerCase().replace(/[^a-z0-9]/g, '')`. -/
def cleanUser (s : List Char) : List Char :=
  (lcs (trimS s)).filter (fun c => isLowerAZ c || isDigitC c)

/-- `` `${username}-${counter}` ``. -/
def suffixName (base : List Char) (k : Nat) : List Char :=
  base ++ '-' :: natDigits k

/-- The `while (contributorsMap.has(finalUsername))` loop, with enough fuel
that (by pigeonhole over the distinct candidate names) a free name is always
reached before the fuel runs out. -/
def findFreeAux (reg : Registry) (base : List Char) : Nat → List Char → Nat → List Char
  | 0, cur, _ => cur
  | fuel + 1, cur, counter =>
    if rhas reg cur then findFreeAux reg base fuel (suffixName base counter) (counter + 1)
    else cur

/-- The username generation for a co-author that matched no stored email
(enhanced collector): name, else email local part; cleaned; if shorter than
2 characters the fallback `` `contributor-${contributorsMap.size + 1}` ``;
then `-1`, `-2`, … suffixes until the key is unused. -/
def genUsername (reg : Registry) (name email : List Char) : List Char :=
  let u0 := if name = [] ∨ trimS name = [] then beforeAt email else name
  let u1 := cleanUser u0
  let u2 := if u1.length < 2 then ("contributor-").toList ++ natDigits (reg.length + 1) else u1
  findFreeAux reg u2 (reg.length + 1) u2 1

/-- First record (in insertion order) whose stored `email` field is present,
nonempty and equal (lowercased) to the normalized candidate email — the
`for (const [login, data] of contributorsMap.entries())` search. -/
def firstEmailMatch (reg : Registry) (ne : List Char) : Option (List Char) :=
  (reg.find? (fun p =>
    match p.2.email with
    | some e => e ≠ [] && lcs e = ne
    | none => false)).map Prod.fst

/-- The fresh record created for a co-author with no stored-email match. -/
def newCoauthorRec (fu name email repo : List Char) : CRecord :=
  { login := if name ≠ [] then name else beforeAt email
    email := some email
    avatar_url := ("https://github.com/identicons/").toList ++ fu ++ (".png").toList
    html_url := ("mailto:").toList ++ email
    contributions := 1
    lines_contributed := 0
    repositories := [repo]
    pending_github_lookup := true }

/-- Processing of one extracted co-author `{name, email}` found in a commit
of `repo` (enhanced collector, lines 704-764): merge by stored email
(the normalized email is `email.toLowerCase()`) if some record matches,
else create a fresh record under the generated username. -/
def processCoauthor (reg : Registry) (repo name email : List Char) : Registry :=
  match firstEmailMatch reg (lcs email) with
  | some k =>
    rupd1 reg k (fun d =>
      { d with contributions := d.contributions + 1,
               repositories := addRepo d.repositories repo })
  | none =>
    rset reg (genUsername reg name email)
      (newCoauthorRec (genUsername reg name email) name email repo)

/-- A batch of co-authors, each tagged with the repository whose commits it
was found in, processed in order. -/
def processCoauthors (reg : Registry) : List (List Char × List Char × List Char) → Registry
  | [] => reg
  | (repo, name, email) :: rest => processCoauthors (processCoauthor reg repo name email) rest

/-! ### Registry lemmas -/

theorem rhas_eq_any_keys (reg : Registry) (k : List Char) :
    rhas reg k = (rkeys reg).any (fun x => x = k) := by
  induction reg with
  | nil => rfl
  | cons p rest ih =>
    simp only [rhas, rkeys, List.map_cons, List.any_cons] at ih ⊢
    rw [ih]

theorem rhas_iff (reg : Registry) (k : List Char) :
    rhas reg k = true ↔ k ∈ rkeys reg := by
  simp only [rhas, rkeys, List.any_eq_true, List.mem_map]
  constructor
  · rintro ⟨p, hp, hpk⟩
    exact ⟨p, hp, by simpa using hpk⟩
  · rintro ⟨p, hp, rfl⟩
    exact ⟨p, hp, by simp⟩

theorem rget?_cons_pos (p : List Char × CRecord) (rest : Registry) (k : List Char)
    (hk : p.1 = k) : rget? (p :: rest) k = some p.2 := by
  unfold rget?
  rw [List.find?_cons_of_pos _ (by simp [hk])]
  rfl

theorem rget?_cons_neg (p : List Char × CRecord) (rest : Registry) (k : List Char)
    (hk : ¬ p.1 = k) : rget? (p :: rest) k = rget? rest k := by
  unfold rget?
  rw [List.find?_cons_of_neg _ (by simp [hk])]

theorem rget?_isSome_of_mem (reg : Registry) (k : List Char) (h : k ∈ rkeys reg) :
    ∃ d, rget? reg k = some d := by
  induction reg with
  | nil => simp [rkeys] at h
  | cons p rest ih =>
    by_cases hk : p.1 = k
    · exact ⟨p.2, rget?_cons_pos p rest k hk⟩
    · have h' : k ∈ rkeys rest := by
        simp only [rkeys, List.map_cons, List.mem_cons] at h
        rcases h with h | h
        · exact absurd h.symm hk
        · exact h
      obtain ⟨d, hd⟩ := ih h'
      exact ⟨d, by rw [rget?_cons_neg p rest k hk]; exact hd⟩

theorem totalContrib_cons (p : List Char × CRecord) (rest : Registry) :
    totalContrib (p :: rest) = p.2.contributions + totalContrib rest := by
  simp [totalContrib]

theorem rget?_rupd1_self (reg : Registry) (k : List Char) (d : CRecord)
    (f : CRecord → CRecord) (h : rget? reg k = some d) :
    rget? (rupd1 reg k f) k = some (f d) := by
  induction reg with
  | nil => simp [rget?] at h
  | cons p rest ih =>
    obtain ⟨k', v⟩ := p
    by_cases hk : k' = k
    · subst hk
      rw [rget?_cons_pos (k', v) rest k' rfl] at h
      injection h with h
      subst h
      simp only [rupd1, if_pos rfl]
      exact rget?_cons_pos _ _ _ rfl
    · rw [rget?_cons_neg (k', v) rest k hk] at h
      simp only [rupd1, if_neg hk]
      rw [rget?_cons_neg _ _ _ hk]
      exact ih h

theorem totalContrib_rupd1 (reg : Registry) (k : List Char) (d : CRecord)
    (f : CRecord → CRecord) (h : rget? reg k = some d) :
    totalContrib (rupd1 reg k f) + d.contributions
      = totalContrib reg + (f d).contributions := by
  induction reg with
  | nil => simp [rget?] at h
  | cons p rest ih =>
    obtain ⟨k', v⟩ := p
    by_cases hk : k' = k
    · subst hk
      rw [rget?_cons_pos (k', v) rest k' rfl] at h
      injection h with h
      subst h
      have hu : rupd1 ((k', v) :: rest) k' f = (k', f v) :: rest := by simp [rupd1]
      rw [hu, totalContrib_cons, totalContrib_cons]
      dsimp only
      omega
    · rw [rget?_cons_neg (k', v) rest k hk] at h
      have hrec := ih h
      simp only [rupd1, if_neg hk, totalContrib_cons]
      omega

theorem rset_fresh (reg : Registry) (k : List Char) (v : CRecord)
    (h : rhas reg k = false) : rset reg k v = reg ++ [(k, v)] := by
  induction reg with
  | nil => simp [rset]
  | cons p rest ih =>
    obtain ⟨k', v'⟩ := p
    unfold rhas at h
    rw [List.any_cons, Bool.or_eq_false_iff] at h
    obtain ⟨ha, hb⟩ := h
    have h1 : ¬ k' = k := by simpa using ha
    simp only [rset, if_neg h1]
    rw [ih hb]
    simp

theorem totalContrib_append (reg reg' : Registry) :
    totalContrib (reg ++ reg') = totalContrib reg + totalContrib reg' := by
  simp [totalContrib]

/-! ### Freshness of the generated co-author usernames -/

/-- The candidate names the `while` loop inspects, in inspection order. -/
def candList (base cur : List Char) (counter fuel : Nat) : List (List Char) :=
  cur :: (List.range fuel).map (fun i => suffixName base (counter + i))

theorem findFreeAux_fresh (reg : Registry) (base : List Char) :
    ∀ fuel cur counter,
      (∃ c ∈ candList base cur counter fuel, rhas reg c = false) →
      rhas reg (findFreeAux reg base fuel cur counter) = false := by
  intro fuel
  induction fuel with
  | zero =>
    intro cur counter h
    obtain ⟨c, hc, hfree⟩ := h
    simp [candList] at hc
    subst hc
    simpa [findFreeAux] using hfree
  | succ f ih =>
    intro cur counter h
    by_cases hcur : rhas reg cur = true
    · simp only [findFreeAux, hcur, if_true]
      apply ih
      obtain ⟨c, hc, hfree⟩ := h
      simp only [candList, List.mem_cons, List.mem_map, List.mem_range] at hc
      rcases hc with rfl | ⟨i, hi, rfl⟩
      · rw [hcur] at hfree; cases hfree
      · simp only [candList, List.mem_cons, List.mem_map, List.mem_range]
        rcases i with _ | j
        · exact ⟨_, Or.inl rfl, hfree⟩
        · exact ⟨_, Or.inr ⟨j, by omega, by rw [show counter + 1 + j = counter + (j + 1) by omega]⟩, hfree⟩
    · simp only [findFreeAux, hcur, if_false]
      simpa using hcur

theorem natDigits_ne_nil (n : Nat) : natDigits n ≠ [] := by
  unfold natDigits natDigitsAux
  by_cases h : n < 10 <;> simp [h]

theorem suffixName_injective (base : List Char) :
    Function.Injective (suffixName base) := by
  intro a b h
  have h2 := List.append_cancel_left h
  exact natDigits_injective (by simpa using h2)

theorem suffixName_length (base : List Char) (k : Nat) :
    base.length + 2 ≤ (suffixName base k).length := by
  have := natDigits_ne_nil k
  have hlen : 1 ≤ (natDigits k).length := by
    cases hd : natDigits k with
    | nil => exact absurd hd this
    | cons a l => simp
  simp [suffixName]
  omega

theorem exists_fresh (cands keys : List (List Char)) (hnd : cands.Nodup)
    (hlen : keys.length < cands.length) : ∃ c ∈ cands, c ∉ keys := by
  by_contra hall
  push_neg at hall
  have hsub : cands ⊆ keys := fun c hc => hall c hc
  have := (hnd.subperm hsub).length_le
  omega

theorem genUsername_fresh (reg : Registry) (name email : List Char) :
    rhas reg (genUsername reg name email) = false := by
  unfold genUsername
  apply findFreeAux_fresh
  set u2 := if (cleanUser (if name = [] ∨ trimS name = [] then beforeAt email else name)).length < 2
    then ("contributor-").toList ++ natDigits (reg.length + 1)
    else cleanUser (if name = [] ∨ trimS name = [] then beforeAt email else name) with hu2
  have hnd : (candList u2 u2 1 (reg.length + 1)).Nodup := by
    rw [candList, List.nodup_cons]
    refine ⟨?_, ?_⟩
    · intro hmem
      simp only [List.mem_map, List.mem_range] at hmem
      obtain ⟨i, _, heq⟩ := hmem
      have hl := suffixName_length u2 (1 + i)
      rw [heq] at hl
      omega
    · apply List.Nodup.map
      · intro a b hab
        have := suffixName_injective u2 hab
        omega
      · exact List.nodup_range _
  have hlen : (rkeys reg).length < (candList u2 u2 1 (reg.length + 1)).length := by
    simp [candList, rkeys]
    omega
  obtain ⟨c, hc, hfree⟩ := exists_fresh _ (rkeys reg) hnd hlen
  refine ⟨c, hc, ?_⟩
  rw [← Bool.not_eq_true, rhas_iff]
  exact hfree

theorem rkeys_rupd1 (reg : Registry) (k : List Char) (f : CRecord → CRecord) :
    rkeys (rupd1 reg k f) = rkeys reg := by
  induction reg with
  | nil => rfl
  | cons p rest ih =>
    obtain ⟨k', v⟩ := p
    by_cases hk : k' = k
    · simp [rupd1, hk, rkeys]
    · simp only [rupd1, if_neg hk]
      simp only [rkeys, List.map_cons] at ih ⊢
      rw [ih]

theorem firstEmailMatch_mem (reg : Registry) (ne k : List Char)
    (h : firstEmailMatch reg ne = some k) : k ∈ rkeys reg := by
  unfold firstEmailMatch at h
  cases hf : reg.find? (fun p =>
      match p.2.email with
      | some e => e ≠ [] && lcs e = ne
      | none => false) with
  | none => rw [hf] at h; cases h
  | some p =>
    rw [hf] at h
    injection h with h
    subst h
    exact List.mem_map.mpr ⟨p, List.mem_of_find?_eq_some hf, rfl⟩

/-! ### Claim C3: when is a co-author candidate merged? -/

/-- C3 (counterexample): the claim says a candidate whose normalized handle
matches an existing record's canonical login is merged into that record.
With an existing record keyed `alice` (5 contributions, no stored email) and
the candidate `{name: "Alice!", email: "alice@x.com"}`, the normalized
handle is `alice` and matches, yet the code leaves `alice` at 5
contributions and creates a separate record `alice-1`: only a stored-email
match triggers a merge. -/
theorem coauthor_handle_match_not_merged :
    cleanUser (("Alice!").toList) = ("alice").toList ∧
    rhas [((("alice").toList : List Char),
      ({ login := ("alice").toList, contributions := 5,
         repositories := [("r0").toList] } : CRecord))] (("alice").toList) = true ∧
    firstEmailMatch [((("alice").toList : List Char),
      ({ login := ("alice").toList, contributions := 5,
         repositories := [("r0").toList] } : CRecord))] (lcs (("alice@x.com").toList)) = none ∧
    (rget? (processCoauthor [((("alice").toList : List Char),
        ({ login := ("alice").toList, contributions := 5,
           repositories := [("r0").toList] } : CRecord))]
        (("r1").toList) (("Alice!").toList) (("alice@x.com").toList))
      (("alice").toList)).map CRecord.contributions = some 5 ∧
    rhas (processCoauthor [((("alice").toList : List Char),
        ({ login := ("alice").toList, contributions := 5,
           repositories := [("r0").toList] } : CRecord))]
        (("r1").toList) (("Alice!").toList) (("alice@x.com").toList))
      (("alice-1").toList) = true := by
  refine ⟨by decide, by decide, by decide, by decide, by decide⟩

/-- C3 (amended): a heuristic co-author candidate is merged into an existing
record exactly when some record's stored email equals the candidate's email
case-insensitively (the first such record, in insertion order, gets
`contributions + 1` and the repository added, and no key is created or
removed); when no stored email matches, a brand-new record is always
appended under a freshly generated key — even if the candidate's normalized
handle equals an existing canonical login, in which case the generated key
gets a numeric suffix rather than merging. -/
theorem coauthor_upsert_email_only (reg : Registry) (repo name email : List Char) :
    (∀ k, firstEmailMatch reg (lcs email) = some k →
      ∃ d, rget? reg k = some d ∧
        rget? (processCoauthor reg repo name email) k =
          some { d with contributions := d.contributions + 1,
                        repositories := addRepo d.repositories repo } ∧
        rkeys (processCoauthor reg repo name email) = rkeys reg) ∧
    (firstEmailMatch reg (lcs email) = none →
      rhas reg (genUsername reg name email) = false ∧
      processCoauthor reg repo name email =
        reg ++ [(genUsername reg name email,
                 newCoauthorRec (genUsername reg name email) name email repo)]) := by
  constructor
  · intro k hk
    obtain ⟨d, hd⟩ := rget?_isSome_of_mem reg k (firstEmailMatch_mem reg _ k hk)
    refine ⟨d, hd, ?_, ?_⟩
    · unfold processCoauthor
      rw [hk]
      exact rget?_rupd1_self reg k d _ hd
    · unfold processCoauthor
      rw [hk]
      exact rkeys_rupd1 reg k _
  · intro hm
    refine ⟨genUsername_fresh reg name email, ?_⟩
    unfold processCoauthor
    rw [hm]
    exact rset_fresh _ _ _ (genUsername_fresh reg name email)

/-- Witness for `coauthor_upsert_email_only`: both branches at concrete
inputs (a registry whose record `carol` stores the candidate's email, and
the empty registry with no match). -/
theorem coauthor_upsert_email_only_witness :
    (∃ d, rget? [((("carol").toList : List Char),
        ({ login := ("carol").toList, email := some (("b@x.com").toList),
           contributions := 3 } : CRecord))] (("carol").toList) = some d ∧
      rget? (processCoauthor [((("carol").toList : List Char),
          ({ login := ("carol").toList, email := some (("b@x.com").toList),
             contributions := 3 } : CRecord))]
          (("r1").toList) (("Bob").toList) (("B@x.com").toList))
        (("carol").toList) =
        some { d with contributions := d.contributions + 1,
                      repositories := addRepo d.repositories (("r1").toList) } ∧
      rkeys (processCoauthor [((("carol").toList : List Char),
          ({ login := ("carol").toList, email := some (("b@x.com").toList),
             contributions := 3 } : CRecord))]
          (("r1").toList) (("Bob").toList) (("B@x.com").toList)) =
        rkeys [((("carol").toList : List Char),
          ({ login := ("carol").toList, email := some (("b@x.com").toList),
             contributions := 3 } : CRecord))]) ∧
    processCoauthor [] (("r1").toList) (("Bob").toList) (("b@x.com").toList) =
      [] ++ [(genUsername [] (("Bob").toList) (("b@x.com").toList),
              newCoauthorRec (genUsername [] (("Bob").toList) (("b@x.com").toList))
                (("Bob").toList) (("b@x.com").toList) (("r1").toList))] := by
  constructor
  · exact (coauthor_upsert_email_only _ _ _ _).1 _ (by decide)
  · exact ((coauthor_upsert_email_only _ _ _ _).2 (by decide)).2

/-! ### Claim C5: determinism of the generated username -/

/-- C5 (counterexample): the fallback handle `contributor-<n>` is not a
stable function of the email alone: with the same `(email, name)` input
`("a@x.com", "")` (cleaned local part `a` is shorter than 2 characters, so
the fallback fires) the generated handle is `contributor-1` on an empty
registry but `contributor-2` once the registry holds one record — `n` is
`contributorsMap.size + 1`, not a hash of the email. -/
theorem genUsername_state_dependent :
    genUsername [] [] (("a@x.com").toList) = ("contributor-1").toList ∧
    genUsername [((("x").toList : List Char),
        ({ login := ("x").toList, contributions := 1 } : CRecord))]
        [] (("a@x.com").toList) = ("contributor-2").toList ∧
    genUsername [] [] (("a@x.com").toList) ≠
      genUsername [((("x").toList : List Char),
        ({ login := ("x").toList, contributions := 1 } : CRecord))]
        [] (("a@x.com").toList) := by
  refine ⟨by decide, by decide, by decide⟩

theorem findFreeAux_congr (reg reg' : Registry) (base : List Char)
    (h : ∀ k, rhas reg k = rhas reg' k) :
    ∀ fuel cur counter,
      findFreeAux reg base fuel cur counter = findFreeAux reg' base fuel cur counter := by
  intro fuel
  induction fuel with
  | zero => intro cur counter; rfl
  | succ f ih =>
    intro cur counter
    simp only [findFreeAux, h cur]
    by_cases hc : rhas reg' cur = true
    · simp [hc, ih]
    · simp [hc]

/-- C5 (amended): the username generation is deterministic as a function of
the candidate and the registry state — not of the email alone.  Two calls
with the same `(name, email)` agree whenever the registries expose the same
key sequence (the only state the generation reads is `contributorsMap.size`
and `contributorsMap.has`). -/
theorem genUsername_keys_only (reg reg' : Registry) (hk : rkeys reg = rkeys reg')
    (name email : List Char) :
    genUsername reg name email = genUsername reg' name email := by
  have hlen : reg.length = reg'.length := by
    have := congrArg List.length hk
    simpa [rkeys] using this
  have hras : ∀ k, rhas reg k = rhas reg' k := by
    intro k
    rw [rhas_eq_any_keys, rhas_eq_any_keys, hk]
  unfold genUsername
  rw [hlen]
  exact findFreeAux_congr _ _ _ hras _ _ _

/-- Witness for `genUsername_keys_only`: two registries with the same keys
but different records generate the same handle. -/
theorem genUsername_keys_only_witness :
    genUsername [((("x").toList : List Char),
        ({ login := ("x").toList, contributions := 1 } : CRecord))]
        [] (("a@x.com").toList) =
      genUsername [((("x").toList : List Char),
        ({ login := ("other").toList, contributions := 99 } : CRecord))]
        [] (("a@x.com").toList) :=
  genUsername_keys_only _ _ (by decide) _ _

/-! ### Claim C8: order-(in)sensitivity of registry merging -/

/-- C8 (counterexample): processing the same two per-repository co-author
candidates in the two possible repository orders yields different final
per-contributor aggregates.  With candidates `("ab", "ab@x.com")` from repo
`r1` and `("ab", "ab@y.com")` from repo `r2`, the record stored under the
canonical login `ab` ends with repository set `[r1]` in one order and
`[r2]` in the other (the second candidate is keyed `ab-1`): the generated
keys depend on processing order. -/
theorem coauthor_order_dependent :
    [((("r1").toList : List Char), (("ab").toList : List Char), (("ab@x.com").toList : List Char)),
     ((("r2").toList : List Char), (("ab").toList : List Char), (("ab@y.com").toList : List Char))].Perm
    [((("r2").toList : List Char), (("ab").toList : List Char), (("ab@y.com").toList : List Char)),
     ((("r1").toList : List Char), (("ab").toList : List Char), (("ab@x.com").toList : List Char))] ∧
    (rget? (processCoauthors []
        [((("r1").toList : List Char), (("ab").toList : List Char), (("ab@x.com").toList : List Char)),
         ((("r2").toList : List Char), (("ab").toList : List Char), (("ab@y.com").toList : List Char))])
      (("ab").toList)).map CRecord.repositories ≠
    (rget? (processCoauthors []
        [((("r2").toList : List Char), (("ab").toList : List Char), (("ab@y.com").toList : List Char)),
         ((("r1").toList : List Char), (("ab").toList : List Char), (("ab@x.com").toList : List Char))])
      (("ab").toList)).map CRecord.repositories := by
  refine ⟨List.Perm.swap _ _ _, by decide⟩

theorem totalContrib_processCoauthor (reg : Registry) (repo name email : List Char) :
    totalContrib (processCoauthor reg repo name email) = totalContrib reg + 1 := by
  unfold processCoauthor
  cases hm : firstEmailMatch reg (lcs email) with
  | some k =>
    obtain ⟨d, hd⟩ := rget?_isSome_of_mem reg k (firstEmailMatch_mem reg _ k hm)
    have ht := totalContrib_rupd1 reg k d
      (fun d => { d with contributions := d.contributions + 1,
                         repositories := addRepo d.repositories repo }) hd
    dsimp only at ht ⊢
    omega
  | none =>
    rw [rset_fresh _ _ _ (genUsername_fresh reg name email), totalContrib_append]
    rfl

theorem totalContrib_processCoauthors (reg : Registry)
    (cs : List (List Char × List Char × List Char)) :
    totalContrib (processCoauthors reg cs) = totalContrib reg + cs.length := by
  induction cs generalizing reg with
  | nil => simp [processCoauthors]
  | cons c rest ih =>
    obtain ⟨repo, name, email⟩ := c
    simp only [processCoauthors]
    rw [ih, totalContrib_processCoauthor]
    simp
    omega

/-- C8 (amended): what survives reordering is the aggregate total, not the
per-login aggregates: each processed co-author candidate adds exactly one
contribution to the registry-wide total, so any two permutations of the
same candidate collection leave the total contribution sum identical, while
the per-login keys and repository sets may differ (see the counterexample).
-/
theorem coauthor_totals_order_insensitive (reg : Registry)
    (cs cs' : List (List Char × List Char × List Char)) (h : cs.Perm cs') :
    totalContrib (processCoauthors reg cs) = totalContrib (processCoauthors reg cs') := by
  rw [totalContrib_processCoauthors, totalContrib_processCoauthors, h.length_eq]

/-- Witness for `coauthor_totals_order_insensitive` at the concrete swapped
candidate pair of the counterexample scenario. -/
theorem coauthor_totals_order_insensitive_witness :
    totalContrib (processCoauthors []
        [((("r1").toList : List Char), (("ab").toList : List Char), (("ab@x.com").toList : List Char)),
         ((("r2").toList : List Char), (("ab").toList : List Char), (("ab@y.com").toList : List Char))]) =
    totalContrib (processCoauthors []
        [((("r2").toList : List Char), (("ab").toList : List Char), (("ab@y.com").toList : List Char)),
         ((("r1").toList : List Char), (("ab").toList : List Char), (("ab@x.com").toList : List Char))]) :=
  coauthor_totals_order_insensitive [] _ _ (List.Perm.swap _ _ _)

/-! ### Metrics history (`updateHistory` in scripts/collect-metrics.js and
the identical logic at the end of the enhanced collector) -/

/-- One row of `metrics-history.json`. -/
structure HEntry where
  timestampH : List Char
  repositoriesH : Nat
  starsH : Nat
  forksH : Nat
  contributorsH : Nat
  commitsH : Nat
  linesOfCodeH : Nat
deriving Repr, DecidableEq, Inhabited

/-- `history.push(entry); if (history.length > 100) history =
history.slice(-100);` — `slice(-100)` keeps the last 100 elements. -/
def updateHistory (history : List HEntry) (e : HEntry) : List HEntry :=
  if 100 < (history ++ [e]).length then
    (history ++ [e]).drop ((history ++ [e]).length - 100)
  else history ++ [e]

/-- The `try { history = JSON.parse(fs.readFileSync(...)) } catch (error)
{ console.warn(...) }` read: the parse outcome is an `Option`; a parse
failure (`none`) leaves the initial empty history and the run continues. -/
def loadHistory (parsed : Option (List HEntry)) : List HEntry := parsed.getD []

theorem getLast?_drop_of_lt {α : Type} (l : List α) :
    ∀ k, k < l.length → (l.drop k).getLast? = l.getLast? := by
  induction l with
  | nil => intro k h; simp at h
  | cons a t ih =>
    intro k h
    cases k with
    | zero => rfl
    | succ j =>
      have hj : j < t.length := by simpa using h
      cases t with
      | nil => simp at hj
      | cons b t' =>
        rw [List.drop_succ_cons, List.getLast?_cons_cons]
        exact ih j hj

/-- C9: after every history update the array holds at most 100 entries, the
update only ever removes a prefix of the pre-update array (oldest first —
the result is exactly `(history ++ [entry])` with its first
`length + 1 - 100` elements dropped), and the current run's entry is the
last element of the saved array. -/
theorem updateHistory_bounded (h : List HEntry) (e : HEntry) :
    (updateHistory h e).length ≤ 100 ∧
    (updateHistory h e).getLast? = some e ∧
    updateHistory h e = (h ++ [e]).drop (h.length + 1 - 100) := by
  unfold updateHistory
  by_cases hc : 100 < (h ++ [e]).length
  · rw [if_pos hc]
    have hlen : (h ++ [e]).length = h.length + 1 := by simp
    refine ⟨?_, ?_, ?_⟩
    · rw [List.length_drop]
      omega
    · rw [getLast?_drop_of_lt _ _ (by omega)]
      exact List.getLast?_concat _
    · rw [hlen]
  · rw [if_neg hc]
    have hlen : (h ++ [e]).length = h.length + 1 := by simp
    refine ⟨by omega, List.getLast?_concat _, ?_⟩
    have hz : h.length + 1 - 100 = 0 := by omega
    rw [hz, List.drop_zero]

/-- C10: when the existing history file fails to parse, the error is
swallowed and the update starts from the empty history, so the newly
written history is exactly the single entry of the current run. -/
theorem updateHistory_corrupt_file (e : HEntry) :
    loadHistory none = [] ∧ updateHistory (loadHistory none) e = [e] := by
  refine ⟨rfl, ?_⟩
  rw [loadHistory]
  rfl

/-! ### Deduplication merge (enhanced collector, lines 982-1090)

The duplicate-discovery maps produce `{type, key, logins}` sets; the merge
loop scores the surviving candidates, picks a primary and folds the others
into it.  `Array.prototype.sort` is stable (ES2019), and the comparator
`(a, b) => b.score - a.score` sorts by descending score, so the sort is
modelled by a stable insertion sort on descending scores.

The scores are IEEE-754 binary64 numbers: `score += data.contributions * 0.1`
followed by the integer bonuses 100/50/30/20/5, each `+=` rounding its exact
result to the nearest double.  Every value arising in this chain is a
non-negative integer multiple of 2⁻⁵⁶: the literal `0.1` denotes the double
7205759403792794 × 2⁻⁵⁶, the exact product `contributions * 0.1` is
`contributions × 7205759403792794` such units, the integer bonuses are
multiples of 2⁵⁶ units, and rounding an exact sum or product of at least
2⁻⁴ (i.e. at least 2⁵² units; every nonzero value in the chain is) to 53
significant bits lands on a multiple of its unit-in-the-last-place, which is
at least 2⁻⁵⁶.  So a double score is represented faithfully and totally
ordered by its unit count (a `Nat`), with binary64 round-to-nearest,
ties-to-even realised by `roundU` below.  The comparator `b.score - a.score`
is sign-faithful to this order: a nonzero difference of two such multiples
of 2⁻⁵⁶ is at least 2⁻⁵⁶ in magnitude, far above the underflow threshold,
so the rounded difference keeps the exact difference's sign. -/

structure DupSet where
  dtype : List Char
  dkey : List Char
  logins : List (List Char)
deriving Repr, DecidableEq, Inhabited

/-- Bit length of a natural number (`0 → 0`, else `⌊log₂ n⌋ + 1`), with an
explicit fuel so that it reduces by `decide`/`rfl`; the fuel 128 covers every
number below `2¹²⁸`, far above the unit counts arising in the scoring. -/
def bitLenF : Nat → Nat → Nat
  | 0, _ => 0
  | f + 1, n => if n = 0 then 0 else bitLenF f (n / 2) + 1

def bitLen (n : Nat) : Nat := bitLenF 128 n

/-- One unit is 2⁻⁵⁶, so the number 1 holds 2⁵⁶ units. -/
def unitsPerOne : Nat := 2 ^ 56

/-- The double denoted by the literal `0.1`, in units of 2⁻⁵⁶: the nearest
binary64 to 1/10 is 7205759403792794 × 2⁻⁵⁶ (= 0x3FB999999999999A). -/
def tenthU : Nat := 7205759403792794

/-- Binary64 rounding on unit counts: round `n` to 53 significant bits,
to nearest, ties to even.  If `n` already fits 53 bits it is exact;
otherwise the low `s` bits are the discarded fraction `r`, compared with
half an ulp, with the tie going to the even quotient. -/
def roundU (n : Nat) : Nat :=
  let L := bitLen n
  if L ≤ 53 then n
  else
    let s := L - 53
    let q := n / 2 ^ s
    let r := n % 2 ^ s
    let h := 2 ^ (s - 1)
    (q + (if h < r ∨ (r = h ∧ q % 2 = 1) then 1 else 0)) * 2 ^ s

/-- `score += b` for an integer bonus `b`: the binary64 addition rounds the
exact sum of the running score and `b × 2⁵⁶` units. -/
def addIntU (n b : Nat) : Nat := roundU (n + b * unitsPerOne)

/-- The binary64 score of the key `login` holding record `d`, in units of
2⁻⁵⁶, accumulated exactly as the `score += …` chain of the source: the
initial `0 + contributions * 0.1` is the rounded product (adding 0 is
exact), and each taken bonus is one rounded addition; an untaken bonus
performs no floating-point operation at all. -/
def scoreUnits (login : List Char) (d : CRecord) : Nat :=
  let s0 := roundU (d.contributions * tenthU)
  let s1 := if optTruthy d.github_login then addIntU s0 100 else s0
  let s2 := match d.github_login with
    | some g => if g ≠ [] ∧ lcs login = lcs g then addIntU s1 50 else s1
    | none => s1
  let s3 := if d.avatar_url ≠ [] ∧ hasSub (("github").toList) d.avatar_url
            then addIntU s2 30 else s2
  let s4 := if ¬ (hasSub (("contributor-").toList) login) then addIntU s3 20 else s3
  if ¬ (login.contains ' ') then addIntU s4 5 else s4

/-- Specification-side exact score, scaled by 10 to be integral
(`0.1 * contributions` becomes `contributions`, the bonuses 100/50/30/20/5
become 1000/500/300/200/50).  This is the score the claim's words describe —
exact rational arithmetic — kept for comparison against the binary64 score
the program actually computes: the counterexample below exhibits an exact
tie whose double scores differ. -/
def score10 (login : List Char) (d : CRecord) : Nat :=
  let s0 := 0 + d.contributions
  let s1 := s0 + (if optTruthy d.github_login then 1000 else 0)
  let s2 := s1 + (match d.github_login with
    | some g => if g ≠ [] ∧ lcs login = lcs g then 500 else 0
    | none => 0)
  let s3 := s2 + (if d.avatar_url ≠ [] ∧ hasSub (("github").toList) d.avatar_url
                  then 300 else 0)
  let s4 := s3 + (if ¬ (hasSub (("contributor-").toList) login) then 200 else 0)
  s4 + (if ¬ (login.contains ' ') then 50 else 0)

/-- Stable insertion of one scored login into a descending-sorted list: an
element moves before the first strictly smaller score, so equal scores keep
their original relative order. -/
def insScoreDesc (x : List Char × Nat) : List (List Char × Nat) → List (List Char × Nat)
  | [] => [x]
  | y :: ys => if y.2 ≤ x.2 then x :: y :: ys else y :: insScoreDesc x ys

/-- Stable sort by descending score — the unique result of the stable
`loginScores.sort((a, b) => b.score - a.score)`. -/
def sortScoresDesc : List (List Char × Nat) → List (List Char × Nat)
  | [] => []
  | x :: xs => insScoreDesc x (sortScoresDesc xs)

/-- `validLogins.map(login => ({login, score}))`. -/
def scoresOf (reg : Registry) (valid : List (List Char)) : List (List Char × Nat) :=
  valid.map (fun l => (l,
    match rget? reg l with
    | some d => scoreUnits l d
    | none => 0))

/-- `logins.filter(login => contributorsMap.has(login) && !mergedLogins.has(login))`. -/
def validOf (reg : Registry) (merged : List (List Char)) (ds : DupSet) : List (List Char) :=
  ds.logins.filter (fun l => rhas reg l && !(merged.contains l))

/-- `loginScores.sort(...)[0].login`: the primary login of a match-set. -/
def primaryOf (reg : Registry) (merged : List (List Char)) (ds : DupSet) : Option (List Char) :=
  ((sortScoresDesc (scoresOf reg (validOf reg merged ds))).head?).map Prod.fst

/-- Folding one absorbed record `d` (stored at key `l`) into the primary
record `p`, following the mutation order of the source: push the alias
entry, add the contributions, union the repository sets, prefer the
absorbed GitHub identity when the primary lacks one, and prefer a
`githubusercontent.com` avatar. -/
def absorbRec (dtype l : List Char) (d p : CRecord) : CRecord :=
  let p1 := { p with
    aliases := p.aliases ++ [{ loginA := l, typeA := dtype,
                               contributionsA := d.contributions,
                               repositoriesA := d.repositories }],
    contributions := p.contributions + d.contributions,
    repositories := d.repositories.foldl addRepo p.repositories }
  let p2 := if optTruthy d.github_login ∧ ¬ optTruthy p1.github_login then
      { p1 with github_login := d.github_login, avatar_url := d.avatar_url,
                html_url := d.html_url,
                matched_by_email := dtype = ("email").toList,
                matched_by_name := dtype = ("similar_name").toList }
    else p1
  if d.avatar_url ≠ [] ∧ hasSub (("githubusercontent.com").toList) d.avatar_url ∧
     (p2.avatar_url = [] ∨ ¬ hasSub (("githubusercontent.com").toList) p2.avatar_url) then
    { p2 with avatar_url := d.avatar_url }
  else p2

/-- Absorbing the record under key `l` into the primary under key `pk`:
mutate the primary in place, then `contributorsMap.delete(login)`. -/
def absorbOne (dtype pk : List Char) (reg : Registry) (l : List Char) : Registry :=
  match rget? reg l, rget? reg pk with
  | some d, some p => rdel (rupd1 reg pk (fun _ => absorbRec dtype l d p)) l
  | _, _ => reg

/-- One step of the merge loop body: `if (login === primaryLogin) continue`,
else absorb and record the login in `mergedLogins`. -/
def absorbStep (dtype pk : List Char) (acc : Registry × List (List Char))
    (l : List Char) : Registry × List (List Char) :=
  if l = pk then acc else (absorbOne dtype pk acc.1 l, acc.2 ++ [l])

/-- Processing one match-set of the `for (const {type, key, logins} of
duplicates)` loop, on the pair (registry, mergedLogins). -/
def mergeSet (rm : Registry × List (List Char)) (ds : DupSet) :
    Registry × List (List Char) :=
  if ds.logins.all (fun l => rm.2.contains l || !(rhas rm.1 l)) then rm
  else if (validOf rm.1 rm.2 ds).length ≤ 1 then rm
  else
    match primaryOf rm.1 rm.2 ds with
    | none => rm
    | some pk => (validOf rm.1 rm.2 ds).foldl (absorbStep ds.dtype pk) rm

/-- The whole final merge pass over the discovered duplicate sets. -/
def mergePass (reg : Registry) (dups : List DupSet) : Registry :=
  (dups.foldl mergeSet (reg, [])).1

/-! ### Claim C6: the merge primary is the first member of maximal score -/

/-- Specification-side selection: the first element of the list attaining
the maximal score (ties keep the earliest). -/
def firstMaxScore : List (List Char × Nat) → Option (List Char × Nat)
  | [] => none
  | x :: xs =>
    match firstMaxScore xs with
    | none => some x
    | some m => if m.2 ≤ x.2 then some x else some m

theorem firstMaxScore_eq_none_iff (xs : List (List Char × Nat)) :
    firstMaxScore xs = none ↔ xs = [] := by
  cases xs with
  | nil => simp [firstMaxScore]
  | cons x t =>
    simp only [firstMaxScore]
    cases firstMaxScore t with
    | none => simp
    | some m =>
      by_cases h : m.2 ≤ x.2 <;> simp [h]

theorem firstMaxScore_spec (xs : List (List Char × Nat)) :
    ∀ m, firstMaxScore xs = some m → m ∈ xs ∧ ∀ y ∈ xs, y.2 ≤ m.2 := by
  induction xs with
  | nil => intro m h; cases h
  | cons x t ih =>
    intro m h
    simp only [firstMaxScore] at h
    cases ht : firstMaxScore t with
    | none =>
      rw [ht] at h
      injection h with h
      subst h
      have : t = [] := (firstMaxScore_eq_none_iff t).mp ht
      subst this
      exact ⟨List.mem_singleton_self x, by simp⟩
    | some m' =>
      rw [ht] at h
      dsimp only at h
      obtain ⟨hmem, hmax⟩ := ih m' ht
      by_cases hc : m'.2 ≤ x.2
      · rw [if_pos hc] at h
        injection h with h
        subst h
        refine ⟨List.mem_cons_self _ _, ?_⟩
        intro y hy
        rcases List.mem_cons.mp hy with rfl | hy
        · exact le_refl _
        · exact le_trans (hmax y hy) hc
      · rw [if_neg hc] at h
        injection h with h
        subst h
        refine ⟨List.mem_cons_of_mem _ hmem, ?_⟩
        intro y hy
        rcases List.mem_cons.mp hy with rfl | hy
        · omega
        · exact hmax y hy

theorem sortScoresDesc_length (xs : List (List Char × Nat)) :
    (sortScoresDesc xs).length = xs.length := by
  induction xs with
  | nil => rfl
  | cons x t ih =>
    have hins : ∀ (y : List Char × Nat) (l : List (List Char × Nat)),
        (insScoreDesc y l).length = l.length + 1 := by
      intro y l
      induction l with
      | nil => rfl
      | cons z l' ihl =>
        simp only [insScoreDesc]
        by_cases h : z.2 ≤ y.2 <;> simp [h, ihl]
    simp [sortScoresDesc, hins, ih]

/-- The head of the stable descending sort is the first maximal element. -/
theorem sortScoresDesc_head (xs : List (List Char × Nat)) :
    (sortScoresDesc xs).head? = firstMaxScore xs := by
  induction xs with
  | nil => rfl
  | cons x t ih =>
    simp only [sortScoresDesc, firstMaxScore]
    cases hs : sortScoresDesc t with
    | nil =>
      have ht : t = [] := by
        have := sortScoresDesc_length t
        rw [hs] at this
        exact List.length_eq_zero.mp this.symm
      subst ht
      rfl
    | cons m s' =>
      have hm : firstMaxScore t = some m := by
        rw [← ih, hs]
        rfl
      rw [hm]
      simp only [insScoreDesc]
      by_cases hc : m.2 ≤ x.2 <;> simp [hc]

theorem find?_congr_mem {p q : List Char × Nat → Bool}
    (l : List (List Char × Nat)) (h : ∀ a ∈ l, p a = q a) :
    l.find? p = l.find? q := by
  induction l with
  | nil => rfl
  | cons x t ih =>
    have hx := h x (List.mem_cons_self _ _)
    by_cases hp : p x = true
    · rw [List.find?_cons_of_pos _ hp, List.find?_cons_of_pos _ (hx ▸ hp)]
    · have hq : ¬ q x = true := by rw [← hx]; exact hp
      rw [List.find?_cons_of_neg _ hp, List.find?_cons_of_neg _ hq]
      exact ih (fun a ha => h a (List.mem_cons_of_mem _ ha))

/-- The first maximal element is the first list element whose score is ≥
every score in the list. -/
theorem firstMaxScore_eq_find? (xs : List (List Char × Nat)) :
    firstMaxScore xs = xs.find? (fun x => xs.all (fun y => y.2 ≤ x.2)) := by
  induction xs with
  | nil => rfl
  | cons x t ih =>
    simp only [firstMaxScore]
    cases ht : firstMaxScore t with
    | none =>
      have : t = [] := (firstMaxScore_eq_none_iff t).mp ht
      subst this
      simp [List.find?]
    | some m =>
      obtain ⟨hmem, hmax⟩ := firstMaxScore_spec t m ht
      dsimp only
      by_cases hc : m.2 ≤ x.2
      · rw [if_pos hc]
        have hcond : ((x :: t).all (fun y => decide (y.2 ≤ x.2))) = true := by
          simp only [List.all_eq_true, decide_eq_true_eq]
          intro y hy
          rcases List.mem_cons.mp hy with rfl | hy
          · exact le_refl _
          · exact le_trans (hmax y hy) hc
        have hfind : List.find? (fun a => (x :: t).all fun y => decide (y.2 ≤ a.2)) (x :: t)
            = some x := List.find?_cons_of_pos _ hcond
        exact hfind.symm
      · rw [if_neg hc]
        have hcond : ¬ ((x :: t).all (fun y => decide (y.2 ≤ x.2))) = true := by
          simp only [List.all_eq_true, decide_eq_true_eq, not_forall]
          exact ⟨m, List.mem_cons_of_mem _ hmem, by omega⟩
        have hstep : List.find? (fun a => (x :: t).all fun y => decide (y.2 ≤ a.2)) (x :: t)
            = List.find? (fun a => (x :: t).all fun y => decide (y.2 ≤ a.2)) t :=
          List.find?_cons_of_neg _ hcond
        have ihm := ih
        rw [ht] at ihm
        rw [hstep, ihm]
        apply find?_congr_mem
        intro a ha
        rw [List.all_cons]
        by_cases hta : (t.all fun y => decide (y.2 ≤ a.2)) = true
        · have hma : m.2 ≤ a.2 := by
            simpa using (List.all_eq_true.mp hta) m hmem
          have hxa : x.2 ≤ a.2 := by omega
          simp [hta, hxa]
        · rw [Bool.not_eq_true] at hta
          simp [hta]

/-- C6 (amended): the merge primary is the first-encountered match-set
member whose binary64 score is maximal — the head of the stable descending
sort (ES2019 `Array.prototype.sort`, comparator `b.score - a.score`) equals
the first list element whose score is ≥ every score in the list.  The
scores here are the doubles the program computes (`scoresOf` pairs each
valid login with `scoreUnits`, the rounded `score += …` chain in units of
2⁻⁵⁶), not the exact rational scores of the claim's formula: the
counterexample below shows the two orders differ at exact-score ties. -/
theorem dedup_primary_first_max_binary64 (reg : Registry) (merged : List (List Char))
    (ds : DupSet) :
    primaryOf reg merged ds =
      ((scoresOf reg (validOf reg merged ds)).find?
        (fun x => (scoresOf reg (validOf reg merged ds)).all (fun y => y.2 ≤ x.2))).map
        Prod.fst := by
  unfold primaryOf
  rw [sortScoresDesc_head, firstMaxScore_eq_find?]

/-- First tie member: 1 contribution, synthetic login without whitespace,
so exact score 0.1·1 + 5 = 5.1 (51 scaled by 10). -/
def tieRecFirst : CRecord :=
  { login := ("contributor-1").toList, contributions := 1 }

/-- Second tie member: 51 contributions, synthetic login containing a
space, so exact score 0.1·51 = 5.1 (51 scaled by 10). -/
def tieRecLater : CRecord :=
  { login := ("contributor- a").toList, contributions := 51 }

def tieReg : Registry :=
  [(("contributor-1").toList, tieRecFirst), (("contributor- a").toList, tieRecLater)]

def tieDupSet : DupSet :=
  { dtype := ("email").toList, dkey := ("t@x.com").toList,
    logins := [("contributor-1").toList, ("contributor- a").toList] }

/-- C6 counterexample: two match-set members whose exact scores tie
(both 5.1: one contribution plus the no-whitespace bonus versus 51
contributions alone), with the bonus member listed first — yet the program
picks the second member as primary, not the first-encountered one.  In
binary64, `0.1 * 51` rounds up to 5.100000000000000355… while
`0.1 * 1 + 5` rounds down to the double nearest 5.1, so the doubles are not
tied and the stated first-encountered tie-break never applies to the exact
tie. -/
theorem dedup_primary_exact_tie_broken :
    score10 (("contributor-1").toList) tieRecFirst
      = score10 (("contributor- a").toList) tieRecLater ∧
    tieDupSet.logins = [("contributor-1").toList, ("contributor- a").toList] ∧
    scoreUnits (("contributor-1").toList) tieRecFirst
      < scoreUnits (("contributor- a").toList) tieRecLater ∧
    primaryOf tieReg [] tieDupSet = some (("contributor- a").toList) := by
  refine ⟨by decide, rfl, by decide, by decide⟩

/-! ### Claim C1: merging preserves contributions -/

theorem rget?_eq_none_iff (reg : Registry) (k : List Char) :
    rget? reg k = none ↔ k ∉ rkeys reg := by
  induction reg with
  | nil => simp [rget?, rkeys]
  | cons p rest ih =>
    by_cases hk : p.1 = k
    · rw [rget?_cons_pos p rest k hk]
      simp [rkeys, hk.symm]
    · rw [rget?_cons_neg p rest k hk]
      rw [ih]
      simp only [rkeys, List.map_cons, List.mem_cons]
      constructor
      · intro h hc
        rcases hc with hc | hc
        · exact hk hc.symm
        · exact h hc
      · intro h hc
        exact h (Or.inr hc)

theorem rget?_rupd1_of_ne (reg : Registry) (key k : List Char)
    (f : CRecord → CRecord) (hk : k ≠ key) :
    rget? (rupd1 reg key f) k = rget? reg k := by
  induction reg with
  | nil => rfl
  | cons p rest ih =>
    obtain ⟨k', v⟩ := p
    by_cases hkey : k' = key
    · subst hkey
      have hu : rupd1 ((k', v) :: rest) k' f = (k', f v) :: rest := by simp [rupd1]
      rw [hu, rget?_cons_neg _ _ _ (fun h => hk h.symm),
          rget?_cons_neg _ _ _ (fun h => hk h.symm)]
    · simp only [rupd1, if_neg hkey]
      by_cases hkk : k' = k
      · rw [rget?_cons_pos _ _ _ hkk, rget?_cons_pos _ _ _ hkk]
      · rw [rget?_cons_neg _ _ _ hkk, rget?_cons_neg _ _ _ hkk]
        exact ih

theorem rget?_rdel_of_ne (reg : Registry) (key k : List Char) (hk : k ≠ key) :
    rget? (rdel reg key) k = rget? reg k := by
  induction reg with
  | nil => rfl
  | cons p rest ih =>
    obtain ⟨k', v⟩ := p
    by_cases hkey : k' = key
    · simp only [rdel, if_pos hkey]
      rw [rget?_cons_neg _ _ _ (by rw [hkey]; exact fun h => hk h.symm)]
    · simp only [rdel, if_neg hkey]
      by_cases hkk : k' = k
      · rw [rget?_cons_pos _ _ _ hkk, rget?_cons_pos _ _ _ hkk]
      · rw [rget?_cons_neg _ _ _ hkk, rget?_cons_neg _ _ _ hkk]
        exact ih

theorem rkeys_rdel (reg : Registry) (key : List Char) :
    rkeys (rdel reg key) = (rkeys reg).erase key := by
  induction reg with
  | nil => rfl
  | cons p rest ih =>
    obtain ⟨k', v⟩ := p
    by_cases hkey : k' = key
    · subst hkey
      simp [rdel, rkeys, List.erase_cons_head]
    · simp only [rdel, if_neg hkey, rkeys, List.map_cons]
      rw [List.erase_cons_tail]
      · simp only [rkeys] at ih
        rw [ih]
      · simp [hkey]

theorem rget?_rdel_self_of_nodup (reg : Registry) (key : List Char)
    (hnd : (rkeys reg).Nodup) : rget? (rdel reg key) key = none := by
  induction reg with
  | nil => rfl
  | cons p rest ih =>
    obtain ⟨k', v⟩ := p
    simp only [rkeys, List.map_cons, List.nodup_cons] at hnd
    by_cases hkey : k' = key
    · subst hkey
      simp only [rdel, if_pos rfl]
      rw [rget?_eq_none_iff]
      exact hnd.1
    · simp only [rdel, if_neg hkey]
      rw [rget?_cons_neg _ _ _ hkey]
      exact ih hnd.2

theorem totalContrib_rdel (reg : Registry) (key : List Char) (d : CRecord)
    (h : rget? reg key = some d) :
    totalContrib (rdel reg key) + d.contributions = totalContrib reg := by
  induction reg with
  | nil => simp [rget?] at h
  | cons p rest ih =>
    obtain ⟨k', v⟩ := p
    by_cases hkey : k' = key
    · rw [rget?_cons_pos _ _ _ hkey] at h
      injection h with h
      subst h
      simp only [rdel, if_pos hkey, totalContrib_cons]
      omega
    · rw [rget?_cons_neg _ _ _ hkey] at h
      simp only [rdel, if_neg hkey, totalContrib_cons]
      have := ih h
      omega

theorem absorbRec_contributions (dtype l : List Char) (d p : CRecord) :
    (absorbRec dtype l d p).contributions = p.contributions + d.contributions := by
  unfold absorbRec
  dsimp only
  split_ifs <;> rfl

theorem absorbRec_aliases (dtype l : List Char) (d p : CRecord) :
    (absorbRec dtype l d p).aliases =
      p.aliases ++ [{ loginA := l, typeA := dtype,
                      contributionsA := d.contributions,
                      repositoriesA := d.repositories }] := by
  unfold absorbRec
  dsimp only
  split_ifs <;> rfl

/-- The record's pre-merge contribution count, read off the registry. -/
def contribOf (reg : Registry) (l : List Char) : Nat :=
  ((rget? reg l).map CRecord.contributions).getD 0

def contribSum (reg : Registry) (ls : List (List Char)) : Nat :=
  (ls.map (contribOf reg)).sum

/-- The alias entry recorded for the absorbed key `l`, holding its pre-merge
contribution count and repository set. -/
def aliasEntryOf (reg : Registry) (dtype l : List Char) : AliasEntry :=
  { loginA := l, typeA := dtype,
    contributionsA := contribOf reg l,
    repositoriesA := ((rget? reg l).map CRecord.repositories).getD [] }

/-- Invariant of the absorb loop: folding the members of a match-set into
the primary `pk` preserves the registry-wide contribution total, leaves the
primary holding its own pre-merge contributions plus those of every
absorbed member (recorded once each, in order, in `aliases` with their
pre-merge counts), removes every absorbed key, and creates no key. -/
theorem absorbFold_spec (dtype pk : List Char) :
    ∀ (L : List (List Char)) (reg : Registry) (ml : List (List Char)) (p : CRecord),
      (rkeys reg).Nodup → L.Nodup →
      (∀ l ∈ L, l ≠ pk → l ∈ rkeys reg) →
      rget? reg pk = some p →
      totalContrib (L.foldl (absorbStep dtype pk) (reg, ml)).1 = totalContrib reg ∧
      (∃ q, rget? (L.foldl (absorbStep dtype pk) (reg, ml)).1 pk = some q ∧
        q.contributions = p.contributions + contribSum reg (L.filter (fun l => l ≠ pk)) ∧
        q.aliases = p.aliases ++ (L.filter (fun l => l ≠ pk)).map (aliasEntryOf reg dtype)) ∧
      (∀ l ∈ L, l ≠ pk → rget? (L.foldl (absorbStep dtype pk) (reg, ml)).1 l = none) ∧
      (∀ k, rget? reg k = none → rget? (L.foldl (absorbStep dtype pk) (reg, ml)).1 k = none) := by
  intro L
  induction L with
  | nil =>
    intro reg ml p hnd hLnd hLmem hp
    refine ⟨rfl, ⟨p, hp, by simp [contribSum], by simp⟩, by simp, fun k hk => hk⟩
  | cons l L' ih =>
    intro reg ml p hnd hLnd hLmem hp
    have hL'nd : L'.Nodup := (List.nodup_cons.mp hLnd).2
    have hlnotin : l ∉ L' := (List.nodup_cons.mp hLnd).1
    by_cases hl : l = pk
    · have hfold : (l :: L').foldl (absorbStep dtype pk) (reg, ml)
          = L'.foldl (absorbStep dtype pk) (reg, ml) := by
        simp [List.foldl_cons, absorbStep, hl]
      obtain ⟨c1, c2, c3, c4⟩ := ih reg ml p hnd hL'nd
        (fun x hx hxp => hLmem x (List.mem_cons_of_mem _ hx) hxp) hp
      have hfilt : (l :: L').filter (fun x => x ≠ pk) = L'.filter (fun x => x ≠ pk) := by
        simp [List.filter_cons, hl]
      rw [hfold]
      refine ⟨c1, by rw [hfilt]; exact c2, ?_, c4⟩
      intro x hx hxp
      rcases List.mem_cons.mp hx with rfl | hx
      · exact absurd hl hxp
      · exact c3 x hx hxp
    · have hlmem : l ∈ rkeys reg := hLmem l (List.mem_cons_self _ _) hl
      obtain ⟨d, hd⟩ := rget?_isSome_of_mem reg l hlmem
      set f := (fun (_ : CRecord) => absorbRec dtype l d p) with hf
      have hpk_ne_l : pk ≠ l := fun h => hl h.symm
      have hstep : (l :: L').foldl (absorbStep dtype pk) (reg, ml)
          = L'.foldl (absorbStep dtype pk)
              (rdel (rupd1 reg pk f) l, ml ++ [l]) := by
        simp only [List.foldl_cons, absorbStep, if_neg hl, absorbOne]
        rw [hd, hp, hf]
      have hreg'_pk : rget? (rdel (rupd1 reg pk f) l) pk = some (absorbRec dtype l d p) := by
        rw [rget?_rdel_of_ne _ _ _ hpk_ne_l]
        exact rget?_rupd1_self reg pk p f hp
      have hkeys_upd : rkeys (rupd1 reg pk f) = rkeys reg := rkeys_rupd1 _ _ _
      have hkeys' : rkeys (rdel (rupd1 reg pk f) l) = (rkeys reg).erase l := by
        rw [rkeys_rdel, hkeys_upd]
      have hnd' : (rkeys (rdel (rupd1 reg pk f) l)).Nodup := by
        rw [hkeys']
        exact hnd.erase l
      have hmem' : ∀ x ∈ L', x ≠ pk → x ∈ rkeys (rdel (rupd1 reg pk f) l) := by
        intro x hx hxp
        rw [hkeys']
        have hxl : x ≠ l := fun h => hlnotin (h ▸ hx)
        exact (List.mem_erase_of_ne hxl).mpr (hLmem x (List.mem_cons_of_mem _ hx) hxp)
      have hunch : ∀ x, x ≠ pk → x ≠ l → rget? (rdel (rupd1 reg pk f) l) x = rget? reg x := by
        intro x hxp hxl
        rw [rget?_rdel_of_ne _ _ _ hxl, rget?_rupd1_of_ne _ _ _ _ hxp]
      have htot' : totalContrib (rdel (rupd1 reg pk f) l) = totalContrib reg := by
        have h1 := totalContrib_rupd1 reg pk p f hp
        have h2 : rget? (rupd1 reg pk f) l = some d := by
          rw [rget?_rupd1_of_ne _ _ _ _ hl]
          exact hd
        have h3 := totalContrib_rdel (rupd1 reg pk f) l d h2
        have h4 : (f p).contributions = p.contributions + d.contributions :=
          absorbRec_contributions _ _ _ _
        omega
      have hdel : rget? (rdel (rupd1 reg pk f) l) l = none := by
        apply rget?_rdel_self_of_nodup
        rw [hkeys_upd]
        exact hnd
      obtain ⟨c1, c2, c3, c4⟩ := ih (rdel (rupd1 reg pk f) l) (ml ++ [l])
        (absorbRec dtype l d p) hnd' hL'nd hmem' hreg'_pk
      have hfilt : (l :: L').filter (fun x => x ≠ pk)
          = l :: L'.filter (fun x => x ≠ pk) := by
        simp [List.filter_cons, hl]
      rw [hstep]
      refine ⟨?_, ?_, ?_, ?_⟩
      · rw [c1, htot']
      · obtain ⟨q, hq, hqc, hqa⟩ := c2
        refine ⟨q, hq, ?_, ?_⟩
        · rw [hqc, absorbRec_contributions]
          have hsum : contribSum (rdel (rupd1 reg pk f) l) (L'.filter (fun x => x ≠ pk))
              = contribSum reg (L'.filter (fun x => x ≠ pk)) := by
            unfold contribSum
            congr 1
            apply List.map_congr_left
            intro x hx
            have hxmem := List.mem_filter.mp hx
            have hxp : x ≠ pk := by simpa using hxmem.2
            have hxl : x ≠ l := fun h => hlnotin (h ▸ hxmem.1)
            unfold contribOf
            rw [hunch x hxp hxl]
          rw [hsum, hfilt]
          unfold contribSum
          simp only [List.map_cons, List.sum_cons]
          unfold contribOf
          rw [hd]
          dsimp only [Option.map_some', Option.getD_some]
          omega
        · rw [hqa, absorbRec_aliases]
          have halias : (L'.filter (fun x => x ≠ pk)).map
                (aliasEntryOf (rdel (rupd1 reg pk f) l) dtype)
              = (L'.filter (fun x => x ≠ pk)).map (aliasEntryOf reg dtype) := by
            apply List.map_congr_left
            intro x hx
            have hxmem := List.mem_filter.mp hx
            have hxp : x ≠ pk := by simpa using hxmem.2
            have hxl : x ≠ l := fun h => hlnotin (h ▸ hxmem.1)
            unfold aliasEntryOf contribOf
            rw [hunch x hxp hxl]
          rw [halias, hfilt, List.map_cons]
          have hentry : aliasEntryOf reg dtype l =
              { loginA := l, typeA := dtype,
                contributionsA := d.contributions,
                repositoriesA := d.repositories } := by
            unfold aliasEntryOf contribOf
            rw [hd]
            rfl
          rw [hentry]
          simp [List.append_assoc]
      · intro x hx hxp
        rcases List.mem_cons.mp hx with rfl | hx
        · exact c4 x hdel
        · exact c3 x hx hxp
      · intro k hk
        apply c4
        by_cases hkp : k = pk
        · exfalso
          rw [hkp, hp] at hk
          cases hk
        · by_cases hkl : k = l
          · rw [hkl]
            exact hdel
          · rw [hunch k hkp hkl]
            exact hk

theorem primaryOf_mem_valid (reg : Registry) (ml : List (List Char)) (ds : DupSet)
    (pk : List Char) (h : primaryOf reg ml ds = some pk) :
    pk ∈ validOf reg ml ds := by
  unfold primaryOf at h
  cases hh : (sortScoresDesc (scoresOf reg (validOf reg ml ds))).head? with
  | none => rw [hh] at h; cases h
  | some m =>
    rw [hh] at h
    injection h with h
    subst h
    rw [sortScoresDesc_head] at hh
    obtain ⟨hmem, _⟩ := firstMaxScore_spec _ _ hh
    unfold scoresOf at hmem
    obtain ⟨x, hx, hxe⟩ := List.mem_map.mp hmem
    rw [← hxe]
    exact hx

theorem mem_valid_rhas (reg : Registry) (ml : List (List Char)) (ds : DupSet)
    (l : List Char) (h : l ∈ validOf reg ml ds) : l ∈ rkeys reg := by
  unfold validOf at h
  have h2 := (List.mem_filter.mp h).2
  rw [← rhas_iff]
  have h3 : rhas reg l = true ∧ (!ml.contains l) = true := by simpa using h2
  exact h3.1

/-- C1: a deduplication merge of one match-set preserves contributions.
The registry-wide sum of `contributions` over live records is unchanged by
the merge (also in the skip branches), and when the merge runs with primary
`pk` holding the pre-merge record `p`, the surviving primary afterwards
holds exactly its own pre-merge contributions plus the pre-merge
contributions of all absorbed match-set members, each absorbed member is
recorded once, in order, in the primary's `aliases` list with its pre-merge
count, and every absorbed record is deleted from the registry. -/
theorem mergeSet_contribution_preserving (reg : Registry) (ml : List (List Char))
    (ds : DupSet) (hnd : (rkeys reg).Nodup) (hld : ds.logins.Nodup) :
    totalContrib (mergeSet (reg, ml) ds).1 = totalContrib reg ∧
    (∀ pk p, primaryOf reg ml ds = some pk → rget? reg pk = some p →
      (ds.logins.all (fun l => ml.contains l || !(rhas reg l))) = false →
      1 < (validOf reg ml ds).length →
      (∃ q, rget? (mergeSet (reg, ml) ds).1 pk = some q ∧
        q.contributions = p.contributions +
          contribSum reg ((validOf reg ml ds).filter (fun l => l ≠ pk)) ∧
        q.aliases = p.aliases ++
          ((validOf reg ml ds).filter (fun l => l ≠ pk)).map (aliasEntryOf reg ds.dtype)) ∧
      (∀ l ∈ validOf reg ml ds, l ≠ pk →
        rget? (mergeSet (reg, ml) ds).1 l = none)) := by
  have hvn : (validOf reg ml ds).Nodup := hld.filter _
  constructor
  · unfold mergeSet
    dsimp only
    by_cases hskip : (ds.logins.all (fun l => ml.contains l || !(rhas reg l))) = true
    · rw [if_pos hskip]
    · rw [if_neg hskip]
      by_cases hlen : (validOf reg ml ds).length ≤ 1
      · rw [if_pos hlen]
      · rw [if_neg hlen]
        cases hpk : primaryOf reg ml ds with
        | none => rfl
        | some pk =>
          have hpkv := primaryOf_mem_valid reg ml ds pk hpk
          obtain ⟨p, hp⟩ := rget?_isSome_of_mem reg pk (mem_valid_rhas reg ml ds pk hpkv)
          exact (absorbFold_spec ds.dtype pk (validOf reg ml ds) reg ml p hnd hvn
            (fun x hx _ => mem_valid_rhas reg ml ds x hx) hp).1
  · intro pk p hpk hp hskip hlen
    have hfold := absorbFold_spec ds.dtype pk (validOf reg ml ds) reg ml p hnd hvn
      (fun x hx _ => mem_valid_rhas reg ml ds x hx) hp
    have hms : mergeSet (reg, ml) ds
        = (validOf reg ml ds).foldl (absorbStep ds.dtype pk) (reg, ml) := by
      unfold mergeSet
      dsimp only
      rw [if_neg (by rw [hskip]; simp), if_neg (by omega), hpk]
    rw [hms]
    exact ⟨hfold.2.1, hfold.2.2.1⟩

/-- The spec's own worked example, used as the witness scenario: records
`alice` (3 contributions) and `alice-1` (2 contributions) sharing the email
`a@x.com`. -/
def mergeExRecA : CRecord :=
  { login := ("alice").toList, email := some (("a@x.com").toList),
    contributions := 3, repositories := [("r1").toList] }

def mergeExRecB : CRecord :=
  { login := ("alice").toList, email := some (("a@x.com").toList),
    contributions := 2, repositories := [("r2").toList] }

def mergeExReg : Registry :=
  [(("alice").toList, mergeExRecA), (("alice-1").toList, mergeExRecB)]

def mergeExSet : DupSet :=
  { dtype := ("email").toList, dkey := ("a@x.com").toList,
    logins := [("alice").toList, ("alice-1").toList] }

/-- Witness for `mergeSet_contribution_preserving` on the spec's
alice/alice-1 example. -/
theorem mergeSet_contribution_preserving_witness :
    totalContrib (mergeSet (mergeExReg, []) mergeExSet).1 = totalContrib mergeExReg ∧
    ((∃ q, rget? (mergeSet (mergeExReg, []) mergeExSet).1 (("alice").toList) = some q ∧
        q.contributions = mergeExRecA.contributions +
          contribSum mergeExReg
            ((validOf mergeExReg [] mergeExSet).filter (fun l => l ≠ ("alice").toList)) ∧
        q.aliases = mergeExRecA.aliases ++
          ((validOf mergeExReg [] mergeExSet).filter (fun l => l ≠ ("alice").toList)).map
            (aliasEntryOf mergeExReg mergeExSet.dtype)) ∧
     (∀ l ∈ validOf mergeExReg [] mergeExSet, l ≠ ("alice").toList →
        rget? (mergeSet (mergeExReg, []) mergeExSet).1 l = none)) := by
  have h := mergeSet_contribution_preserving mergeExReg [] mergeExSet (by decide) (by decide)
  exact ⟨h.1, h.2 (("alice").toList) mergeExRecA (by decide) (by decide) (by decide) (by decide)⟩

/-! ### The co-author extractor `extractCoAuthors` (enhanced collector,
lines 135-307)

Each of the five heuristic passes is translated with the ECMAScript
semantics of its concrete regular expression resolved into a deterministic
executable scan; the derivations are documented at each definition.
Scanners that may jump forward use an explicit fuel argument, always called
with the input length, which strictly bounds the number of steps. -/

/-- An extracted co-author candidate `{name, email, source}`. -/
structure Cand where
  cname : List Char
  cemail : List Char
  csource : List Char
deriving Repr, DecidableEq, Inhabited

def coabExact : List Char := "Co-Authored-By:".toList

def coabLower : List Char := "co-authored-by:".toList

/-- JS `s.match(/<([^>]+)>/)`, group 1: the leftmost `<` whose following
`>`-free run is nonempty and closed by a later `>`; a `<` immediately
followed by `>` (or never closed) makes the engine resume the search one
position further, reaching any later `<`. -/
def firstBracket? : List Char → Option (List Char)
  | [] => none
  | c :: cs =>
    if c = '<' then
      let content := cs.takeWhile (fun x => x ≠ '>')
      if content ≠ [] ∧ content.length < cs.length then some content
      else firstBracket? cs
    else firstBracket? cs

/-- Shared scan for the name groups of `/Co-[aA]uthored-[bB]y:([^<]+)</i`
(step 1) and `/Co-Authored-By:\s*([^<]+)</i` (step 2), composed with the
`.trim()` both call sites apply: both regexes match at the first
case-insensitive marker occurrence that is followed by a nonempty segment
before a later `<`, and after trimming both capture that segment trimmed
(the `\s*` only moves leading whitespace out of the capture, which the
trim removes anyway; when the segment is all whitespace the backtracked
capture is a whitespace character, which trims to the empty name). -/
def coNameAt? (pat : List Char) : List Char → Option (List Char)
  | [] => none
  | c :: cs =>
    if ciPref pat (c :: cs) then
      let after := (c :: cs).drop pat.length
      let seg := after.takeWhile (fun x => x ≠ '<')
      if seg ≠ [] ∧ seg.length < after.length then some (trimS seg)
      else coNameAt? pat cs
    else coNameAt? pat cs

/-- Step 1: line-oriented scan of the normalized message. -/
def step1Line (rawLine : List Char) : List Cand :=
  let line := trimS rawLine
  if hasCiSub coabLower line then
    match firstBracket? line with
    | some e =>
      [{ cname := (coNameAt? coabLower line).getD [],
         cemail := trimS e, csource := ("step1").toList }]
    | none => []
  else []

def step1 (message : List Char) : List Cand :=
  if hasSub coabExact message || hasSub (("Co-authored-by:").toList) message
     || hasSub (("co-authored-by:").toList) message
     || hasSub (("CO-AUTHORED-BY:").toList) message then
    ((splitNl (replCRLF message)).map step1Line).flatten
  else []

/-- The `indexOf`/`substring` section splitter of step 2: the message is
cut at every occurrence (found by stepping the search position by one, so
overlapping occurrences all count) of the exact marker; each section runs
from its occurrence to the next occurrence or the end; text before the
first occurrence is discarded.  The accumulator holds the reversed current
section, `none` before the first occurrence. -/
def secGo (pat : List Char) : List Char → Option (List Char) → List (List Char)
  | [], none => []
  | [], some acc => [acc.reverse]
  | c :: cs, none =>
    if pat.isPrefixOf (c :: cs) then secGo pat cs (some [c])
    else secGo pat cs none
  | c :: cs, some acc =>
    if pat.isPrefixOf (c :: cs) then acc.reverse :: secGo pat cs (some [c])
    else secGo pat cs (some (c :: acc))

def sections (pat s : List Char) : List (List Char) := secGo pat s none

def step2Section (sec : List Char) : List Cand :=
  match firstBracket? sec with
  | some e =>
    [{ cname := (coNameAt? coabLower sec).getD [],
       cemail := trimS e, csource := ("step2").toList }]
  | none => []

def step2 (message : List Char) : List Cand :=
  if hasSub coabExact message then
    ((sections coabExact (nlToSp (replCRLFsp message))).map step2Section).flatten
  else []

/-- A separator character of the step-3 marker: the class `[-\s]`. -/
def sepChar (c : Char) : Bool := c = '-' || isWsC c

/-- The marker part `co[-\s]authored[-\s]by:` (15 characters, `/i`) of the
first step-3 pattern, returning the rest after the marker on a match. -/
def marker3At? (s : List Char) : Option (List Char) :=
  if ciPref (("co").toList) s then
    match s.drop 2 with
    | c1 :: r1 =>
      if sepChar c1 ∧ ciPref (("authored").toList) r1 then
        match r1.drop 8 with
        | c2 :: r2 =>
          if sepChar c2 ∧ ciPref (("by:").toList) r2 then some (r2.drop 3)
          else none
        | [] => none
      else none
    | [] => none
  else none

/-- The literal marker `co-author:` (`/i`) of the second step-3 pattern. -/
def markerCA? (s : List Char) : Option (List Char) :=
  if ciPref (("co-author:").toList) s then some (s.drop 10) else none

/-- Validity of one candidate segment (the text strictly between the
whitespace run and the consumed `<`) for `([^<\n]+?)[\s\n]*`: the lazy
group is the shortest nonempty prefix whose complement is all whitespace;
it must be newline-free (the group class excludes `\n`) while the
whitespace complement may contain newlines. -/
def segValid? (seg : List Char) : Option (List Char) :=
  if seg = [] then none
  else
    let n := max (seg.length - (seg.reverse.takeWhile isWsC).length) 1
    if (seg.take n).all (fun c => c ≠ '\n') ∧ (seg.drop n).all isWsC then
      some (seg.take n)
    else none

/-- Backtracking of the leading `[\s\n]+`: the run is tried greedily (all
of `w`) first; shrinking it prepends trailing whitespace characters of `w`
to the segment; `a` is the run length currently tried, counted down to 1. -/
def tailATry (w seg0 : List Char) : Nat → Option (List Char)
  | 0 => none
  | a + 1 =>
    match segValid? (w.drop (a + 1) ++ seg0) with
    | some g => some g
    | none => tailATry w seg0 a

/-- The tail `[\s\n]+([^<\n]+?)[\s\n]*<([^>\n]+)>` after a matched step-3
marker.  The consumed `<` is necessarily the first `<` after the greedy
whitespace run (no group can cross a `<`), and the email group is the
maximal `>`-and-newline-free run after it, which must be nonempty and
closed by `>`; these parts do not depend on the `[\s\n]+` backtracking, so
they are checked once.  Returns (name group, email group, rest after the
match). -/
def tailMatch? (s : List Char) : Option (List Char × List Char × List Char) :=
  let w := s.takeWhile isWsC
  if w = [] then none
  else
    let rest := s.drop w.length
    let seg0 := rest.takeWhile (fun c => c ≠ '<')
    if seg0.length = rest.length then none
    else
      let eRest := rest.drop (seg0.length + 1)
      let e := eRest.takeWhile (fun c => c ≠ '>' ∧ c ≠ '\n')
      if e ≠ [] ∧ (eRest.drop e.length).head? = some '>' then
        match tailATry w seg0 w.length with
        | some g => some (g, e, eRest.drop (e.length + 1))
        | none => none
      else none

/-- `message.matchAll(pattern)` for the step-3 patterns: successive
leftmost matches; on failure the start position advances by one, on
success it advances past the match. -/
def scanPat (markerAt : List Char → Option (List Char)) (src : List Char) :
    Nat → List Char → List Cand
  | 0, _ => []
  | fuel + 1, s =>
    match s with
    | [] => []
    | c :: cs =>
      match markerAt (c :: cs) with
      | some rest =>
        match tailMatch? rest with
        | some (g, e, after) =>
          { cname := trimS g, cemail := trimS e, csource := src }
            :: scanPat markerAt src fuel after
        | none => scanPat markerAt src fuel cs
      | none => scanPat markerAt src fuel cs

def step3 (message : List Char) : List Cand :=
  scanPat marker3At? (("step3").toList) message.length message
    ++ scanPat markerCA? (("step3").toList) message.length message

/-- The local-part class `[a-zA-Z0-9._%+-]` of the step-4 email pattern. -/
def emailLocalChar (c : Char) : Bool :=
  isAlnumC c || c = '.' || c = '_' || c = '%' || c = '+' || c = '-'

/-- The domain class `[a-zA-Z0-9.-]`. -/
def emailDomChar (c : Char) : Bool := isAlnumC c || c = '.' || c = '-'

/-- `\b` between `prev` (`none` at the string start) and the next character. -/
def boundaryB (prev : Option Char) (c : Char) : Bool :=
  (match prev with | some pc => isWordC pc | none => false) != isWordC c

/-- Whether the character after the candidate match is a word boundary. -/
def notWordAt (l : List Char) : Bool :=
  match l.head? with
  | some c => !(isWordC c)
  | none => true

/-- One split of the greedy domain run `r` for `\.[a-zA-Z]{2,}\b`: keep `k`
domain characters, require a literal `.` next, then the maximal letter run
(shrinking `{2,}` cannot restore a lost boundary, so only the maximal run
can match), of length ≥ 2, ending at a word boundary.  Returns the matched
`domain.tld` text and the rest of the input after the match. -/
def domCheck (r after : List Char) (k : Nat) : Option (List Char × List Char) :=
  if (r.drop k).head? = some '.' then
    let t := (r.drop (k + 1)).takeWhile isAlphaC
    if 2 ≤ t.length ∧ notWordAt ((r.drop (k + 1 + t.length)) ++ after) = true then
      some (r.take k ++ '.' :: t, (r.drop (k + 1 + t.length)) ++ after)
    else none
  else none

/-- Greedy backtracking over the domain split: longest `k` first, down to
`k = 1` (the domain part `[a-zA-Z0-9.-]+` needs at least one character). -/
def domTry (r after : List Char) : Nat → Option (List Char × List Char)
  | 0 => none
  | k + 1 =>
    match domCheck r after (k + 1) with
    | some res => some res
    | none => domTry r after k

/-- `message.matchAll(/\b([a-zA-Z0-9._%+-]+@[a-zA-Z0-9.-]+\.[a-zA-Z]{2,})\b/g)`
(step 4).  At each position: the leading `\b` against the previous
character, then the greedy local run (which cannot backtrack: `@` is not in
its class), a literal `@`, and the domain backtracking of `domTry` over
the greedy domain run. -/
def scanEmails : Nat → Option Char → List Char → List Cand
  | 0, _, _ => []
  | fuel + 1, prev, s =>
    match s with
    | [] => []
    | c :: cs =>
      if boundaryB prev c ∧ emailLocalChar c = true then
        let loc := (c :: cs).takeWhile emailLocalChar
        let rest := (c :: cs).drop loc.length
        if rest.head? = some '@' then
          let r := (rest.drop 1).takeWhile emailDomChar
          let after := (rest.drop 1).drop r.length
          match domTry r after r.length with
          | some (domp, boundaryRest) =>
            { cname := [], cemail := loc ++ '@' :: domp, csource := ("step4").toList }
              :: scanEmails fuel ((loc ++ '@' :: domp).getLast?) boundaryRest
          | none => scanEmails fuel (some c) cs
        else scanEmails fuel (some c) cs
      else scanEmails fuel (some c) cs

def step4 (message : List Char) : List Cand :=
  scanEmails message.length none message

/-- The first case-insensitive occurrence of `pat`, split as (text before
the match, text after the match), for `String.prototype.split` with the
`/Co-Authored-By:/i` regex. -/
def ciFind (pat : List Char) : List Char → Option (List Char × List Char)
  | [] => none
  | c :: cs =>
    if ciPref pat (c :: cs) then some ([], (c :: cs).drop pat.length)
    else
      match ciFind pat cs with
      | some (pre, rest) => some (c :: pre, rest)
      | none => none

def ciSplit (pat : List Char) : Nat → List Char → List (List Char)
  | 0, s => [s]
  | fuel + 1, s =>
    match ciFind pat s with
    | some (pre, rest) => pre :: ciSplit pat fuel rest
    | none => [s]

/-- The "desperate" pass: split the space-normalized message at every
case-insensitive marker, drop the leading part, and read a bracketed email
and the `/^(.*?)</` name (the text before the first `<`, valid only when
free of line terminators, which survive here only as a lone `\r`) out of
each part. -/
def desperatePart (part : List Char) : List Cand :=
  match firstBracket? part with
  | some e =>
    let pre := part.takeWhile (fun c => c ≠ '<')
    let name := if pre.all (fun c => c ≠ '\n' ∧ c ≠ '\r') then trimS pre else []
    [{ cname := name, cemail := trimS e, csource := ("desperate").toList }]
  | none => []

def desperateStep (message : List Char) : List Cand :=
  let raw := nlToSp (replCRLFsp message)
  if hasSub coabExact raw then
    (((ciSplit coabLower raw.length raw).drop 1).map desperatePart).flatten
  else []

/-- The final de-duplication: keep the first candidate for each lowercased
email, dropping candidates with an empty (falsy) email. -/
def dedupCands : List Cand → List (List Char) → List Cand
  | [], _ => []
  | a :: rest, seen =>
    if a.cemail = [] ∨ (lcs a.cemail) ∈ seen then dedupCands rest seen
    else a :: dedupCands rest ((lcs a.cemail) :: seen)

/-- `extractCoAuthors(message, repoName)` (the repository name is only
logged).  All five passes are concatenated in source order and then
de-duplicated by lowercased email. -/
def extractCoAuthors (message : List Char) : List Cand :=
  if message = [] then []
  else
    dedupCands (step1 message ++ step2 message ++ step3 message
      ++ step4 message ++ desperateStep message) []

/-! ### Claim C2: commit messages made of well-formed trailer lines -/

/-- A well-formed `Co-Authored-By: Name <email>` trailer: a display name
and an email split into local part, domain and top-level domain. -/
structure Trailer where
  tname : List Char
  tlocal : List Char
  tdom : List Char
  ttld : List Char
deriving Repr, DecidableEq, Inhabited

def trEmail (tr : Trailer) : List Char :=
  tr.tlocal ++ '@' :: (tr.tdom ++ '.' :: tr.ttld)

def renderLine (tr : Trailer) : List Char :=
  coabExact ++ ' ' :: (tr.tname ++ ' ' :: '<' :: (trEmail tr ++ ['>']))

def joinLines : List (List Char) → List Char
  | [] => []
  | [x] => x
  | x :: y :: ys => x ++ '\n' :: joinLines (y :: ys)

/-- A commit message consisting of one well-formed trailer per line. -/
def renderMsg (ts : List Trailer) : List Char := joinLines (ts.map renderLine)

/-- Display-name characters: ASCII letters of either case and spaces. -/
def nameCharOK (c : Char) : Bool := isAlphaC c || c = ' '

/-- Domain characters: alphanumerics of either case and label-separating
dots. -/
def domCharOK (c : Char) : Bool := isAlnumC c || c = '.'

def headAlpha (n : List Char) : Bool :=
  match n.head? with
  | some c => isAlphaC c
  | none => false

def lastAlpha (n : List Char) : Bool :=
  match n.getLast? with
  | some c => isAlphaC c
  | none => false

/-- Well-formedness of one trailer: a nonempty display name of ASCII
letters and inner spaces that starts and ends with a letter, and an email
`local@domain.tld` with a nonempty alphanumeric local part, a nonempty
domain of alphanumerics and dots (multi-label domains such as
`users.noreply.github.com` split as `tdom = users.noreply.github`,
`ttld = com`), and an alphabetic top-level domain of length at least two.
Name and email may mix upper and lower case freely. -/
def trailerOK (tr : Trailer) : Bool :=
  !tr.tname.isEmpty && tr.tname.all nameCharOK && headAlpha tr.tname
    && lastAlpha tr.tname
    && !tr.tlocal.isEmpty && tr.tlocal.all isAlnumC
    && !tr.tdom.isEmpty && tr.tdom.all domCharOK
    && decide (2 ≤ tr.ttld.length) && tr.ttld.all isAlphaC

/-- C2 (counterexample): the message rendered from the two well-formed
trailers `Ann <X@Y.com>` and `Ben <x@y.com>` contains `N = 2` well-formed
`Co-Authored-By: Name <email>` trailers on separate lines, with distinct
email strings that are equal case-insensitively, but the extractor returns
one candidate, not two: the final de-duplication by lowercased email
collapses trailers whose emails agree up to case. -/
theorem extract_duplicate_email_trailers :
    (∀ tr ∈ [({ tname := ("Ann").toList, tlocal := ("X").toList,
                tdom := ("Y").toList, ttld := ("com").toList } : Trailer),
              { tname := ("Ben").toList, tlocal := ("x").toList,
                tdom := ("y").toList, ttld := ("com").toList }],
       trailerOK tr = true) ∧
    trEmail { tname := ("Ann").toList, tlocal := ("X").toList,
              tdom := ("Y").toList, ttld := ("com").toList }
      ≠ trEmail { tname := ("Ben").toList, tlocal := ("x").toList,
                  tdom := ("y").toList, ttld := ("com").toList } ∧
    (extractCoAuthors (renderMsg
        [{ tname := ("Ann").toList, tlocal := ("X").toList,
           tdom := ("Y").toList, ttld := ("com").toList },
         { tname := ("Ben").toList, tlocal := ("x").toList,
           tdom := ("y").toList, ttld := ("com").toList }])).length = 1 ∧
    (extractCoAuthors (renderMsg
        [{ tname := ("Ann").toList, tlocal := ("X").toList,
           tdom := ("Y").toList, ttld := ("com").toList },
         { tname := ("Ben").toList, tlocal := ("x").toList,
           tdom := ("y").toList, ttld := ("com").toList }])).length ≠ 2 := by
  refine ⟨by decide, by decide, by decide, by decide⟩

/-! #### Character-class lemmas -/

theorem ne_of_pred {p : Char → Bool} {c d : Char} (h : p c = true) (hd : p d = false) :
    c ≠ d := by
  intro hcd
  rw [hcd, hd] at h
  cases h

theorem lc_lower {c : Char} (h : isLowerAZ c = true) : lc c = c := by
  simp only [isLowerAZ, Bool.and_eq_true, decide_eq_true_eq] at h
  obtain ⟨h1, h2⟩ := h
  unfold lc Char.toLower
  rw [if_neg]
  intro hc
  obtain ⟨h65, h90⟩ := hc
  rw [Char.le_def, UInt32.le_def, BitVec.le_def] at h1
  simp only [Char.toNat, UInt32.toNat] at h65 h90
  have ha : ('a' : Char).val.toBitVec.toNat = 97 := by decide
  rw [ha] at h1
  omega

theorem lc_fix_not_upper {c : Char} (h : isUpperAZ c = false) : lc c = c := by
  unfold lc Char.toLower
  rw [if_neg]
  intro hc
  obtain ⟨h65, h90⟩ := hc
  simp only [Char.toNat, UInt32.toNat] at h65 h90
  unfold isUpperAZ at h
  rw [Bool.and_eq_false_iff] at h
  rcases h with h | h
  · rw [decide_eq_false_iff_not, Char.le_def, UInt32.le_def, BitVec.le_def] at h
    have ha : ('A' : Char).val.toBitVec.toNat = 65 := by decide
    rw [ha] at h
    omega
  · rw [decide_eq_false_iff_not, Char.le_def, UInt32.le_def, BitVec.le_def] at h
    have hz : ('Z' : Char).val.toBitVec.toNat = 90 := by decide
    rw [hz] at h
    omega

/-- Lowercasing an uppercase basic-latin letter yields a lowercase one. -/
theorem lc_upper_lower {c : Char} (h : isUpperAZ c = true) : isLowerAZ (lc c) = true := by
  simp only [isUpperAZ, Bool.and_eq_true, decide_eq_true_eq] at h
  obtain ⟨h1, h2⟩ := h
  rw [Char.le_def, UInt32.le_def, BitVec.le_def] at h1 h2
  have hA : ('A' : Char).val.toBitVec.toNat = 65 := by decide
  have hZ : ('Z' : Char).val.toBitVec.toNat = 90 := by decide
  rw [hA] at h1
  rw [hZ] at h2
  unfold lc Char.toLower
  have hcond : Char.toNat c ≥ 65 ∧ Char.toNat c ≤ 90 := by
    simp only [Char.toNat, UInt32.toNat]
    omega
  rw [if_pos hcond]
  have hv : (Char.toNat c + 32).isValidChar := by
    left
    simp only [Char.toNat, UInt32.toNat]
    omega
  rw [Char.ofNat, dif_pos hv]
  unfold Char.ofNatAux isLowerAZ
  simp only [Bool.and_eq_true, decide_eq_true_eq]
  rw [Char.le_def, Char.le_def, UInt32.le_def, UInt32.le_def, BitVec.le_def, BitVec.le_def]
  have ha : ('a' : Char).val.toBitVec.toNat = 97 := by decide
  have hz : ('z' : Char).val.toBitVec.toNat = 122 := by decide
  rw [ha, hz]
  simp only [BitVec.toNat_ofNatLt]
  simp only [Char.toNat, UInt32.toNat]
  omega

theorem lc_alpha_lower {c : Char} (h : isAlphaC c = true) : isLowerAZ (lc c) = true := by
  unfold isAlphaC at h
  rcases Bool.or_eq_true_iff.mp h with h | h
  · rw [lc_lower h]
    exact h
  · exact lc_upper_lower h

theorem digit_not_upper {c : Char} (h : isDigitC c = true) : isUpperAZ c = false := by
  simp only [isDigitC, Bool.and_eq_true, decide_eq_true_eq] at h
  obtain ⟨h1, h2⟩ := h
  rw [Char.le_def, UInt32.le_def, BitVec.le_def] at h1 h2
  have h0 : ('0' : Char).val.toBitVec.toNat = 48 := by decide
  have h9 : ('9' : Char).val.toBitVec.toNat = 57 := by decide
  rw [h0] at h1
  rw [h9] at h2
  unfold isUpperAZ
  rw [Bool.and_eq_false_iff]
  left
  rw [decide_eq_false_iff_not, Char.le_def, UInt32.le_def, BitVec.le_def]
  have hA : ('A' : Char).val.toBitVec.toNat = 65 := by decide
  rw [hA]
  omega

/-- The characters of a rendered trailer line. -/
def lineCharOK (c : Char) : Bool :=
  isAlnumC c || c = ' ' || c = '-' || c = ':'
    || c = '@' || c = '.' || c = '<' || c = '>'

/-- The characters before the `<` of a rendered trailer line. -/
def preBracketOK (c : Char) : Bool :=
  isLowerAZ c || isUpperAZ c || c = ' ' || c = '-' || c = ':'

/-- The characters of a rendered email. -/
def emailCharOK (c : Char) : Bool := isAlnumC c || c = '@' || c = '.'

theorem nameCharOK_pre {c : Char} (h : nameCharOK c = true) : preBracketOK c = true := by
  unfold nameCharOK isAlphaC at h
  unfold preBracketOK
  rcases Bool.or_eq_true_iff.mp h with h | h
  · rcases Bool.or_eq_true_iff.mp h with h | h <;> simp [h]
  · simp [h]

theorem emailCharOK_line {c : Char} (h : emailCharOK c = true) : lineCharOK c = true := by
  unfold emailCharOK at h
  unfold lineCharOK
  rcases Bool.or_eq_true_iff.mp h with h | h
  · rcases Bool.or_eq_true_iff.mp h with h | h <;> simp [h]
  · simp [h]

theorem preBracketOK_line {c : Char} (h : preBracketOK c = true) : lineCharOK c = true := by
  unfold preBracketOK at h
  unfold lineCharOK
  rcases Bool.or_eq_true_iff.mp h with h | h
  · rcases Bool.or_eq_true_iff.mp h with h | h
    · rcases Bool.or_eq_true_iff.mp h with h | h
      · rcases Bool.or_eq_true_iff.mp h with h | h <;> simp [h, isAlnumC, isAlphaC]
      · simp [h]
    · simp [h]
  · simp [h]

/-! #### Facts about well-formed trailers -/

theorem trailerOK_split {tr : Trailer} (h : trailerOK tr = true) :
    tr.tname ≠ [] ∧ tr.tname.all nameCharOK = true ∧ headAlpha tr.tname = true
      ∧ lastAlpha tr.tname = true
      ∧ tr.tlocal ≠ [] ∧ tr.tlocal.all isAlnumC = true
      ∧ tr.tdom ≠ [] ∧ tr.tdom.all domCharOK = true
      ∧ 2 ≤ tr.ttld.length ∧ tr.ttld.all isAlphaC = true := by
  unfold trailerOK at h
  simp only [Bool.and_eq_true, Bool.not_eq_true', List.isEmpty_eq_false,
    decide_eq_true_eq] at h
  obtain ⟨⟨⟨⟨⟨⟨⟨⟨⟨h1, h2⟩, h3⟩, h4⟩, h5⟩, h6⟩, h7⟩, h8⟩, h9⟩, h10⟩ := h
  exact ⟨h1, h2, h3, h4, h5, h6, h7, h8, h9, h10⟩

theorem email_all_emailCharOK {tr : Trailer} (h : trailerOK tr = true) :
    (trEmail tr).all emailCharOK = true := by
  obtain ⟨-, -, -, -, -, hl, -, hd, -, ht⟩ := trailerOK_split h
  unfold trEmail
  simp only [List.all_append, List.all_cons, Bool.and_eq_true]
  simp only [List.all_eq_true] at hl hd ht ⊢
  refine ⟨fun c hc => by simp [emailCharOK, hl c hc], by simp [emailCharOK],
    fun c hc => ?_, by simp [emailCharOK],
    fun c hc => by simp [emailCharOK, isAlnumC, ht c hc]⟩
  have hdc := hd c hc
  unfold domCharOK at hdc
  rcases Bool.or_eq_true_iff.mp hdc with hdc | hdc <;> simp [emailCharOK, hdc]

theorem email_head_alnum {tr : Trailer} (h : trailerOK tr = true) :
    ∃ c, (trEmail tr).head? = some c ∧ isAlnumC c = true := by
  obtain ⟨-, -, -, -, hln, hl, -, -, -, -⟩ := trailerOK_split h
  unfold trEmail
  cases hc : tr.tlocal with
  | nil => exact absurd hc hln
  | cons c cs =>
    refine ⟨c, by simp, ?_⟩
    rw [hc] at hl
    simp only [List.all_cons, Bool.and_eq_true] at hl
    exact hl.1

theorem email_last_alpha {tr : Trailer} (h : trailerOK tr = true) :
    ∃ c, (trEmail tr).getLast? = some c ∧ isAlphaC c = true := by
  obtain ⟨-, -, -, -, -, -, -, -, htl, ht⟩ := trailerOK_split h
  have htn : tr.ttld ≠ [] := by
    intro hh
    rw [hh] at htl
    simp at htl
  obtain ⟨c, hc⟩ := Option.isSome_iff_exists.mp (List.getLast?_isSome.mpr htn)
  refine ⟨c, ?_, ?_⟩
  · unfold trEmail
    rw [List.getLast?_append, List.getLast?_cons, List.getLast?_append, List.getLast?_cons]
    rw [hc]
    rfl
  · simp only [List.all_eq_true] at ht
    exact ht c (List.mem_of_mem_getLast? (by rw [hc]; exact rfl))

/-! #### Structural lemmas about the rendered message -/

theorem replCRLF_id {s : List Char} (h : ∀ c ∈ s, c ≠ '\r') : replCRLF s = s := by
  induction s with
  | nil => rfl
  | cons c cs ih =>
    cases cs with
    | nil => rfl
    | cons c2 cs2 =>
      unfold replCRLF
      rw [if_neg (fun hc => h c (List.mem_cons_self _ _) hc.1)]
      rw [ih (fun x hx => h x (List.mem_cons_of_mem _ hx))]

theorem replCRLFsp_id {s : List Char} (h : ∀ c ∈ s, c ≠ '\r') : replCRLFsp s = s := by
  induction s with
  | nil => rfl
  | cons c cs ih =>
    cases cs with
    | nil => rfl
    | cons c2 cs2 =>
      unfold replCRLFsp
      rw [if_neg (fun hc => h c (List.mem_cons_self _ _) hc.1)]
      rw [ih (fun x hx => h x (List.mem_cons_of_mem _ hx))]

theorem nlToSp_id {s : List Char} (h : ∀ c ∈ s, c ≠ '\n') : nlToSp s = s := by
  unfold nlToSp
  rw [List.map_congr_left (fun c hc => if_neg (h c hc))]
  exact List.map_id s

theorem splitNl_ne_nil (s : List Char) : splitNl s ≠ [] := by
  cases s with
  | nil => simp [splitNl]
  | cons c cs =>
    unfold splitNl
    by_cases hc : c = '\n'
    · simp [hc]
    · rw [if_neg hc]
      cases splitNl cs <;> simp

theorem splitNl_no_nl {s : List Char} (h : ∀ c ∈ s, c ≠ '\n') : splitNl s = [s] := by
  induction s with
  | nil => rfl
  | cons c cs ih =>
    unfold splitNl
    rw [if_neg (h c (List.mem_cons_self _ _))]
    rw [ih (fun x hx => h x (List.mem_cons_of_mem _ hx))]

theorem splitNl_append_nl {a : List Char} (rest : List Char)
    (h : ∀ c ∈ a, c ≠ '\n') :
    splitNl (a ++ '\n' :: rest) = a :: splitNl rest := by
  induction a with
  | nil => simp [splitNl]
  | cons c a' ih =>
    have hcn : ¬ c = '\n' := h c (List.mem_cons_self _ _)
    show splitNl (c :: (a' ++ '\n' :: rest)) = (c :: a') :: splitNl rest
    have hrec := ih (fun x hx => h x (List.mem_cons_of_mem _ hx))
    conv_lhs => unfold splitNl
    rw [if_neg hcn, hrec]

theorem mem_joinLines {ls : List (List Char)} {c : Char} (h : c ∈ joinLines ls) :
    c = '\n' ∨ ∃ l ∈ ls, c ∈ l := by
  induction ls with
  | nil => cases h
  | cons x ls ih =>
    cases ls with
    | nil =>
      right
      exact ⟨x, List.mem_cons_self _ _, h⟩
    | cons y ys =>
      rw [show joinLines (x :: y :: ys) = x ++ '\n' :: joinLines (y :: ys) from rfl] at h
      rcases List.mem_append.mp h with h | h
      · exact Or.inr ⟨x, List.mem_cons_self _ _, h⟩
      · rcases List.mem_cons.mp h with h | h
        · exact Or.inl h
        · rcases ih h with h | ⟨l, hl, hcl⟩
          · exact Or.inl h
          · exact Or.inr ⟨l, List.mem_cons_of_mem _ hl, hcl⟩

theorem nameCharOK_line {c : Char} (h : nameCharOK c = true) : lineCharOK c = true := by
  unfold nameCharOK at h
  unfold lineCharOK
  rcases Bool.or_eq_true_iff.mp h with h | h <;> simp [h, isAlnumC]

theorem renderLine_all {tr : Trailer} (h : trailerOK tr = true) :
    (renderLine tr).all lineCharOK = true := by
  obtain ⟨-, hn, -, -, -, -, -, -, -, -⟩ := trailerOK_split h
  have he := email_all_emailCharOK h
  unfold renderLine
  simp only [List.all_append, List.all_cons, Bool.and_eq_true]
  refine ⟨by decide, by decide, ?_, by decide, by decide, ?_, by decide⟩
  · simp only [List.all_eq_true] at hn ⊢
    exact fun c hc => nameCharOK_line (hn c hc)
  · simp only [List.all_eq_true] at he ⊢
    exact fun c hc => emailCharOK_line (he c hc)

theorem renderMsg_lineChar {ts : List Trailer}
    (hok : ∀ tr ∈ ts, trailerOK tr = true) :
    ∀ c ∈ renderMsg ts, c = '\n' ∨ lineCharOK c = true := by
  intro c hc
  rcases mem_joinLines hc with h | ⟨l, hl, hcl⟩
  · exact Or.inl h
  · obtain ⟨tr, htr, rfl⟩ := List.mem_map.mp hl
    right
    have := renderLine_all (hok tr htr)
    simp only [List.all_eq_true] at this
    exact this c hcl

theorem renderMsg_no_cr {ts : List Trailer}
    (hok : ∀ tr ∈ ts, trailerOK tr = true) :
    ∀ c ∈ renderMsg ts, c ≠ '\r' := by
  intro c hc
  rcases renderMsg_lineChar hok c hc with h | h
  · rw [h]; decide
  · exact ne_of_pred h (by decide)

theorem renderLine_no_nl {tr : Trailer} (h : trailerOK tr = true) :
    ∀ c ∈ renderLine tr, c ≠ '\n' := by
  intro c hc
  have := renderLine_all h
  simp only [List.all_eq_true] at this
  exact ne_of_pred (this c hc) (by decide)

/-- The line split of the rendered message recovers the rendered lines. -/
theorem splitNl_renderMsg {ts : List Trailer} (hne : ts ≠ [])
    (hok : ∀ tr ∈ ts, trailerOK tr = true) :
    splitNl (renderMsg ts) = ts.map renderLine := by
  induction ts with
  | nil => exact absurd rfl hne
  | cons t rest ih =>
    cases rest with
    | nil =>
      show splitNl (joinLines [renderLine t]) = [renderLine t]
      exact splitNl_no_nl (renderLine_no_nl (hok t (List.mem_cons_self _ _)))
    | cons t2 rest2 =>
      show splitNl (renderLine t ++ '\n' :: joinLines ((t2 :: rest2).map renderLine))
        = renderLine t :: (t2 :: rest2).map renderLine
      rw [splitNl_append_nl _ (renderLine_no_nl (hok t (List.mem_cons_self _ _)))]
      have := ih (by simp) (fun tr htr => hok tr (List.mem_cons_of_mem _ htr))
      unfold renderMsg at this
      rw [this]

/-! #### Step 1 on a rendered line -/

theorem lower_not_ws {c : Char} (h : isLowerAZ c = true) : isWsC c = false := by
  by_contra hw
  rw [Bool.not_eq_false] at hw
  unfold isWsC at hw
  simp only [Bool.or_eq_true, decide_eq_true_eq] at hw
  rcases hw with ((((h1 | h2) | h3) | h4) | h5) | h6
  · rw [h1] at h; exact absurd h (by decide)
  · rw [h2] at h; exact absurd h (by decide)
  · rw [h3] at h; exact absurd h (by decide)
  · rw [h4] at h; exact absurd h (by decide)
  · rw [h5] at h; exact absurd h (by decide)
  · rw [h6] at h; exact absurd h (by decide)

theorem upper_not_ws {c : Char} (h : isUpperAZ c = true) : isWsC c = false := by
  by_contra hw
  rw [Bool.not_eq_false] at hw
  unfold isWsC at hw
  simp only [Bool.or_eq_true, decide_eq_true_eq] at hw
  rcases hw with ((((h1 | h2) | h3) | h4) | h5) | h6
  · rw [h1] at h; exact absurd h (by decide)
  · rw [h2] at h; exact absurd h (by decide)
  · rw [h3] at h; exact absurd h (by decide)
  · rw [h4] at h; exact absurd h (by decide)
  · rw [h5] at h; exact absurd h (by decide)
  · rw [h6] at h; exact absurd h (by decide)

theorem digit_not_ws {c : Char} (h : isDigitC c = true) : isWsC c = false := by
  by_contra hw
  rw [Bool.not_eq_false] at hw
  unfold isWsC at hw
  simp only [Bool.or_eq_true, decide_eq_true_eq] at hw
  rcases hw with ((((h1 | h2) | h3) | h4) | h5) | h6
  · rw [h1] at h; exact absurd h (by decide)
  · rw [h2] at h; exact absurd h (by decide)
  · rw [h3] at h; exact absurd h (by decide)
  · rw [h4] at h; exact absurd h (by decide)
  · rw [h5] at h; exact absurd h (by decide)
  · rw [h6] at h; exact absurd h (by decide)

theorem alpha_not_ws {c : Char} (h : isAlphaC c = true) : isWsC c = false := by
  unfold isAlphaC at h
  rcases Bool.or_eq_true_iff.mp h with h | h
  · exact lower_not_ws h
  · exact upper_not_ws h

theorem alnum_not_ws {c : Char} (h : isAlnumC c = true) : isWsC c = false := by
  unfold isAlnumC at h
  rcases Bool.or_eq_true_iff.mp h with h | h
  · exact alpha_not_ws h
  · exact digit_not_ws h

theorem takeWhile_append_stop {p : Char → Bool} {a : List Char} {x : Char} (r : List Char)
    (ha : ∀ c ∈ a, p c = true) (hx : p x = false) :
    (a ++ x :: r).takeWhile p = a := by
  induction a with
  | nil => simp [List.takeWhile_cons, hx]
  | cons c a' ih =>
    rw [List.cons_append, List.takeWhile_cons, ha c (List.mem_cons_self _ _),
      if_pos rfl, ih (fun d hd => ha d (List.mem_cons_of_mem _ hd))]

theorem firstBracket_skip {a l : List Char} (ha : ∀ c ∈ a, c ≠ '<') :
    firstBracket? (a ++ l) = firstBracket? l := by
  induction a with
  | nil => rfl
  | cons c a' ih =>
    rw [List.cons_append]
    conv_lhs => unfold firstBracket?
    rw [if_neg (ha c (List.mem_cons_self _ _))]
    exact ih (fun d hd => ha d (List.mem_cons_of_mem _ hd))

theorem firstBracket_hit {e : List Char} (r : List Char) (he : e ≠ [])
    (hgt : ∀ c ∈ e, c ≠ '>') :
    firstBracket? ('<' :: (e ++ '>' :: r)) = some e := by
  unfold firstBracket?
  rw [if_pos rfl]
  have ht : (e ++ '>' :: r).takeWhile (fun x => x ≠ '>') = e :=
    takeWhile_append_stop r (fun c hc => by simpa using hgt c hc) (by simp)
  rw [ht]
  rw [if_pos]
  refine ⟨he, ?_⟩
  simp

theorem trimL_id {s : List Char} (h : ∀ c, s.head? = some c → isWsC c = false) :
    trimL s = s := by
  cases s with
  | nil => rfl
  | cons c cs =>
    unfold trimL
    rw [List.dropWhile_cons, if_neg (by simp [h c rfl])]

theorem trimR_id {s : List Char} (h : ∀ c, s.getLast? = some c → isWsC c = false) :
    trimR s = s := by
  unfold trimR
  rw [trimL_id, List.reverse_reverse]
  intro c hc
  rw [List.head?_reverse] at hc
  exact h c hc

theorem trimS_id {s : List Char} (hh : ∀ c, s.head? = some c → isWsC c = false)
    (hl : ∀ c, s.getLast? = some c → isWsC c = false) : trimS s = s := by
  unfold trimS
  rw [trimL_id hh, trimR_id hl]

/-- Trimming the name segment `␣name␣` of a rendered line gives the name. -/
theorem trim_wrap {n : List Char} (hne : n ≠ []) (hh : headAlpha n = true)
    (hl : lastAlpha n = true) : trimS (' ' :: (n ++ [' '])) = n := by
  unfold trimS
  have h1 : trimL (' ' :: (n ++ [' '])) = n ++ [' '] := by
    unfold trimL
    rw [List.dropWhile_cons, if_pos (by decide)]
    cases hn : n with
    | nil => exact absurd hn hne
    | cons c n' =>
      rw [hn] at hh
      unfold headAlpha at hh
      simp only [List.head?_cons] at hh
      rw [List.cons_append, List.dropWhile_cons, if_neg (by simp [alpha_not_ws hh])]
  rw [h1]
  unfold trimR
  rw [List.reverse_append, show ([' '] : List Char).reverse = [' '] from rfl]
  have h2 : trimL (' ' :: n.reverse) = n.reverse := by
    unfold trimL
    rw [List.dropWhile_cons, if_pos (by decide)]
    cases hrn : n.reverse with
    | nil => rfl
    | cons c m =>
      have hc : n.getLast? = some c := by
        rw [← List.head?_reverse, hrn]
        rfl
      unfold lastAlpha at hl
      rw [hc] at hl
      rw [List.dropWhile_cons, if_neg (by simp [alpha_not_ws hl])]
  rw [show ([' '] ++ n.reverse : List Char) = ' ' :: n.reverse from rfl, h2,
    List.reverse_reverse]

theorem ciPref_append_of {p a : List Char} (t : List Char) (h : ciPref p a = true) :
    ciPref p (a ++ t) = true := by
  induction p generalizing a with
  | nil => rfl
  | cons x ps ih =>
    cases a with
    | nil => simp [ciPref] at h
    | cons c cs =>
      rw [List.cons_append]
      unfold ciPref at h ⊢
      simp only [Bool.and_eq_true] at h ⊢
      exact ⟨h.1, ih h.2⟩

theorem hasCiSub_of_ciPref {p s : List Char} (h : ciPref p s = true) :
    hasCiSub p s = true := by
  cases s with
  | nil => simpa [hasCiSub] using h
  | cons c cs => simp [hasCiSub, h]

theorem isPrefixOf_append_self (pat t : List Char) : pat.isPrefixOf (pat ++ t) = true := by
  induction pat with
  | nil => simp [List.isPrefixOf]
  | cons c ps ih =>
    show (c == c && ps.isPrefixOf (ps ++ t)) = true
    simp [ih]

theorem hasSub_of_isPrefixOf {pat s : List Char} (h : pat.isPrefixOf s = true) :
    hasSub pat s = true := by
  cases s with
  | nil => simpa [hasSub] using h
  | cons c cs => simp [hasSub, h]

theorem coabExact_cons : coabExact = 'C' :: ("o-Authored-By:").toList := by decide

/-- `coNameAt?` succeeds at the start of the string when the pattern
matches there and a nonempty bracket-terminated segment follows. -/
theorem coNameAt_here {pat s : List Char} (hs : s ≠ [])
    (hci : ciPref pat s = true)
    (hne : (s.drop pat.length).takeWhile (fun x => decide (x ≠ '<')) ≠ [])
    (hlt : ((s.drop pat.length).takeWhile (fun x => decide (x ≠ '<'))).length
            < (s.drop pat.length).length) :
    coNameAt? pat s
      = some (trimS ((s.drop pat.length).takeWhile (fun x => decide (x ≠ '<')))) := by
  cases s with
  | nil => exact absurd rfl hs
  | cons c cs =>
    conv_lhs => unfold coNameAt?
    rw [if_pos hci]
    show (if ((c :: cs).drop pat.length).takeWhile (fun x => decide (x ≠ '<')) ≠ []
          ∧ (((c :: cs).drop pat.length).takeWhile (fun x => decide (x ≠ '<'))).length
              < ((c :: cs).drop pat.length).length
        then some (trimS (((c :: cs).drop pat.length).takeWhile (fun x => decide (x ≠ '<'))))
        else coNameAt? pat cs)
      = some (trimS (((c :: cs).drop pat.length).takeWhile (fun x => decide (x ≠ '<'))))
    rw [if_pos ⟨hne, hlt⟩]

theorem renderLine_drop (tr : Trailer) :
    (renderLine tr).drop coabLower.length
      = ' ' :: (tr.tname ++ ' ' :: '<' :: (trEmail tr ++ ['>'])) := by
  unfold renderLine
  rw [show coabLower.length = coabExact.length from by decide]
  exact List.drop_left _ _

theorem renderLine_getLast (tr : Trailer) : (renderLine tr).getLast? = some '>' := by
  unfold renderLine
  rw [show (coabExact ++ ' ' :: (tr.tname ++ ' ' :: '<' :: (trEmail tr ++ ['>'])) : List Char)
      = (coabExact ++ ' ' :: (tr.tname ++ ' ' :: '<' :: trEmail tr)) ++ ['>'] by simp]
  exact List.getLast?_concat _

theorem trimS_renderLine (tr : Trailer) : trimS (renderLine tr) = renderLine tr := by
  refine trimS_id ?_ ?_
  · intro c hc
    have hh : (renderLine tr).head? = some 'C' := by
      unfold renderLine
      rw [coabExact_cons, List.cons_append]
      rfl
    rw [hh] at hc
    injection hc with hce
    rw [← hce]
    decide
  · intro c hc
    rw [renderLine_getLast] at hc
    injection hc with hce
    rw [← hce]
    decide

theorem trimS_trEmail {tr : Trailer} (h : trailerOK tr = true) :
    trimS (trEmail tr) = trEmail tr := by
  obtain ⟨c1, hc1, hl1⟩ := email_head_alnum h
  obtain ⟨c2, hc2, hl2⟩ := email_last_alpha h
  refine trimS_id ?_ ?_
  · intro c hc
    rw [hc1] at hc
    injection hc with hh
    rw [← hh]
    exact alnum_not_ws hl1
  · intro c hc
    rw [hc2] at hc
    injection hc with hh
    rw [← hh]
    exact alpha_not_ws hl2

theorem hasCiSub_renderLine (tr : Trailer) :
    hasCiSub coabLower (renderLine tr) = true :=
  hasCiSub_of_ciPref (by unfold renderLine; exact ciPref_append_of _ (by decide))

theorem coNameAt_renderLine {tr : Trailer} (h : trailerOK tr = true) :
    coNameAt? coabLower (renderLine tr) = some tr.tname := by
  obtain ⟨hnn, hn, hhl, hll, -, -, -, -, -, -⟩ := trailerOK_split h
  have hseg : ((renderLine tr).drop coabLower.length).takeWhile (fun x => decide (x ≠ '<'))
      = ' ' :: (tr.tname ++ [' ']) := by
    rw [renderLine_drop]
    rw [show (' ' :: (tr.tname ++ ' ' :: '<' :: (trEmail tr ++ ['>'])) : List Char)
        = (' ' :: (tr.tname ++ [' '])) ++ '<' :: (trEmail tr ++ ['>']) by simp]
    refine takeWhile_append_stop _ ?_ (by simp)
    intro c hc
    simp only [decide_eq_true_eq]
    rcases List.mem_cons.mp hc with rfl | hc
    · decide
    · rcases List.mem_append.mp hc with hc | hc
      · exact ne_of_pred (List.all_eq_true.mp hn c hc) (by decide)
      · rw [List.mem_singleton.mp hc]; decide
  have hlt : (((renderLine tr).drop coabLower.length).takeWhile
        (fun x => decide (x ≠ '<'))).length
      < ((renderLine tr).drop coabLower.length).length := by
    rw [hseg, renderLine_drop]
    simp [List.length_append]
  have hs : renderLine tr ≠ [] := by
    unfold renderLine
    rw [coabExact_cons]
    simp
  have hci : ciPref coabLower (renderLine tr) = true := by
    unfold renderLine
    exact ciPref_append_of _ (by decide)
  have hne2 : ((renderLine tr).drop coabLower.length).takeWhile
      (fun x => decide (x ≠ '<')) ≠ [] := by
    rw [hseg]
    simp
  have hres := coNameAt_here hs hci hne2 hlt
  rw [hseg] at hres
  rw [hres, trim_wrap hnn hhl hll]

theorem firstBracket_renderLine {tr : Trailer} (h : trailerOK tr = true) :
    firstBracket? (renderLine tr) = some (trEmail tr) := by
  obtain ⟨-, hn, -, -, hln, -, -, -, -, -⟩ := trailerOK_split h
  have he := email_all_emailCharOK h
  have hdecomp : renderLine tr
      = (coabExact ++ ' ' :: (tr.tname ++ [' '])) ++ '<' :: (trEmail tr ++ ['>']) := by
    unfold renderLine
    simp
  rw [hdecomp, firstBracket_skip]
  · exact firstBracket_hit [] (by simp [trEmail])
      (fun c hc => ne_of_pred (List.all_eq_true.mp he c hc) (by decide))
  · intro c hc
    rcases List.mem_append.mp hc with hc | hc
    · have hall : coabExact.all preBracketOK = true := by decide
      exact ne_of_pred (List.all_eq_true.mp hall c hc) (by decide)
    · rcases List.mem_cons.mp hc with rfl | hc
      · decide
      · rcases List.mem_append.mp hc with hc | hc
        · exact ne_of_pred (List.all_eq_true.mp hn c hc) (by decide)
        · rw [List.mem_singleton.mp hc]; decide

theorem step1Line_render {tr : Trailer} (h : trailerOK tr = true) :
    step1Line (renderLine tr)
      = [{ cname := tr.tname, cemail := trEmail tr, csource := ("step1").toList }] := by
  simp only [step1Line]
  rw [trimS_renderLine, hasCiSub_renderLine, if_pos rfl, firstBracket_renderLine h]
  dsimp only
  rw [coNameAt_renderLine h]
  simp only [Option.getD_some]
  rw [trimS_trEmail h]

theorem renderMsg_cons_decomp (t : Trailer) (rest : List Trailer) :
    ∃ s, renderMsg (t :: rest) = coabExact ++ s := by
  cases rest with
  | nil => exact ⟨_, rfl⟩
  | cons t2 r2 =>
    refine ⟨(' ' :: (t.tname ++ ' ' :: '<' :: (trEmail t ++ ['>'])))
      ++ '\n' :: joinLines ((t2 :: r2).map renderLine), ?_⟩
    show renderLine t ++ '\n' :: joinLines ((t2 :: r2).map renderLine) = _
    unfold renderLine
    rw [List.append_assoc]

theorem flatten_singletons {α β : Type} (f : α → β) (l : List α) :
    (l.map (fun a => [f a])).flatten = l.map f := by
  induction l with
  | nil => rfl
  | cons a l ih => simp [ih]

/-- Step 1 on a message of rendered well-formed trailers yields exactly one
candidate per trailer, in order. -/
theorem step1_renderMsg {ts : List Trailer} (hne : ts ≠ [])
    (hok : ∀ tr ∈ ts, trailerOK tr = true) :
    step1 (renderMsg ts)
      = ts.map (fun tr => ({ cname := tr.tname, cemail := trEmail tr,
                             csource := ("step1").toList } : Cand)) := by
  unfold step1
  have hpre : hasSub coabExact (renderMsg ts) = true := by
    cases ts with
    | nil => exact absurd rfl hne
    | cons t rest =>
      obtain ⟨s, hs⟩ := renderMsg_cons_decomp t rest
      rw [hs]
      exact hasSub_of_isPrefixOf (isPrefixOf_append_self _ _)
  rw [hpre, Bool.true_or, Bool.true_or, Bool.true_or, if_pos rfl]
  rw [replCRLF_id (renderMsg_no_cr hok), splitNl_renderMsg hne hok]
  have hmap : (ts.map renderLine).map step1Line
      = ts.map (fun tr => [({ cname := tr.tname, cemail := trEmail tr,
                              csource := ("step1").toList } : Cand)]) := by
    rw [List.map_map]
    exact List.map_congr_left (fun tr htr => step1Line_render (hok tr htr))
  rw [hmap]
  exact flatten_singletons _ ts

/-! #### The final de-duplication -/

theorem trEmail_ne_nil (tr : Trailer) : trEmail tr ≠ [] := by
  simp [trEmail]

theorem dedupCands_all_dropped : ∀ (ys : List Cand) (seen : List (List Char)),
    (∀ b ∈ ys, b.cemail = [] ∨ lcs b.cemail ∈ seen) → dedupCands ys seen = [] := by
  intro ys
  induction ys with
  | nil => intro seen _; rfl
  | cons b ys ih =>
    intro seen h
    unfold dedupCands
    rw [if_pos (h b (List.mem_cons_self _ _)),
      ih _ (fun x hx => h x (List.mem_cons_of_mem _ hx))]

/-- The de-duplication keeps a block of distinct-nonempty-email candidates
and drops every later candidate whose email is empty or already seen. -/
theorem dedupCands_append_absorb : ∀ (xs ys : List Cand) (seen : List (List Char)),
    (∀ a ∈ xs, a.cemail ≠ []) →
    (xs.map (fun a => lcs a.cemail)).Nodup →
    (∀ a ∈ xs, lcs a.cemail ∉ seen) →
    (∀ b ∈ ys, b.cemail = [] ∨ lcs b.cemail ∈ seen
      ∨ ∃ a ∈ xs, lcs b.cemail = lcs a.cemail) →
    dedupCands (xs ++ ys) seen = xs := by
  intro xs
  induction xs with
  | nil =>
    intro ys seen _ _ _ hys
    rw [List.nil_append]
    refine dedupCands_all_dropped ys seen (fun b hb => ?_)
    rcases hys b hb with h | h | ⟨a, ha, -⟩
    · exact Or.inl h
    · exact Or.inr h
    · exact absurd ha (List.not_mem_nil a)
  | cons a xs ih =>
    intro ys seen hne hnodup hseen hys
    rw [List.cons_append]
    unfold dedupCands
    rw [if_neg]
    · rw [List.map_cons, List.nodup_cons] at hnodup
      rw [ih ys (lcs a.cemail :: seen)
        (fun x hx => hne x (List.mem_cons_of_mem _ hx))
        hnodup.2
        (fun x hx => by
          intro hmem
          rcases List.mem_cons.mp hmem with heq | hmem2
          · exact hnodup.1 (heq ▸ List.mem_map_of_mem _ hx)
          · exact hseen x (List.mem_cons_of_mem _ hx) hmem2)
        (fun b hb => by
          rcases hys b hb with h | h | ⟨x, hx, hbe⟩
          · exact Or.inl h
          · exact Or.inr (Or.inl (List.mem_cons_of_mem _ h))
          · rcases List.mem_cons.mp hx with rfl | hx2
            · exact Or.inr (Or.inl (by rw [hbe]; exact List.mem_cons_self _ _))
            · exact Or.inr (Or.inr ⟨x, hx2, hbe⟩))]
    · intro hcond
      rcases hcond with h | h
      · exact hne a (List.mem_cons_self _ _) h
      · exact hseen a (List.mem_cons_self _ _) h

/-- The output of the de-duplication never has two equal lowercased emails,
and no output email is in the initial seen set. -/
theorem dedupCands_nodup_strong : ∀ (l : List Cand) (seen : List (List Char)),
    ((dedupCands l seen).map (fun c => lcs c.cemail)).Nodup
    ∧ ∀ c ∈ dedupCands l seen, lcs c.cemail ∉ seen := by
  intro l
  induction l with
  | nil =>
    intro seen
    exact ⟨List.nodup_nil, by intro c hc; cases hc⟩
  | cons a rest ih =>
    intro seen
    unfold dedupCands
    by_cases h : a.cemail = [] ∨ lcs a.cemail ∈ seen
    · rw [if_pos h]
      exact ih seen
    · rw [if_neg h]
      obtain ⟨ihn, ihm⟩ := ih (lcs a.cemail :: seen)
      push_neg at h
      constructor
      · rw [List.map_cons, List.nodup_cons]
        refine ⟨?_, ihn⟩
        intro hmem
        obtain ⟨c, hc, hcc⟩ := List.mem_map.mp hmem
        exact ihm c hc (by rw [hcc]; exact List.mem_cons_self _ _)
      · intro c hc
        rcases List.mem_cons.mp hc with rfl | hc
        · exact h.2
        · intro hcs
          exact ihm c hc (List.mem_cons_of_mem _ hcs)

/-! #### Positional helpers on drops and takes -/

theorem takeWhile_all {p : Char → Bool} : ∀ (l : List Char), (∀ c ∈ l, p c = true) →
    l.takeWhile p = l
  | [], _ => rfl
  | c :: cs, h => by
    rw [List.takeWhile_cons, h c (List.mem_cons_self _ _), if_pos rfl,
      takeWhile_all cs (fun d hd => h d (List.mem_cons_of_mem _ hd))]

theorem getLast?_append_some {l₂ : List Char} {a : Char} (l₁ : List Char)
    (h : l₂.getLast? = some a) : (l₁ ++ l₂).getLast? = some a := by
  rw [List.getLast?_append, h]
  rfl

theorem drop_offset {M : List Char} {n : Nat} {a r : List Char}
    (h : M.drop n = a ++ r) : M.drop (n + a.length) = r := by
  have h2 := List.drop_drop a.length n M
  rw [h, List.drop_left] at h2
  exact h2.symm

theorem take_getLast_step {M : List Char} {n : Nat} {c : Char} {cs : List Char}
    (h : M.drop n = c :: cs) : (M.take (n + 1)).getLast? = some c := by
  have hget : M[n]? = some c := by
    rw [← List.head?_drop, h]
    rfl
  rw [List.take_succ, hget]
  exact List.getLast?_concat _

theorem take_getLast_jump {M : List Char} {n : Nat} {a r : List Char} {x : Char}
    (h : M.drop n = a ++ r) (ha : a.getLast? = some x) :
    (M.take (n + a.length)).getLast? = some x := by
  rw [List.take_add M n a.length]
  have h2 : (M.drop n).take a.length = a := by
    rw [h]
    exact List.take_left a r
  rw [h2]
  exact getLast?_append_some _ ha

theorem preA_no_lt {tr : Trailer} (h : trailerOK tr = true) :
    ∀ c ∈ coabExact ++ ' ' :: (tr.tname ++ [' ']), c ≠ '<' := by
  obtain ⟨-, hn, -, -, -, -, -, -, -, -⟩ := trailerOK_split h
  intro c hc
  rcases List.mem_append.mp hc with hc | hc
  · have hall : coabExact.all preBracketOK = true := by decide
    exact ne_of_pred (List.all_eq_true.mp hall c hc) (by decide)
  · rcases List.mem_cons.mp hc with rfl | hc
    · decide
    · rcases List.mem_append.mp hc with hc | hc
      · exact ne_of_pred (List.all_eq_true.mp hn c hc) (by decide)
      · rw [List.mem_singleton.mp hc]; decide

theorem email_char_facts {tr : Trailer} (h : trailerOK tr = true) :
    ∀ c ∈ trEmail tr, c ≠ '<' ∧ c ≠ '>' ∧ c ≠ '\n' := by
  have he := email_all_emailCharOK h
  simp only [List.all_eq_true] at he
  intro c hc
  exact ⟨ne_of_pred (he c hc) (by decide), ne_of_pred (he c hc) (by decide),
    ne_of_pred (he c hc) (by decide)⟩

theorem renderLine_decomp (tr : Trailer) :
    renderLine tr
      = (coabExact ++ ' ' :: (tr.tname ++ [' '])) ++ '<' :: (trEmail tr ++ ['>']) := by
  unfold renderLine
  simp

/-! #### The bracket shape of every suffix of a rendered message -/

/-- Every suffix of the rendered message either contains no `<` at all, or
is some `<`-free prefix followed by `<`, a member trailer's email, `>`, and
a further suffix of the message. -/
def bShape (ts : List Trailer) (M : List Char) (n : Nat) : Prop :=
  (∀ c ∈ M.drop n, c ≠ '<')
  ∨ ∃ p tr m, tr ∈ ts ∧ (∀ c ∈ p, c ≠ '<')
      ∧ M.drop n = p ++ '<' :: (trEmail tr ++ '>' :: M.drop m)

theorem bracketShape : ∀ (ts : List Trailer), (∀ tr ∈ ts, trailerOK tr = true) →
    ∀ n, bShape ts (renderMsg ts) n := by
  intro ts
  induction ts with
  | nil =>
    intro _ n
    left
    intro c hc
    rw [show renderMsg [] = [] from rfl, List.drop_nil] at hc
    cases hc
  | cons t rest ih =>
    intro hok n
    have hokt := hok t (List.mem_cons_self _ _)
    have hA := preA_no_lt hokt
    have hE := email_char_facts hokt
    cases rest with
    | nil =>
      by_cases hn : n ≤ (coabExact ++ ' ' :: (t.tname ++ [' '])).length
      · right
        refine ⟨(coabExact ++ ' ' :: (t.tname ++ [' '])).drop n, t, (renderLine t).length,
          List.mem_cons_self _ _,
          fun c hc => hA c ((List.drop_suffix n _).subset hc), ?_⟩
        have hcont : (renderMsg [t]).drop (renderLine t).length = [] := by
          rw [show renderMsg [t] = renderLine t from rfl]
          exact List.drop_length _
        rw [hcont, show renderMsg [t] = renderLine t from rfl, renderLine_decomp,
          List.drop_append_eq_append_drop, Nat.sub_eq_zero_of_le hn, List.drop_zero]
      · left
        intro c hc
        rw [show renderMsg [t] = renderLine t from rfl, renderLine_decomp,
          List.drop_append_eq_append_drop,
          List.drop_eq_nil_of_le (le_of_not_le hn), List.nil_append] at hc
        have hsplit : n - (coabExact ++ ' ' :: (t.tname ++ [' '])).length
            = (n - (coabExact ++ ' ' :: (t.tname ++ [' '])).length - 1) + 1 := by
          omega
        rw [hsplit, List.drop_succ_cons] at hc
        have hc2 := (List.drop_suffix _ _).subset hc
        rcases List.mem_append.mp hc2 with hc3 | hc3
        · exact (hE c hc3).1
        · rw [List.mem_singleton.mp hc3]; decide
    | cons t2 rs =>
      have hM2 : renderMsg (t :: t2 :: rs)
          = renderLine t ++ ('\n' :: renderMsg (t2 :: rs)) := rfl
      have hM3 : renderMsg (t :: t2 :: rs)
          = (coabExact ++ ' ' :: (t.tname ++ [' ']))
              ++ '<' :: ((trEmail t ++ ['>', '\n']) ++ renderMsg (t2 :: rs)) := by
        rw [hM2, renderLine_decomp]
        simp
      have hoff : ∀ j, (renderMsg (t :: t2 :: rs)).drop ((renderLine t).length + 1 + j)
          = (renderMsg (t2 :: rs)).drop j := by
        intro j
        rw [show renderMsg (t :: t2 :: rs)
            = (renderLine t ++ ['\n']) ++ renderMsg (t2 :: rs) by
          rw [hM2]; simp]
        rw [show (renderLine t).length + 1 + j
            = (renderLine t ++ ['\n']).length + j by simp]
        exact List.drop_append j
      have hXfree : ∀ c ∈ trEmail t ++ ['>', '\n'], c ≠ '<' := by
        intro c hc
        rcases List.mem_append.mp hc with hc | hc
        · exact (hE c hc).1
        · rcases List.mem_cons.mp hc with rfl | hc
          · decide
          · rw [List.mem_singleton.mp hc]; decide
      by_cases hn : n ≤ (coabExact ++ ' ' :: (t.tname ++ [' '])).length
      · right
        refine ⟨(coabExact ++ ' ' :: (t.tname ++ [' '])).drop n, t, (renderLine t).length,
          List.mem_cons_self _ _,
          fun c hc => hA c ((List.drop_suffix n _).subset hc), ?_⟩
        have hcont : (renderMsg (t :: t2 :: rs)).drop (renderLine t).length
            = '\n' :: renderMsg (t2 :: rs) := by
          rw [hM2]
          exact List.drop_left _ _
        rw [hcont, hM3, List.drop_append_eq_append_drop, Nat.sub_eq_zero_of_le hn,
          List.drop_zero]
        simp
      · have h1 : (renderMsg (t :: t2 :: rs)).drop n
            = ((trEmail t ++ ['>', '\n']) ++ renderMsg (t2 :: rs)).drop
                (n - (coabExact ++ ' ' :: (t.tname ++ [' '])).length - 1) := by
          rw [hM3, List.drop_append_eq_append_drop,
            List.drop_eq_nil_of_le (le_of_not_le hn), List.nil_append]
          have hsplit : n - (coabExact ++ ' ' :: (t.tname ++ [' '])).length
              = (n - (coabExact ++ ' ' :: (t.tname ++ [' '])).length - 1) + 1 := by
            omega
          rw [hsplit, List.drop_succ_cons]
          congr 1
        rw [List.drop_append_eq_append_drop] at h1
        rcases ih (fun tr htr => hok tr (List.mem_cons_of_mem _ htr))
            (n - (coabExact ++ ' ' :: (t.tname ++ [' '])).length - 1
              - (trEmail t ++ ['>', '\n']).length) with hleft | ⟨p', tr', m', htr', hp', heq⟩
        · left
          intro c hc
          rw [h1] at hc
          rcases List.mem_append.mp hc with hc | hc
          · exact hXfree c ((List.drop_suffix _ _).subset hc)
          · exact hleft c hc
        · right
          refine ⟨(trEmail t ++ ['>', '\n']).drop
              (n - (coabExact ++ ' ' :: (t.tname ++ [' '])).length - 1) ++ p', tr',
            (renderLine t).length + 1 + m', List.mem_cons_of_mem _ htr', ?_, ?_⟩
          · intro c hc
            rcases List.mem_append.mp hc with hc | hc
            · exact hXfree c ((List.drop_suffix _ _).subset hc)
            · exact hp' c hc
          · rw [h1, heq, ← hoff m']
            simp [List.append_assoc]

/-! #### Step 3 emits only trailer emails -/

theorem markerCA_drop {s r : List Char} (h : markerCA? s = some r) : r = s.drop 10 := by
  unfold markerCA? at h
  split at h
  · injection h with h
    exact h.symm
  · cases h

theorem marker3At_drop {s r : List Char} (h : marker3At? s = some r) : r = s.drop 15 := by
  unfold marker3At? at h
  split at h
  · split at h
    · rename_i c1 r1 heq1
      split at h
      · split at h
        · rename_i c2 r2 heq2
          split at h
          · injection h with h
            have ht1 := List.tail_drop s 2
            rw [heq1] at ht1
            have hr1 : r1 = s.drop 3 := by simpa using ht1
            have ht2 := List.tail_drop r1 8
            rw [heq2] at ht2
            have hr2 : r2 = r1.drop 9 := by simpa using ht2
            rw [← h, hr2, hr1, List.drop_drop, List.drop_drop]
          · cases h
        · cases h
      · cases h
    · cases h
  · cases h

theorem scanPat_nil (markerAt : List Char → Option (List Char)) (src : List Char) :
    ∀ f, scanPat markerAt src f [] = []
  | 0 => rfl
  | _ + 1 => rfl

theorem scanPat_cons (markerAt : List Char → Option (List Char)) (src : List Char)
    (f : Nat) (c : Char) (cs : List Char) :
    scanPat markerAt src (f + 1) (c :: cs)
      = match markerAt (c :: cs) with
        | some rest =>
          match tailMatch? rest with
          | some (g, e, after) =>
            { cname := trimS g, cemail := trimS e, csource := src }
              :: scanPat markerAt src f after
          | none => scanPat markerAt src f cs
        | none => scanPat markerAt src f cs := rfl

/-- A successful step-3 tail match on any suffix of the rendered message
captures exactly one member trailer's email, and continues at a suffix. -/
theorem tailMatch_shape {ts : List Trailer} (hok : ∀ tr ∈ ts, trailerOK tr = true)
    {n : Nat} {g e after : List Char}
    (h : tailMatch? ((renderMsg ts).drop n) = some (g, e, after)) :
    ∃ tr, tr ∈ ts ∧ e = trEmail tr ∧ ∃ m, after = (renderMsg ts).drop m := by
  have hdd : ∀ k, (((renderMsg ts).drop n).drop k) = (renderMsg ts).drop (n + k) :=
    fun k => List.drop_drop k n (renderMsg ts)
  simp only [tailMatch?] at h
  split at h
  · cases h
  · split at h
    · cases h
    · rename_i hlen
      split at h
      · split at h
        · rename_i hcond g0 hATry
          rw [Option.some.injEq, Prod.mk.injEq, Prod.mk.injEq] at h
          obtain ⟨-, he, hafter⟩ := h
          have hb := bracketShape ts hok
            (n + (((renderMsg ts).drop n).takeWhile isWsC).length)
          unfold bShape at hb
          rcases hb with hfree | ⟨p, tr, m, htr, hp, heq⟩
          · exfalso
            apply hlen
            rw [hdd]
            rw [takeWhile_all _ (fun c hc => by
              simp only [decide_eq_true_eq]
              exact hfree c hc)]
          · have hEfacts := email_char_facts (hok tr htr)
            have hrest2 : ((renderMsg ts).drop n).drop
                ((((renderMsg ts).drop n).takeWhile isWsC).length)
                = p ++ '<' :: (trEmail tr ++ '>' :: (renderMsg ts).drop m) := by
              rw [hdd]
              exact heq
            have hseg : ((((renderMsg ts).drop n).drop
                  ((((renderMsg ts).drop n).takeWhile isWsC).length)).takeWhile
                    (fun c => decide (c ≠ '<'))) = p := by
              rw [hrest2]
              exact takeWhile_append_stop _
                (fun c hc => by simp only [decide_eq_true_eq]; exact hp c hc)
                (by simp)
            have heRest : (((renderMsg ts).drop n).drop
                  ((((renderMsg ts).drop n).takeWhile isWsC).length)).drop
                    (((((renderMsg ts).drop n).drop
                      ((((renderMsg ts).drop n).takeWhile isWsC).length)).takeWhile
                        (fun c => decide (c ≠ '<'))).length + 1)
                = trEmail tr ++ '>' :: (renderMsg ts).drop m := by
              rw [hseg, hrest2]
              rw [show p ++ '<' :: (trEmail tr ++ '>' :: (renderMsg ts).drop m)
                  = (p ++ ['<']) ++ (trEmail tr ++ '>' :: (renderMsg ts).drop m) by simp]
              exact List.drop_left' (by simp)
            rw [heRest] at he hafter
            have hEmail : (trEmail tr ++ '>' :: (renderMsg ts).drop m).takeWhile
                (fun c => decide (c ≠ '>' ∧ c ≠ '\n')) = trEmail tr :=
              takeWhile_append_stop _
                (fun c hc => by
                  simp only [decide_eq_true_eq]
                  exact ⟨(hEfacts c hc).2.1, (hEfacts c hc).2.2⟩)
                (by simp)
            rw [hEmail] at he hafter
            refine ⟨tr, htr, he.symm, m, ?_⟩
            rw [← hafter]
            rw [show trEmail tr ++ '>' :: (renderMsg ts).drop m
                = (trEmail tr ++ ['>']) ++ (renderMsg ts).drop m by simp]
            rw [List.drop_left' (by simp)]
        · cases h
      · cases h

theorem scanPat_mem {ts : List Trailer} (hok : ∀ tr ∈ ts, trailerOK tr = true)
    (markerAt : List Char → Option (List Char))
    (hdropM : ∀ s r, markerAt s = some r → ∃ k, r = s.drop k)
    (src : List Char) :
    ∀ f n cand, cand ∈ scanPat markerAt src f ((renderMsg ts).drop n) →
      ∃ tr, tr ∈ ts ∧ cand.cemail = trEmail tr := by
  intro f
  induction f with
  | zero =>
    intro n cand hc
    cases hc
  | succ f ihf =>
    intro n cand hc
    cases hs : (renderMsg ts).drop n with
    | nil =>
      rw [hs] at hc
      cases hc
    | cons c cs =>
      have hcs : cs = (renderMsg ts).drop (n + 1) := by
        have ht := List.tail_drop (renderMsg ts) n
        rw [hs] at ht
        simpa using ht
      rw [hs, scanPat_cons] at hc
      cases hm : markerAt (c :: cs) with
      | none =>
        rw [hm] at hc
        dsimp only at hc
        rw [hcs] at hc
        exact ihf (n + 1) cand hc
      | some rest =>
        rw [hm] at hc
        dsimp only at hc
        obtain ⟨k, hk⟩ := hdropM _ _ hm
        have hrest : rest = (renderMsg ts).drop (n + k) := by
          rw [hk, ← hs]
          exact List.drop_drop k n _
        cases hm2 : tailMatch? rest with
        | none =>
          rw [hm2] at hc
          dsimp only at hc
          rw [hcs] at hc
          exact ihf (n + 1) cand hc
        | some res =>
          obtain ⟨g, e, after⟩ := res
          rw [hm2] at hc
          dsimp only at hc
          rw [hrest] at hm2
          obtain ⟨tr, htr, he, m, hafter⟩ := tailMatch_shape hok hm2
          rcases List.mem_cons.mp hc with rfl | hc2
          · refine ⟨tr, htr, ?_⟩
            show trimS e = trEmail tr
            rw [he, trimS_trEmail (hok tr htr)]
          · rw [hafter] at hc2
            exact ihf m cand hc2

theorem step3_mem {ts : List Trailer} (hok : ∀ tr ∈ ts, trailerOK tr = true) :
    ∀ cand ∈ step3 (renderMsg ts), ∃ tr, tr ∈ ts ∧ cand.cemail = trEmail tr := by
  intro cand hc
  unfold step3 at hc
  rcases List.mem_append.mp hc with hc | hc
  · refine scanPat_mem hok marker3At? (fun s r h => ⟨15, marker3At_drop h⟩)
      (("step3").toList) (renderMsg ts).length 0 cand ?_
    rw [List.drop_zero]
    exact hc
  · refine scanPat_mem hok markerCA? (fun s r h => ⟨10, markerCA_drop h⟩)
      (("step3").toList) (renderMsg ts).length 0 cand ?_
    rw [List.drop_zero]
    exact hc

/-! #### Step 2 emits only trailer emails -/

/-- The rendered lines joined by a space: the image of the rendered message
under the newline-to-space normalization of steps 2 and 5. -/
def joinLinesSp : List (List Char) → List Char
  | [] => []
  | [x] => x
  | x :: y :: ys => x ++ ' ' :: joinLinesSp (y :: ys)

def flatMsg (ts : List Trailer) : List Char := joinLinesSp (ts.map renderLine)

theorem nlToSp_joinLines : ∀ (ls : List (List Char)),
    (∀ l ∈ ls, ∀ c ∈ l, c ≠ '\n') → nlToSp (joinLines ls) = joinLinesSp ls
  | [], _ => rfl
  | [x], h => nlToSp_id (fun c hc => h x (List.mem_cons_self _ _) c hc)
  | x :: y :: ys, h => by
    show nlToSp (x ++ '\n' :: joinLines (y :: ys)) = x ++ ' ' :: joinLinesSp (y :: ys)
    unfold nlToSp
    rw [List.map_append, List.map_cons]
    rw [show x.map (fun c => if c = '\n' then ' ' else c) = x from
      nlToSp_id (fun c hc => h x (List.mem_cons_self _ _) c hc)]
    rw [if_pos rfl]
    have ih := nlToSp_joinLines (y :: ys) (fun l hl => h l (List.mem_cons_of_mem _ hl))
    unfold nlToSp at ih
    rw [ih]

theorem flat_renderMsg {ts : List Trailer} (hok : ∀ tr ∈ ts, trailerOK tr = true) :
    nlToSp (replCRLFsp (renderMsg ts)) = flatMsg ts := by
  rw [replCRLFsp_id (renderMsg_no_cr hok)]
  exact nlToSp_joinLines _ (fun l hl c hc => by
    obtain ⟨tr, htr, rfl⟩ := List.mem_map.mp hl
    exact renderLine_no_nl (hok tr htr) c hc)

theorem coab_isPrefixOf_false {c : Char} (cs : List Char) (h : c ≠ 'C') :
    coabExact.isPrefixOf (c :: cs) = false := by
  rw [coabExact_cons]
  show ('C' == c && (("o-Authored-By:").toList).isPrefixOf cs) = false
  have hbeq : ('C' == c) = false := by
    rw [beq_eq_false_iff_ne]
    exact fun hh => h hh.symm
  rw [hbeq, Bool.false_and]

theorem isPrefixOf_short : ∀ {p s : List Char}, s.length < p.length →
    p.isPrefixOf s = false := by
  intro p
  induction p with
  | nil =>
    intro s h
    simp at h
  | cons x ps ih =>
    intro s h
    cases s with
    | nil => rfl
    | cons c cs =>
      show (x == c && ps.isPrefixOf cs) = false
      rw [ih (by simpa using Nat.lt_of_succ_lt_succ h)]
      simp

theorem coab_isPrefixOf_false_third {c0 c1 c2 : Char} (cs : List Char) (h : c2 ≠ '-') :
    coabExact.isPrefixOf (c0 :: c1 :: c2 :: cs) = false := by
  rw [show coabExact = 'C' :: 'o' :: '-' :: ("Authored-By:").toList from by decide]
  show ('C' == c0 && ('o' == c1 && ('-' == c2
    && (("Authored-By:").toList).isPrefixOf cs))) = false
  have hne : ('-' == c2) = false := by
    rw [beq_eq_false_iff_ne]
    exact fun hh => h hh.symm
  rw [hne]
  simp

theorem nameChar_ne_dash {c : Char} (h : nameCharOK c = true) : c ≠ '-' :=
  ne_of_pred h (by decide)

theorem emailChar_ne_dash {c : Char} (h : emailCharOK c = true) : c ≠ '-' :=
  ne_of_pred h (by decide)

/-- The exact marker `Co-Authored-By:` fails to match at every start
position inside `a` when `a` is followed by `s`. -/
def exFailsIn (a s : List Char) : Prop :=
  ∀ j, j < a.length → coabExact.isPrefixOf (a.drop j ++ s) = false

theorem exFailsIn_nil (s : List Char) : exFailsIn [] s := by
  intro j hj
  simp at hj

theorem exFailsIn_cons {c : Char} {a s : List Char}
    (h0 : coabExact.isPrefixOf (c :: (a ++ s)) = false) (h1 : exFailsIn a s) :
    exFailsIn (c :: a) s := by
  intro j hj
  cases j with
  | zero => exact h0
  | succ j =>
    rw [List.drop_succ_cons]
    exact h1 j (by simpa using Nat.lt_of_succ_lt_succ hj)

theorem exFailsIn_append {a b s : List Char}
    (ha : exFailsIn a (b ++ s)) (hb : exFailsIn b s) : exFailsIn (a ++ b) s := by
  intro j hj
  rw [List.drop_append_eq_append_drop]
  by_cases hja : j < a.length
  · rw [Nat.sub_eq_zero_of_le (le_of_lt hja), List.drop_zero, List.append_assoc]
    exact ha j hja
  · rw [List.drop_eq_nil_of_le (le_of_not_lt hja), List.nil_append]
    refine hb (j - a.length) ?_
    rw [List.length_append] at hj
    omega

theorem exFailsIn_of_no_C {a : List Char} (h : ∀ c ∈ a, c ≠ 'C') (s : List Char) :
    exFailsIn a s := by
  induction a with
  | nil => exact exFailsIn_nil s
  | cons c a' ih =>
    exact exFailsIn_cons (coab_isPrefixOf_false _ (h c (List.mem_cons_self _ _)))
      (ih (fun d hd => h d (List.mem_cons_of_mem _ hd)))

theorem name_exFailsIn {nm : List Char} (hnm : ∀ c ∈ nm, nameCharOK c = true)
    (R : List Char) : exFailsIn nm (' ' :: '<' :: R) := by
  induction nm with
  | nil => exact exFailsIn_nil _
  | cons d nm' ih =>
    refine exFailsIn_cons ?_ (ih (fun c hc => hnm c (List.mem_cons_of_mem _ hc)))
    cases nm' with
    | nil => exact coab_isPrefixOf_false_third _ (by decide)
    | cons e nm'' =>
      cases nm'' with
      | nil => exact coab_isPrefixOf_false_third _ (by decide)
      | cons f nm3 =>
        exact coab_isPrefixOf_false_third _ (nameChar_ne_dash (hnm f (by simp)))

theorem email_exFailsIn {em : List Char} (hem : ∀ c ∈ em, emailCharOK c = true)
    {X : List Char} (hX : X = [] ∨ ∃ x X2, X = x :: X2 ∧ x ≠ '-') :
    exFailsIn em ('>' :: X) := by
  induction em with
  | nil => exact exFailsIn_nil _
  | cons d em' ih =>
    refine exFailsIn_cons ?_ (ih (fun c hc => hem c (List.mem_cons_of_mem _ hc)))
    cases em' with
    | nil =>
      rcases hX with rfl | ⟨x, X2, rfl, hx⟩
      · refine isPrefixOf_short ?_
        rw [show coabExact.length = 15 from by decide]
        simp
      · exact coab_isPrefixOf_false_third _ hx
    | cons e em'' =>
      cases em'' with
      | nil => exact coab_isPrefixOf_false_third _ (by decide)
      | cons f em3 =>
        exact coab_isPrefixOf_false_third _ (emailChar_ne_dash (hem f (by simp)))

/-- The tail of a rendered line after its leading `C` contains no further
occurrence of the exact marker, for any continuation that is empty or does
not start with `-`. -/
theorem lineTail_exFails {tr : Trailer} (h : trailerOK tr = true) (s : List Char)
    (hs : s = [] ∨ ∃ x s2, s = x :: s2 ∧ x ≠ '-') :
    exFailsIn (("o-Authored-By:").toList
      ++ ' ' :: (tr.tname ++ ' ' :: '<' :: (trEmail tr ++ ['>']))) s := by
  obtain ⟨-, hnm, -, -, -, -, -, -, -, -⟩ := trailerOK_split h
  simp only [List.all_eq_true] at hnm
  have hem := email_all_emailCharOK h
  simp only [List.all_eq_true] at hem
  rw [show (("o-Authored-By:").toList
        ++ ' ' :: (tr.tname ++ ' ' :: '<' :: (trEmail tr ++ ['>'])) : List Char)
      = (("o-Authored-By: ").toList)
        ++ (tr.tname ++ ([' ', '<'] ++ (trEmail tr ++ ['>']))) by simp]
  refine exFailsIn_append (exFailsIn_of_no_C (by decide) _)
    (exFailsIn_append (name_exFailsIn hnm _)
      (exFailsIn_append (exFailsIn_of_no_C (by decide) _)
        (exFailsIn_append (email_exFailsIn hem hs)
          (exFailsIn_of_no_C (by decide) _))))

theorem renderLine_cons (tr : Trailer) :
    renderLine tr = 'C' :: (("o-Authored-By:").toList
      ++ ' ' :: (tr.tname ++ ' ' :: '<' :: (trEmail tr ++ ['>']))) := by
  unfold renderLine
  rw [coabExact_cons, List.cons_append]

theorem secGo_skip_some : ∀ (a s acc : List Char), exFailsIn a s →
    secGo coabExact (a ++ s) (some acc) = secGo coabExact s (some (a.reverse ++ acc))
  | [], s, acc, _ => by simp
  | c :: a', s, acc, h => by
    have h0 : coabExact.isPrefixOf (c :: (a' ++ s)) = false := by
      have := h 0 (by simp)
      simpa using this
    have h1 : exFailsIn a' s := by
      intro j hj
      have := h (j + 1) (by simpa using Nat.succ_lt_succ hj)
      rw [List.drop_succ_cons] at this
      exact this
    rw [List.cons_append]
    conv_lhs => unfold secGo
    rw [h0, if_neg (by simp), secGo_skip_some a' s (c :: acc) h1]
    simp

theorem secGo_skip_none : ∀ (a s : List Char), exFailsIn a s →
    secGo coabExact (a ++ s) none = secGo coabExact s none
  | [], _, _ => by simp
  | c :: a', s, h => by
    have h0 : coabExact.isPrefixOf (c :: (a' ++ s)) = false := by
      have := h 0 (by simp)
      simpa using this
    have h1 : exFailsIn a' s := by
      intro j hj
      have := h (j + 1) (by simpa using Nat.succ_lt_succ hj)
      rw [List.drop_succ_cons] at this
      exact this
    rw [List.cons_append]
    conv_lhs => unfold secGo
    rw [h0, if_neg (by simp), secGo_skip_none a' s h1]

theorem coab_isPrefixOf_line (tr : Trailer) (s : List Char) :
    coabExact.isPrefixOf (renderLine tr ++ s) = true := by
  rw [show renderLine tr ++ s
      = coabExact ++ ((' ' :: (tr.tname ++ ' ' :: '<' :: (trEmail tr ++ ['>']))) ++ s) by
    unfold renderLine; simp]
  exact isPrefixOf_append_self _ _

theorem secGo_line_some (tr : Trailer) (h : trailerOK tr = true) (s acc : List Char)
    (hs : s = [] ∨ ∃ x s2, s = x :: s2 ∧ x ≠ '-') :
    secGo coabExact (renderLine tr ++ s) (some acc)
      = acc.reverse :: secGo coabExact s (some (renderLine tr).reverse) := by
  have hpf := coab_isPrefixOf_line tr s
  rw [renderLine_cons, List.cons_append]
  conv_lhs => unfold secGo
  rw [show coabExact.isPrefixOf ('C' :: ((("o-Authored-By:").toList
      ++ ' ' :: (tr.tname ++ ' ' :: '<' :: (trEmail tr ++ ['>']))) ++ s)) = true from by
    rw [← List.cons_append, ← renderLine_cons]; exact hpf]
  rw [if_pos rfl]
  rw [secGo_skip_some _ s ['C'] (lineTail_exFails h s hs)]
  simp

theorem secGo_line_none (tr : Trailer) (h : trailerOK tr = true) (s : List Char)
    (hs : s = [] ∨ ∃ x s2, s = x :: s2 ∧ x ≠ '-') :
    secGo coabExact (renderLine tr ++ s) none
      = secGo coabExact s (some (renderLine tr).reverse) := by
  have hpf := coab_isPrefixOf_line tr s
  rw [renderLine_cons, List.cons_append]
  conv_lhs => unfold secGo
  rw [show coabExact.isPrefixOf ('C' :: ((("o-Authored-By:").toList
      ++ ' ' :: (tr.tname ++ ' ' :: '<' :: (trEmail tr ++ ['>']))) ++ s)) = true from by
    rw [← List.cons_append, ← renderLine_cons]; exact hpf]
  rw [if_pos rfl]
  rw [secGo_skip_some _ s ['C'] (lineTail_exFails h s hs)]
  simp

/-- The expected sections: each rendered line with the joining space, the
last one bare. -/
def secExp : List Trailer → List (List Char)
  | [] => []
  | [t] => [renderLine t]
  | t :: t2 :: rs => (renderLine t ++ [' ']) :: secExp (t2 :: rs)

theorem secGo_lines : ∀ (ts : List Trailer), (∀ tr ∈ ts, trailerOK tr = true) →
    ∀ acc, secGo coabExact (flatMsg ts) (some acc) = acc.reverse :: secExp ts
  | [], _, acc => by
    show secGo coabExact [] (some acc) = acc.reverse :: []
    rfl
  | [t], hok, acc => by
    show secGo coabExact (renderLine t) (some acc) = acc.reverse :: [renderLine t]
    have hstep := secGo_line_some t (hok t (List.mem_cons_self _ _)) [] acc (Or.inl rfl)
    rw [List.append_nil] at hstep
    rw [hstep]
    show acc.reverse :: [(renderLine t).reverse.reverse] = _
    rw [List.reverse_reverse]
  | t :: t2 :: rs, hok, acc => by
    show secGo coabExact (renderLine t ++ ' ' :: flatMsg (t2 :: rs)) (some acc) = _
    rw [secGo_line_some t (hok t (List.mem_cons_self _ _)) _ acc
      (Or.inr ⟨' ', flatMsg (t2 :: rs), rfl, by decide⟩)]
    rw [show (' ' :: flatMsg (t2 :: rs)) = [' '] ++ flatMsg (t2 :: rs) from rfl]
    rw [secGo_skip_some [' '] _ _ (exFailsIn_of_no_C
      (by intro c hc; rw [List.mem_singleton.mp hc]; decide) _)]
    rw [secGo_lines (t2 :: rs) (fun tr htr => hok tr (List.mem_cons_of_mem _ htr)) _]
    show _ = acc.reverse :: ((renderLine t ++ [' ']) :: secExp (t2 :: rs))
    simp

theorem sections_flat {ts : List Trailer} (hok : ∀ tr ∈ ts, trailerOK tr = true) :
    sections coabExact (flatMsg ts) = secExp ts := by
  cases ts with
  | nil => rfl
  | cons t rest =>
    unfold sections
    cases rest with
    | nil =>
      show secGo coabExact (renderLine t) none = [renderLine t]
      have hstep := secGo_line_none t (hok t (List.mem_cons_self _ _)) [] (Or.inl rfl)
      rw [List.append_nil] at hstep
      rw [hstep]
      show [(renderLine t).reverse.reverse] = _
      rw [List.reverse_reverse]
    | cons t2 rs =>
      show secGo coabExact (renderLine t ++ ' ' :: flatMsg (t2 :: rs)) none = _
      rw [secGo_line_none t (hok t (List.mem_cons_self _ _)) _
        (Or.inr ⟨' ', flatMsg (t2 :: rs), rfl, by decide⟩)]
      rw [show (' ' :: flatMsg (t2 :: rs)) = [' '] ++ flatMsg (t2 :: rs) from rfl]
      rw [secGo_skip_some [' '] _ _ (exFailsIn_of_no_C
        (by intro c hc; rw [List.mem_singleton.mp hc]; decide) _)]
      rw [secGo_lines (t2 :: rs) (fun tr htr => hok tr (List.mem_cons_of_mem _ htr)) _]
      show _ = (renderLine t ++ [' ']) :: secExp (t2 :: rs)
      simp

theorem firstBracket_line_ext {tr : Trailer} (h : trailerOK tr = true) (s : List Char) :
    firstBracket? (renderLine tr ++ s) = some (trEmail tr) := by
  have hE := email_char_facts h
  rw [show renderLine tr ++ s
      = (coabExact ++ ' ' :: (tr.tname ++ [' '])) ++ '<' :: (trEmail tr ++ '>' :: s) by
    rw [renderLine_decomp]; simp]
  rw [firstBracket_skip (preA_no_lt h)]
  exact firstBracket_hit s (trEmail_ne_nil tr) (fun c hc => (hE c hc).2.1)

theorem step2Section_mem {tr : Trailer} (h : trailerOK tr = true) (s : List Char)
    (cand : Cand) (hc : cand ∈ step2Section (renderLine tr ++ s)) :
    cand.cemail = trEmail tr := by
  unfold step2Section at hc
  rw [firstBracket_line_ext h s] at hc
  dsimp only at hc
  rcases List.mem_singleton.mp hc with rfl
  show trimS (trEmail tr) = trEmail tr
  exact trimS_trEmail h

theorem secExp_shape : ∀ (ts : List Trailer) (sec : List Char), sec ∈ secExp ts →
    ∃ tr s, tr ∈ ts ∧ sec = renderLine tr ++ s
  | [], _, h => absurd h (List.not_mem_nil _)
  | [t], sec, h => by
    rcases List.mem_singleton.mp h with rfl
    exact ⟨t, [], List.mem_cons_self _ _, by simp⟩
  | t :: t2 :: rs, sec, h => by
    rcases List.mem_cons.mp h with rfl | h
    · exact ⟨t, [' '], List.mem_cons_self _ _, rfl⟩
    · obtain ⟨tr, s, htr, hsec⟩ := secExp_shape (t2 :: rs) sec h
      exact ⟨tr, s, List.mem_cons_of_mem _ htr, hsec⟩

theorem step2_mem {ts : List Trailer} (hok : ∀ tr ∈ ts, trailerOK tr = true) :
    ∀ cand ∈ step2 (renderMsg ts), ∃ tr, tr ∈ ts ∧ cand.cemail = trEmail tr := by
  intro cand hc
  unfold step2 at hc
  split at hc
  · rw [flat_renderMsg hok, sections_flat hok] at hc
    obtain ⟨l, hl, hcl⟩ := List.mem_flatten.mp hc
    obtain ⟨sec, hsec, rfl⟩ := List.mem_map.mp hl
    obtain ⟨tr, s, htr, rfl⟩ := secExp_shape ts sec hsec
    exact ⟨tr, htr, step2Section_mem (hok tr htr) s cand hcl⟩
  · cases hc

/-! #### Step 4 emits only trailer emails -/

theorem localChar_of_alnum {c : Char} (h : isAlnumC c = true) : emailLocalChar c = true := by
  simp [emailLocalChar, h]

theorem domChar_of_dom {c : Char} (h : domCharOK c = true) : emailDomChar c = true := by
  unfold domCharOK at h
  rcases Bool.or_eq_true_iff.mp h with h | h <;> simp [emailDomChar, h]

theorem domChar_of_alpha {c : Char} (h : isAlphaC c = true) : emailDomChar c = true := by
  simp [emailDomChar, isAlnumC, h]

theorem wordC_of_alnum {c : Char} (h : isAlnumC c = true) : isWordC c = true := by
  simp [isWordC, h]

/-- Split a list at its first character failing `p`. -/
theorem exists_stop {p : Char → Bool} : ∀ {l : List Char},
    (∃ c ∈ l, p c = false) →
    ∃ x d y, l = x ++ d :: y ∧ (∀ c ∈ x, p c = true) ∧ p d = false := by
  intro l
  induction l with
  | nil =>
    intro ⟨c, hc, _⟩
    cases hc
  | cons c cs ih =>
    intro hex
    cases hpc : p c with
    | false => exact ⟨[], c, cs, rfl, fun d hd => absurd hd (List.not_mem_nil d), hpc⟩
    | true =>
      have hex2 : ∃ d ∈ cs, p d = false := by
        obtain ⟨d, hd, hdp⟩ := hex
        rcases List.mem_cons.mp hd with rfl | hd2
        · rw [hpc] at hdp; cases hdp
        · exact ⟨d, hd2, hdp⟩
      obtain ⟨x, d, y, heq, hx, hd⟩ := ih hex2
      refine ⟨c :: x, d, y, by rw [heq, List.cons_append], ?_, hd⟩
      intro e he
      rcases List.mem_cons.mp he with rfl | he2
      · exact hpc
      · exact hx e he2

/-- Inside a `@`-free region whose last character is not a local-part
character, the greedy local run never ends at an `@`. -/
theorem run_stops {M : List Char} {n0 : Nat} {a s : List Char} {d0 : Char}
    (hM : M.drop n0 = a ++ s) (hat : ∀ c ∈ a, c ≠ '@')
    (hd0 : a.getLast? = some d0) (hd0loc : emailLocalChar d0 = false) :
    ∀ j, j < a.length →
      ((M.drop (n0 + j)).drop
        ((M.drop (n0 + j)).takeWhile emailLocalChar).length).head? ≠ some '@' := by
  intro j hj
  have hdropj : M.drop (n0 + j) = a.drop j ++ s := by
    have hdd := List.drop_drop j n0 M
    rw [hM, List.drop_append_eq_append_drop, Nat.sub_eq_zero_of_le (le_of_lt hj),
      List.drop_zero] at hdd
    exact hdd.symm
  have hlast : (a.drop j).getLast? = some d0 := by
    rw [getLast?_drop_of_lt a j hj]
    exact hd0
  have hmem0 : d0 ∈ a.drop j := List.mem_of_mem_getLast? (by rw [hlast]; exact rfl)
  obtain ⟨x, d, y, hsplit, hx, hd⟩ :=
    exists_stop (⟨d0, hmem0, hd0loc⟩ : ∃ c ∈ a.drop j, emailLocalChar c = false)
  have hdmem : d ∈ a := (List.drop_suffix j a).subset (by
    rw [hsplit]
    exact List.mem_append.mpr (Or.inr (List.mem_cons_self _ _)))
  rw [hdropj, hsplit, show (x ++ d :: y) ++ s = x ++ d :: (y ++ s) by simp,
    takeWhile_append_stop _ hx hd, List.drop_left, List.head?_cons]
  intro hcon
  injection hcon with hcon
  exact hat d hdmem hcon

theorem scanEmails_cons (f : Nat) (prev : Option Char) (c : Char) (cs : List Char) :
    scanEmails (f + 1) prev (c :: cs)
      = if boundaryB prev c ∧ emailLocalChar c = true then
          (if ((c :: cs).drop ((c :: cs).takeWhile emailLocalChar).length).head?
              = some '@' then
            match domTry ((((c :: cs).drop ((c :: cs).takeWhile
                    emailLocalChar).length).drop 1).takeWhile emailDomChar)
                ((((c :: cs).drop ((c :: cs).takeWhile emailLocalChar).length).drop 1).drop
                  ((((c :: cs).drop ((c :: cs).takeWhile
                    emailLocalChar).length).drop 1).takeWhile emailDomChar).length)
                ((((c :: cs).drop ((c :: cs).takeWhile
                  emailLocalChar).length).drop 1).takeWhile emailDomChar).length with
            | some (domp, boundaryRest) =>
              { cname := [],
                cemail := (c :: cs).takeWhile emailLocalChar ++ '@' :: domp,
                csource := ("step4").toList }
                :: scanEmails f
                    (((c :: cs).takeWhile emailLocalChar ++ '@' :: domp).getLast?)
                    boundaryRest
            | none => scanEmails f (some c) cs
          else scanEmails f (some c) cs)
        else scanEmails f (some c) cs := rfl

theorem domTry_finds {r after : List Char} {j : Nat} {res : List Char × List Char}
    (hj : domCheck r after j = some res) (hj1 : 1 ≤ j) :
    ∀ m, j ≤ m → (∀ k, j < k → k ≤ m → domCheck r after k = none) →
      domTry r after m = some res := by
  intro m
  induction m with
  | zero =>
    intro hjm _
    exact absurd hjm (by omega)
  | succ m ih =>
    intro hjm habove
    by_cases hk : j = m + 1
    · subst hk
      conv_lhs => unfold domTry
      rw [hj]
    · have hnone : domCheck r after (m + 1) = none :=
        habove (m + 1) (by omega) (le_refl _)
      conv_lhs => unfold domTry
      rw [hnone]
      exact ih (by omega) (fun k h1 h2 => habove k h1 (by omega))

/-- One full well-formed email at the start of the input, preceded by a
non-word position: the step-4 scan emits exactly that email and continues
after its top-level domain. -/
theorem scanEmails_step_emit {f : Nat} {prev : Option Char} {tl td tt : List Char}
    (K : List Char)
    (htl : tl ≠ []) (htl_low : ∀ c ∈ tl, isAlnumC c = true)
    (htd : td ≠ []) (htd_low : ∀ c ∈ td, domCharOK c = true)
    (htt2 : 2 ≤ tt.length) (htt_low : ∀ c ∈ tt, isAlphaC c = true)
    (hprev : (match prev with | some pc => isWordC pc | none => false) = false) :
    scanEmails (f + 1) prev (tl ++ '@' :: (td ++ '.' :: (tt ++ '>' :: K)))
      = { cname := [], cemail := tl ++ '@' :: (td ++ '.' :: tt),
          csource := ("step4").toList }
        :: scanEmails f ((tl ++ '@' :: (td ++ '.' :: tt)).getLast?) ('>' :: K) := by
  cases tl with
  | nil => exact absurd rfl htl
  | cons c0 tl' =>
    have hc0low : isAlnumC c0 = true := htl_low c0 (List.mem_cons_self _ _)
    rw [List.cons_append, scanEmails_cons]
    have hguard : boundaryB prev c0 ∧ emailLocalChar c0 = true := by
      constructor
      · show boundaryB prev c0 = true
        unfold boundaryB
        rw [hprev, wordC_of_alnum hc0low]
        rfl
      · exact localChar_of_alnum hc0low
    rw [if_pos hguard]
    have hE1 : (c0 :: (tl' ++ '@' :: (td ++ '.' :: (tt ++ '>' :: K)))).takeWhile
        emailLocalChar = c0 :: tl' := by
      rw [← List.cons_append]
      exact takeWhile_append_stop _
        (fun c hc => localChar_of_alnum (htl_low c hc)) (by decide)
    rw [hE1]
    have hE2 : (c0 :: (tl' ++ '@' :: (td ++ '.' :: (tt ++ '>' :: K)))).drop
        (c0 :: tl').length = '@' :: (td ++ '.' :: (tt ++ '>' :: K)) := by
      rw [← List.cons_append]
      exact List.drop_left _ _
    rw [hE2, if_pos (show ('@' :: (td ++ '.' :: (tt ++ '>' :: K))).head? = some '@'
      from rfl)]
    rw [show ('@' :: (td ++ '.' :: (tt ++ '>' :: K))).drop 1
        = td ++ '.' :: (tt ++ '>' :: K) from rfl]
    have hE4 : (td ++ '.' :: (tt ++ '>' :: K)).takeWhile emailDomChar
        = td ++ '.' :: tt := by
      rw [show td ++ '.' :: (tt ++ '>' :: K) = (td ++ '.' :: tt) ++ '>' :: K by simp]
      refine takeWhile_append_stop _ ?_ (by decide)
      intro c hc
      rcases List.mem_append.mp hc with hc | hc
      · exact domChar_of_dom (htd_low c hc)
      · rcases List.mem_cons.mp hc with rfl | hc
        · decide
        · exact domChar_of_alpha (htt_low c hc)
    rw [hE4]
    have hE5 : (td ++ '.' :: (tt ++ '>' :: K)).drop (td ++ '.' :: tt).length
        = '>' :: K := by
      rw [show td ++ '.' :: (tt ++ '>' :: K) = (td ++ '.' :: tt) ++ '>' :: K by simp]
      exact List.drop_left _ _
    rw [hE5]
    have hcheck : domCheck (td ++ '.' :: tt) ('>' :: K) td.length
        = some (td ++ '.' :: tt, '>' :: K) := by
      unfold domCheck
      rw [List.drop_left td ('.' :: tt),
        if_pos (show ('.' :: tt).head? = some '.' from rfl)]
      dsimp only
      have hdroptt : (td ++ '.' :: tt).drop (td.length + 1) = tt := by
        rw [show td ++ '.' :: tt = (td ++ ['.']) ++ tt by simp]
        exact List.drop_left' (by simp)
      rw [hdroptt, takeWhile_all tt (fun c hc => htt_low c hc)]
      have hdropnil : (td ++ '.' :: tt).drop (td.length + 1 + tt.length) = [] := by
        apply List.drop_eq_nil_of_le
        simp
        omega
      rw [hdropnil, if_pos ⟨htt2, rfl⟩, List.take_left td ('.' :: tt)]
      simp
    have habove : ∀ k, td.length < k → k ≤ (td ++ '.' :: tt).length →
        domCheck (td ++ '.' :: tt) ('>' :: K) k = none := by
      intro k hk1 hk2
      have hcon2 : ¬ ((td ++ '.' :: tt).drop k).head? = some '.' := by
        have hdropk : (td ++ '.' :: tt).drop k = tt.drop (k - td.length - 1) := by
          rw [show td ++ '.' :: tt = (td ++ ['.']) ++ tt by simp,
            List.drop_append_eq_append_drop,
            List.drop_eq_nil_of_le (by simp; omega), List.nil_append,
            show k - (td ++ ['.']).length = k - td.length - 1 by
              simp only [List.length_append, List.length_cons, List.length_nil]
              omega]
        rw [hdropk]
        cases hdt : tt.drop (k - td.length - 1) with
        | nil => simp
        | cons x xs =>
          rw [List.head?_cons]
          intro hcon
          injection hcon with hcon
          have hx : x ∈ tt := (List.drop_suffix _ _).subset
            (by rw [hdt]; exact List.mem_cons_self _ _)
          have hlow := htt_low x hx
          rw [hcon] at hlow
          exact absurd hlow (by decide)
      unfold domCheck
      rw [if_neg hcon2]
    have hE6 : domTry (td ++ '.' :: tt) ('>' :: K) (td ++ '.' :: tt).length
        = some (td ++ '.' :: tt, '>' :: K) := by
      refine domTry_finds hcheck ?_ _ ?_ habove
      · exact List.length_pos.mpr htd
      · simp
    rw [hE6]

/-- Every position of the rendered message is harmless for the step-4
scan: either no local-part character starts there, or the greedy local run
is not followed by `@`, or the position starts a full trailer email
preceded by `<`, or it is mid-local with a word character on both sides of
the boundary (so `\b` fails there). -/
def aShape (ts : List Trailer) (M : List Char) (n : Nat) : Prop :=
  (∀ hd, (M.drop n).head? = some hd → emailLocalChar hd = false)
  ∨ ((M.drop n).drop ((M.drop n).takeWhile emailLocalChar).length).head? ≠ some '@'
  ∨ (∃ tr m, tr ∈ ts ∧ M.drop n = trEmail tr ++ '>' :: M.drop m
      ∧ (M.take n).getLast? = some '<')
  ∨ (∃ pc c cs2, (M.take n).getLast? = some pc ∧ isWordC pc = true
      ∧ M.drop n = c :: cs2 ∧ isWordC c = true)

theorem atShape_line {ts : List Trailer} {M : List Char} {t : Trailer}
    (ht : trailerOK t = true) (htmem : t ∈ ts) (K0 : List Char)
    (hM : M = renderLine t ++ K0) :
    ∀ n, n < (renderLine t).length → aShape ts M n := by
  obtain ⟨-, hnm, -, -, hln, hll, hdn, hdl, htl2, htll⟩ := trailerOK_split ht
  simp only [List.all_eq_true] at hnm hll hdl htll
  have hMB : M = (coabExact ++ ' ' :: (t.tname ++ ' ' :: ['<']))
      ++ (trEmail t ++ '>' :: K0) := by
    rw [hM]
    unfold renderLine
    simp
  have hBat : ∀ c ∈ coabExact ++ ' ' :: (t.tname ++ ' ' :: ['<']), c ≠ '@' := by
    intro c hc
    rcases List.mem_append.mp hc with hc | hc
    · have hall : coabExact.all (fun x => x ≠ '@') = true := by decide
      simpa using List.all_eq_true.mp hall c hc
    · rcases List.mem_cons.mp hc with rfl | hc
      · decide
      · rcases List.mem_append.mp hc with hc | hc
        · exact ne_of_pred (hnm c hc) (by decide)
        · rcases List.mem_cons.mp hc with rfl | hc
          · decide
          · rw [List.mem_singleton.mp hc]; decide
  have hBlast : (coabExact ++ ' ' :: (t.tname ++ ' ' :: ['<'])).getLast? = some '<' := by
    rw [show coabExact ++ ' ' :: (t.tname ++ ' ' :: ['<'])
        = (coabExact ++ ' ' :: (t.tname ++ [' '])) ++ ['<'] by simp]
    exact List.getLast?_concat _
  have hreg1 := run_stops
    (show M.drop 0 = (coabExact ++ ' ' :: (t.tname ++ ' ' :: ['<']))
        ++ (trEmail t ++ '>' :: K0) from by rw [List.drop_zero]; exact hMB)
    hBat hBlast (by decide)
  have hdropB : M.drop (coabExact ++ ' ' :: (t.tname ++ ' ' :: ['<'])).length
      = trEmail t ++ '>' :: K0 := by
    rw [hMB]
    exact List.drop_left _ _
  have hdropL : M.drop (renderLine t).length = K0 := by
    rw [hM]
    exact List.drop_left _ _
  have htakeB : (M.take (coabExact ++ ' ' :: (t.tname ++ ' ' :: ['<'])).length).getLast?
      = some '<' := by
    rw [hMB, List.take_left]
    exact hBlast
  have hdropB2 : M.drop (coabExact ++ ' ' :: (t.tname ++ ' ' :: ['<'])).length
      = t.tlocal ++ ('@' :: (t.tdom ++ '.' :: (t.ttld ++ '>' :: K0))) := by
    rw [hdropB]
    unfold trEmail
    simp
  have hdropAt : M.drop ((coabExact ++ ' ' :: (t.tname ++ ' ' :: ['<'])).length
      + t.tlocal.length) = '@' :: (t.tdom ++ '.' :: (t.ttld ++ '>' :: K0)) :=
    drop_offset hdropB2
  have hdropR2 : M.drop ((coabExact ++ ' ' :: (t.tname ++ ' ' :: ['<'])).length
      + t.tlocal.length + 1)
      = (t.tdom ++ '.' :: (t.ttld ++ ['>'])) ++ K0 := by
    have h7 := drop_offset (show M.drop ((coabExact ++ ' '
        :: (t.tname ++ ' ' :: ['<'])).length + t.tlocal.length)
        = ['@'] ++ (t.tdom ++ '.' :: (t.ttld ++ '>' :: K0)) from hdropAt)
    rw [show (['@'] : List Char).length = 1 from rfl] at h7
    rw [h7]
    simp
  have ha2at : ∀ c ∈ t.tdom ++ '.' :: (t.ttld ++ ['>']), c ≠ '@' := by
    intro c hc
    rcases List.mem_append.mp hc with hc | hc
    · exact ne_of_pred (hdl c hc) (by decide)
    · rcases List.mem_cons.mp hc with rfl | hc
      · decide
      · rcases List.mem_append.mp hc with hc | hc
        · exact ne_of_pred (htll c hc) (by decide)
        · rw [List.mem_singleton.mp hc]; decide
  have ha2last : (t.tdom ++ '.' :: (t.ttld ++ ['>'])).getLast? = some '>' := by
    rw [show t.tdom ++ '.' :: (t.ttld ++ ['>'])
        = (t.tdom ++ '.' :: t.ttld) ++ ['>'] by simp]
    exact List.getLast?_concat _
  have hreg2 := run_stops hdropR2 ha2at ha2last (by decide)
  have hLlen : (renderLine t).length
      = (coabExact ++ ' ' :: (t.tname ++ ' ' :: ['<'])).length
        + (trEmail t).length + 1 := by
    have hcg := congrArg List.length (hM.symm.trans hMB)
    simp only [List.length_append, List.length_cons, List.length_nil] at hcg ⊢
    omega
  have hElen : (trEmail t).length
      = t.tlocal.length + 1 + t.tdom.length + 1 + t.ttld.length := by
    unfold trEmail
    simp only [List.length_append, List.length_cons]
    omega
  intro n hn
  by_cases h1 : n < (coabExact ++ ' ' :: (t.tname ++ ' ' :: ['<'])).length
  · right; left
    have := hreg1 n h1
    rw [Nat.zero_add] at this
    exact this
  · obtain ⟨j, rfl⟩ : ∃ j, n = (coabExact ++ ' ' :: (t.tname ++ ' ' :: ['<'])).length + j :=
      ⟨n - (coabExact ++ ' ' :: (t.tname ++ ' ' :: ['<'])).length, by omega⟩
    by_cases h2 : j = 0
    · subst h2
      right; right; left
      refine ⟨t, (renderLine t).length, htmem, ?_, ?_⟩
      · rw [Nat.add_zero, hdropB, hdropL]
      · rw [Nat.add_zero]
        exact htakeB
    · by_cases h3 : j < t.tlocal.length
      · right; right; right
        have h5core : t.tlocal ++ ('@' :: (t.tdom ++ '.' :: (t.ttld ++ '>' :: K0)))
            = t.tlocal.take j ++ (t.tlocal.drop j
              ++ ('@' :: (t.tdom ++ '.' :: (t.ttld ++ '>' :: K0)))) := by
          conv_lhs => rw [← List.take_append_drop j t.tlocal]
          rw [List.append_assoc]
        have h5 := hdropB2.trans h5core
        have hlen : (t.tlocal.take j).length = j := by
          rw [List.length_take]
          exact min_eq_left (le_of_lt h3)
        have htak_ne : t.tlocal.take j ≠ [] := by
          intro hnil
          rw [hnil] at hlen
          simp at hlen
          omega
        obtain ⟨pc, hpc⟩ := Option.isSome_iff_exists.mp (List.getLast?_isSome.mpr htak_ne)
        have hpcmem : pc ∈ t.tlocal :=
          List.take_subset j t.tlocal (List.mem_of_mem_getLast? (by rw [hpc]; exact rfl))
        have htake := take_getLast_jump h5 hpc
        rw [hlen] at htake
        have hdropj := drop_offset h5
        rw [hlen] at hdropj
        cases hdt : t.tlocal.drop j with
        | nil =>
          exfalso
          have := congrArg List.length hdt
          simp at this
          omega
        | cons c' cs' =>
          have hc'mem : c' ∈ t.tlocal := (List.drop_suffix j t.tlocal).subset
            (by rw [hdt]; exact List.mem_cons_self _ _)
          refine ⟨pc, c', cs' ++ ('@' :: (t.tdom ++ '.' :: (t.ttld ++ '>' :: K0))),
            htake, wordC_of_alnum (hll pc hpcmem), ?_, wordC_of_alnum (hll c' hc'mem)⟩
          rw [hdropj, hdt, List.cons_append]
      · by_cases h4 : j = t.tlocal.length
        · subst h4
          left
          intro hd hhd
          rw [hdropAt] at hhd
          rw [List.head?_cons] at hhd
          injection hhd with hhd
          rw [← hhd]
          decide
        · obtain ⟨j2, rfl⟩ : ∃ j2, j = t.tlocal.length + 1 + j2 :=
            ⟨j - t.tlocal.length - 1, by omega⟩
          right; left
          have hj2 : j2 < (t.tdom ++ '.' :: (t.ttld ++ ['>'])).length := by
            rw [hLlen, hElen] at hn
            simp only [List.length_append, List.length_cons, List.length_nil] at hn ⊢
            omega
          have := hreg2 j2 hj2
          have hidx : (coabExact ++ ' ' :: (t.tname ++ ' ' :: ['<'])).length
              + t.tlocal.length + 1 + j2
              = (coabExact ++ ' ' :: (t.tname ++ ' ' :: ['<'])).length
                + (t.tlocal.length + 1 + j2) := by omega
          rw [hidx] at this
          exact this

theorem atShape : ∀ (ts : List Trailer), (∀ tr ∈ ts, trailerOK tr = true) →
    ∀ n, aShape ts (renderMsg ts) n := by
  intro ts
  induction ts with
  | nil =>
    intro _ n
    left
    intro hd hhd
    rw [show renderMsg [] = [] from rfl, List.drop_nil] at hhd
    cases hhd
  | cons t rest ih =>
    intro hok n
    have hokt := hok t (List.mem_cons_self _ _)
    cases rest with
    | nil =>
      by_cases hn : n < (renderLine t).length
      · exact atShape_line hokt (List.mem_cons_self _ _) []
          (show renderMsg [t] = renderLine t ++ [] from by
            rw [show renderMsg [t] = renderLine t from rfl]; simp) n hn
      · left
        intro hd hhd
        rw [List.drop_eq_nil_of_le (show (renderMsg [t]).length ≤ n from by
          rw [show renderMsg [t] = renderLine t from rfl]; omega)] at hhd
        cases hhd
    | cons t2 rs =>
      have hM2 : renderMsg (t :: t2 :: rs)
          = renderLine t ++ ('\n' :: renderMsg (t2 :: rs)) := rfl
      by_cases hn : n < (renderLine t).length
      · exact atShape_line hokt (List.mem_cons_self _ _)
          ('\n' :: renderMsg (t2 :: rs)) hM2 n hn
      · by_cases hnl : n = (renderLine t).length
        · left
          intro hd hhd
          have hdrop : (renderMsg (t :: t2 :: rs)).drop n
              = '\n' :: renderMsg (t2 :: rs) := by
            rw [hnl, hM2]
            exact List.drop_left _ _
          rw [hdrop, List.head?_cons] at hhd
          injection hhd with hhd
          rw [← hhd]
          decide
        · obtain ⟨j, rfl⟩ : ∃ j, n = (renderLine t).length + 1 + j :=
            ⟨n - (renderLine t).length - 1, by omega⟩
          have hoff : ∀ k, (renderMsg (t :: t2 :: rs)).drop ((renderLine t).length + 1 + k)
              = (renderMsg (t2 :: rs)).drop k := by
            intro k
            rw [show renderMsg (t :: t2 :: rs)
                = (renderLine t ++ ['\n']) ++ renderMsg (t2 :: rs) by rw [hM2]; simp]
            rw [show (renderLine t).length + 1 + k
                = (renderLine t ++ ['\n']).length + k by simp]
            exact List.drop_append k
          have htk : ∀ k, (renderMsg (t :: t2 :: rs)).take ((renderLine t).length + 1 + k)
              = (renderLine t ++ ['\n']) ++ (renderMsg (t2 :: rs)).take k := by
            intro k
            rw [show renderMsg (t :: t2 :: rs)
                = (renderLine t ++ ['\n']) ++ renderMsg (t2 :: rs) by rw [hM2]; simp]
            rw [show (renderLine t).length + 1 + k
                = (renderLine t ++ ['\n']).length + k by simp]
            exact List.take_append k
          have hrest := ih (fun tr htr => hok tr (List.mem_cons_of_mem _ htr)) j
          unfold aShape at hrest ⊢
          rcases hrest with h1 | h2 | ⟨tr, m, htr, heq, htake⟩
            | ⟨pc, c, cs2, htake, hpc, heq, hlc⟩
          · left
            rw [hoff j]
            exact h1
          · right; left
            rw [hoff j]
            exact h2
          · right; right; left
            refine ⟨tr, (renderLine t).length + 1 + m,
              List.mem_cons_of_mem _ htr, ?_, ?_⟩
            · rw [hoff j, hoff m, heq]
            · rw [htk j]
              exact getLast?_append_some _ htake
          · right; right; right
            refine ⟨pc, c, cs2, ?_, hpc, ?_, hlc⟩
            · rw [htk j]
              exact getLast?_append_some _ htake
            · rw [hoff j]
              exact heq

theorem scanEmails_nil : ∀ (f : Nat) (prev : Option Char), scanEmails f prev [] = []
  | 0, _ => rfl
  | _ + 1, _ => rfl

theorem scanEmails_mem {ts : List Trailer} (hok : ∀ tr ∈ ts, trailerOK tr = true) :
    ∀ f n prev, prev = ((renderMsg ts).take n).getLast? →
      ∀ cand ∈ scanEmails f prev ((renderMsg ts).drop n),
        ∃ tr, tr ∈ ts ∧ cand.cemail = trEmail tr := by
  intro f
  induction f with
  | zero =>
    intro n prev _ cand hc
    cases hc
  | succ f ihf =>
    intro n prev hprev cand hc
    have hsh := atShape ts hok n
    unfold aShape at hsh
    rcases hsh with h1 | h2 | ⟨tr, m, htr, heq, htake⟩ | ⟨pc, c', cs2, htake, hpc, heq, hlc⟩
    · cases hs : (renderMsg ts).drop n with
      | nil =>
        rw [hs, scanEmails_nil] at hc
        cases hc
      | cons c cs =>
        have hlocF : emailLocalChar c = false := h1 c (by rw [hs]; rfl)
        have hgF : ¬ (boundaryB prev c ∧ emailLocalChar c = true) := by
          intro hg
          rw [hlocF] at hg
          exact absurd hg.2 (by simp)
        rw [hs, scanEmails_cons, if_neg hgF] at hc
        have hcs : cs = (renderMsg ts).drop (n + 1) := by
          have ht := List.tail_drop (renderMsg ts) n
          rw [hs] at ht
          simpa using ht
        refine ihf (n + 1) (some c) (take_getLast_step hs).symm cand ?_
        rw [← hcs]
        exact hc
    · cases hs : (renderMsg ts).drop n with
      | nil =>
        rw [hs, scanEmails_nil] at hc
        cases hc
      | cons c cs =>
        rw [hs] at h2
        rw [hs, scanEmails_cons] at hc
        have hcs : cs = (renderMsg ts).drop (n + 1) := by
          have ht := List.tail_drop (renderMsg ts) n
          rw [hs] at ht
          simpa using ht
        by_cases hguard : boundaryB prev c ∧ emailLocalChar c = true
        · rw [if_pos hguard, if_neg h2] at hc
          refine ihf (n + 1) (some c) (take_getLast_step hs).symm cand ?_
          rw [← hcs]
          exact hc
        · rw [if_neg hguard] at hc
          refine ihf (n + 1) (some c) (take_getLast_step hs).symm cand ?_
          rw [← hcs]
          exact hc
    · obtain ⟨-, -, -, -, hln, hll, hdn, hdl, htl2, htll⟩ := trailerOK_split (hok tr htr)
      simp only [List.all_eq_true] at hll hdl htll
      have heq2 : (renderMsg ts).drop n
          = tr.tlocal ++ '@' :: (tr.tdom ++ '.' :: (tr.ttld
              ++ '>' :: (renderMsg ts).drop m)) := by
        rw [heq]
        unfold trEmail
        simp
      have h9 : prev = some '<' := hprev.trans htake
      subst h9
      rw [heq2, scanEmails_step_emit ((renderMsg ts).drop m) hln hll hdn hdl
        htl2 htll (by decide)] at hc
      rcases List.mem_cons.mp hc with rfl | hc2
      · refine ⟨tr, htr, ?_⟩
        show tr.tlocal ++ '@' :: (tr.tdom ++ '.' :: tr.ttld) = trEmail tr
        unfold trEmail
        rfl
      · have hdOff : (renderMsg ts).drop (n + (trEmail tr).length)
            = '>' :: (renderMsg ts).drop m :=
          drop_offset (show (renderMsg ts).drop n
            = trEmail tr ++ ('>' :: (renderMsg ts).drop m) from heq)
        obtain ⟨x, hx, hxlow⟩ := email_last_alpha (hok tr htr)
        have htkJ := take_getLast_jump (show (renderMsg ts).drop n
            = trEmail tr ++ ('>' :: (renderMsg ts).drop m) from heq) hx
        refine ihf (n + (trEmail tr).length)
          ((tr.tlocal ++ '@' :: (tr.tdom ++ '.' :: tr.ttld)).getLast?) ?_ cand ?_
        · rw [htkJ,
            show tr.tlocal ++ '@' :: (tr.tdom ++ '.' :: tr.ttld) = trEmail tr from rfl]
          exact hx
        · rw [hdOff]
          exact hc2
    · have hbF : ¬ (boundaryB prev c' ∧ emailLocalChar c' = true) := by
        intro hg
        have hb := hg.1
        rw [hprev, htake] at hb
        unfold boundaryB at hb
        dsimp only at hb
        rw [hpc, hlc] at hb
        simp at hb
      rw [heq, scanEmails_cons, if_neg hbF] at hc
      have hcs : cs2 = (renderMsg ts).drop (n + 1) := by
        have ht := List.tail_drop (renderMsg ts) n
        rw [heq] at ht
        simpa using ht
      refine ihf (n + 1) (some c') (take_getLast_step heq).symm cand ?_
      rw [← hcs]
      exact hc

theorem step4_mem {ts : List Trailer} (hok : ∀ tr ∈ ts, trailerOK tr = true) :
    ∀ cand ∈ step4 (renderMsg ts), ∃ tr, tr ∈ ts ∧ cand.cemail = trEmail tr := by
  intro cand hc
  unfold step4 at hc
  refine scanEmails_mem hok (renderMsg ts).length 0 none ?_ cand ?_
  · rw [List.take_zero]
    rfl
  · rw [List.drop_zero]
    exact hc

/-! #### The desperate pass emits only trailer emails -/

theorem ciPref_coabLower_false_head {c : Char} (cs : List Char) (h : lc c ≠ 'c') :
    ciPref coabLower (c :: cs) = false := by
  rw [show coabLower = 'c' :: ("o-authored-by:").toList from by decide]
  unfold ciPref
  have hne : decide (lc 'c' = lc c) = false :=
    decide_eq_false (fun hh => h (hh.symm.trans (by decide)))
  rw [hne, Bool.false_and]

theorem ciPref_coabLower_false_third {c0 c1 c2 : Char} (cs : List Char) (h : lc c2 ≠ '-') :
    ciPref coabLower (c0 :: c1 :: c2 :: cs) = false := by
  rw [show coabLower = 'c' :: 'o' :: '-' :: ("authored-by:").toList from by decide]
  show (decide (lc 'c' = lc c0) && (decide (lc 'o' = lc c1)
    && (decide (lc '-' = lc c2) && ciPref (("authored-by:").toList) cs))) = false
  have hne : decide (lc '-' = lc c2) = false :=
    decide_eq_false (fun hh => h (hh.symm.trans (by decide)))
  rw [hne]
  simp

theorem ciPref_short : ∀ {p s : List Char}, s.length < p.length → ciPref p s = false := by
  intro p
  induction p with
  | nil =>
    intro s h
    simp at h
  | cons x ps ih =>
    intro s h
    cases s with
    | nil => rfl
    | cons c cs =>
      show (decide (lc x = lc c) && ciPref ps cs) = false
      rw [ih (by simpa using Nat.lt_of_succ_lt_succ h)]
      simp

theorem nameChar_lc_ne {c : Char} (h : nameCharOK c = true) : lc c ≠ '-' := by
  unfold nameCharOK at h
  rcases Bool.or_eq_true_iff.mp h with h | h
  · exact ne_of_pred (lc_alpha_lower h) (by decide)
  · rw [decide_eq_true_eq] at h
    rw [h]
    decide

theorem emailChar_lc_ne {c : Char} (h : emailCharOK c = true) : lc c ≠ '-' := by
  unfold emailCharOK at h
  rcases Bool.or_eq_true_iff.mp h with h | h
  · rcases Bool.or_eq_true_iff.mp h with h | h
    · unfold isAlnumC at h
      rcases Bool.or_eq_true_iff.mp h with h | h
      · exact ne_of_pred (lc_alpha_lower h) (by decide)
      · rw [lc_fix_not_upper (digit_not_upper h)]
        exact ne_of_pred h (by decide)
    · rw [decide_eq_true_eq] at h
      rw [h]
      decide
  · rw [decide_eq_true_eq] at h
    rw [h]
    decide

/-- The case-insensitive marker fails at every start position inside `a`
when `a` is followed by `s`. -/
def ciFailsIn (a s : List Char) : Prop :=
  ∀ j, j < a.length → ciPref coabLower (a.drop j ++ s) = false

theorem ciFailsIn_nil (s : List Char) : ciFailsIn [] s := by
  intro j hj
  simp at hj

theorem ciFailsIn_cons {c : Char} {a s : List Char}
    (h0 : ciPref coabLower (c :: (a ++ s)) = false) (h1 : ciFailsIn a s) :
    ciFailsIn (c :: a) s := by
  intro j hj
  cases j with
  | zero => exact h0
  | succ j =>
    rw [List.drop_succ_cons]
    exact h1 j (by simpa using Nat.lt_of_succ_lt_succ hj)

theorem ciFailsIn_append {a b s : List Char}
    (ha : ciFailsIn a (b ++ s)) (hb : ciFailsIn b s) : ciFailsIn (a ++ b) s := by
  intro j hj
  rw [List.drop_append_eq_append_drop]
  by_cases hja : j < a.length
  · rw [Nat.sub_eq_zero_of_le (le_of_lt hja), List.drop_zero, List.append_assoc]
    exact ha j hja
  · rw [List.drop_eq_nil_of_le (le_of_not_lt hja), List.nil_append]
    refine hb (j - a.length) ?_
    rw [List.length_append] at hj
    omega

theorem name_ciFailsIn {nm : List Char} (hnm : ∀ c ∈ nm, nameCharOK c = true)
    (R : List Char) : ciFailsIn nm (' ' :: '<' :: R) := by
  induction nm with
  | nil => exact ciFailsIn_nil _
  | cons d nm' ih =>
    refine ciFailsIn_cons ?_ (ih (fun c hc => hnm c (List.mem_cons_of_mem _ hc)))
    cases nm' with
    | nil => exact ciPref_coabLower_false_third _ (by decide)
    | cons e nm'' =>
      cases nm'' with
      | nil => exact ciPref_coabLower_false_third _ (by decide)
      | cons f nm3 =>
        exact ciPref_coabLower_false_third _
          (nameChar_lc_ne (hnm f (by simp)))

theorem email_ciFailsIn {em : List Char} (hem : ∀ c ∈ em, emailCharOK c = true)
    {X : List Char} (hX : X = [] ∨ ∃ x X2, X = x :: X2 ∧ lc x ≠ '-') :
    ciFailsIn em ('>' :: X) := by
  induction em with
  | nil => exact ciFailsIn_nil _
  | cons d em' ih =>
    refine ciFailsIn_cons ?_ (ih (fun c hc => hem c (List.mem_cons_of_mem _ hc)))
    cases em' with
    | nil =>
      rcases hX with rfl | ⟨x, X2, rfl, hx⟩
      · refine ciPref_short ?_
        rw [show coabLower.length = 15 from by decide]
        simp
      · exact ciPref_coabLower_false_third _ hx
    | cons e em'' =>
      cases em'' with
      | nil => exact ciPref_coabLower_false_third _ (by decide)
      | cons f em3 =>
        exact ciPref_coabLower_false_third _
          (emailChar_lc_ne (hem f (by simp)))

theorem ciFind_skip : ∀ (a s : List Char), ciFailsIn a s →
    ciFind coabLower (a ++ s)
      = (ciFind coabLower s).map (fun pr => (a ++ pr.1, pr.2)) := by
  intro a
  induction a with
  | nil =>
    intro s _
    rw [List.nil_append]
    cases hf : ciFind coabLower s with
    | none => rfl
    | some pr => simp
  | cons c a' ih =>
    intro s h
    rw [List.cons_append]
    conv_lhs => unfold ciFind
    have h0 : ciPref coabLower (c :: (a' ++ s)) = false := by
      have := h 0 (by simp)
      simpa using this
    rw [h0, if_neg (by simp)]
    rw [ih s (fun j hj => by
      have := h (j + 1) (by simpa using Nat.succ_lt_succ hj)
      rw [List.drop_succ_cons] at this
      exact this)]
    cases hf : ciFind coabLower s with
    | none => rfl
    | some pr => simp

theorem renderLine_drop15 (tr : Trailer) :
    (renderLine tr).drop 15
      = ' ' :: (tr.tname ++ ' ' :: '<' :: (trEmail tr ++ ['>'])) := by
  rw [show (15 : Nat) = coabLower.length from by decide]
  exact renderLine_drop tr

theorem ciFailsIn_single {c : Char} (s : List Char) (h : lc c ≠ 'c') :
    ciFailsIn [c] s := by
  intro j hj
  have hj0 : j = 0 := by
    simp at hj
    omega
  subst hj0
  show ciPref coabLower (c :: s) = false
  exact ciPref_coabLower_false_head s h

theorem ciFailsIn_pair {c d : Char} (s : List Char) (hcx : lc c ≠ 'c')
    (hdx : lc d ≠ 'c') : ciFailsIn [c, d] s := by
  refine ciFailsIn_cons (ciPref_coabLower_false_head _ hcx) ?_
  exact ciFailsIn_single s hdx

theorem lineTail_fails_last {tr : Trailer} (h : trailerOK tr = true) :
    ciFailsIn ((renderLine tr).drop 15) [] := by
  obtain ⟨-, hnm, -, -, -, -, -, -, -, -⟩ := trailerOK_split h
  simp only [List.all_eq_true] at hnm
  have hem := email_all_emailCharOK h
  simp only [List.all_eq_true] at hem
  rw [renderLine_drop15]
  rw [show (' ' :: (tr.tname ++ ' ' :: '<' :: (trEmail tr ++ ['>'])) : List Char)
      = [' '] ++ (tr.tname ++ ([' ', '<'] ++ (trEmail tr ++ ['>']))) by simp]
  refine ciFailsIn_append (ciFailsIn_single _ (by decide))
    (ciFailsIn_append ?_ (ciFailsIn_append (ciFailsIn_pair _ (by decide) (by decide))
      (ciFailsIn_append ?_ (ciFailsIn_single _ (by decide)))))
  · simp only [List.append_nil]
    exact name_ciFailsIn hnm _
  · simp only [List.append_nil]
    exact email_ciFailsIn hem (Or.inl rfl)

theorem lineTail_fails_mid {tr : Trailer} (h : trailerOK tr = true) (flat2 : List Char) :
    ciFailsIn ((renderLine tr).drop 15 ++ [' ']) flat2 := by
  obtain ⟨-, hnm, -, -, -, -, -, -, -, -⟩ := trailerOK_split h
  simp only [List.all_eq_true] at hnm
  have hem := email_all_emailCharOK h
  simp only [List.all_eq_true] at hem
  rw [renderLine_drop15]
  rw [show (' ' :: (tr.tname ++ ' ' :: '<' :: (trEmail tr ++ ['>']))) ++ [' ']
      = [' '] ++ (tr.tname ++ ([' ', '<'] ++ (trEmail tr ++ ['>', ' ']))) by simp]
  refine ciFailsIn_append (ciFailsIn_single _ (by decide))
    (ciFailsIn_append (name_ciFailsIn hnm _)
      (ciFailsIn_append (ciFailsIn_pair _ (by decide) (by decide))
        (ciFailsIn_append ?_ (ciFailsIn_pair _ (by decide) (by decide)))))
  exact email_ciFailsIn hem (Or.inr ⟨' ', flat2, rfl, by decide⟩)

/-- The part of the space-joined message after a marker occurrence. -/
def afterM (t : Trailer) (rest : List Trailer) : List Char :=
  match rest with
  | [] => (renderLine t).drop 15
  | _ :: _ => (renderLine t).drop 15 ++ ' ' :: flatMsg rest

theorem flatMsg_cons (t : Trailer) (rest : List Trailer) :
    flatMsg (t :: rest) = renderLine t
      ++ (match rest with | [] => ([] : List Char) | _ :: _ => ' ' :: flatMsg rest) := by
  cases rest with
  | nil =>
    show flatMsg [t] = renderLine t ++ []
    rw [List.append_nil]
    rfl
  | cons a b => rfl

theorem flatMsg_drop15 (t : Trailer) (rest : List Trailer) :
    (flatMsg (t :: rest)).drop 15 = afterM t rest := by
  rw [flatMsg_cons]
  have h15 : (15 : Nat) ≤ (renderLine t).length := by
    unfold renderLine
    simp only [List.length_append, List.length_cons]
    rw [show coabExact.length = 15 from by decide]
    omega
  rw [List.drop_append_eq_append_drop, Nat.sub_eq_zero_of_le h15, List.drop_zero]
  cases rest with
  | nil =>
    show (renderLine t).drop 15 ++ [] = afterM t []
    rw [List.append_nil]
    rfl
  | cons a b => rfl

theorem ciFind_flat (t2 : Trailer) (rs : List Trailer) :
    ciFind coabLower (flatMsg (t2 :: rs)) = some ([], afterM t2 rs) := by
  have hposF : ciPref coabLower (flatMsg (t2 :: rs)) = true := by
    cases rs with
    | nil =>
      rw [show flatMsg [t2] = renderLine t2 from rfl,
        show renderLine t2 = coabExact
          ++ (' ' :: (t2.tname ++ ' ' :: '<' :: (trEmail t2 ++ ['>']))) from rfl]
      exact ciPref_append_of _ (by decide)
    | cons a b =>
      rw [show flatMsg (t2 :: a :: b) = renderLine t2 ++ ' ' :: flatMsg (a :: b) from rfl,
        show renderLine t2 ++ ' ' :: flatMsg (a :: b)
          = coabExact ++ ((' ' :: (t2.tname ++ ' ' :: '<' :: (trEmail t2 ++ ['>'])))
            ++ ' ' :: flatMsg (a :: b)) from by unfold renderLine; simp]
      exact ciPref_append_of _ (by decide)
  obtain ⟨T, hT⟩ : ∃ T, flatMsg (t2 :: rs) = 'C' :: T := by
    cases rs with
    | nil =>
      exact ⟨("o-Authored-By:").toList
          ++ ' ' :: (t2.tname ++ ' ' :: '<' :: (trEmail t2 ++ ['>'])), by
        rw [show flatMsg [t2] = renderLine t2 from rfl, renderLine_cons]⟩
    | cons a b =>
      exact ⟨(("o-Authored-By:").toList
          ++ ' ' :: (t2.tname ++ ' ' :: '<' :: (trEmail t2 ++ ['>'])))
          ++ ' ' :: flatMsg (a :: b), by
        rw [show flatMsg (t2 :: a :: b) = renderLine t2 ++ ' ' :: flatMsg (a :: b) from rfl,
          renderLine_cons, List.cons_append]⟩
  have hpos2 : ciPref coabLower ('C' :: T) = true := by
    rw [← hT]
    exact hposF
  rw [hT]
  conv_lhs => unfold ciFind
  rw [hpos2, if_pos rfl, ← hT]
  rw [show coabLower.length = 15 from by decide, flatMsg_drop15]

theorem ciSplit_succ (pat : List Char) (fuel : Nat) (s : List Char) :
    ciSplit pat (fuel + 1) s
      = match ciFind pat s with
        | some (pre, rest) => pre :: ciSplit pat fuel rest
        | none => [s] := rfl

theorem ciFind_afterM_last {t : Trailer} (h : trailerOK t = true) :
    ciFind coabLower ((renderLine t).drop 15) = none := by
  have hskip := ciFind_skip _ [] (lineTail_fails_last h)
  rw [List.append_nil] at hskip
  rw [hskip]
  rfl

theorem ciFind_afterM_mid {t : Trailer} (h : trailerOK t = true)
    (t2 : Trailer) (rs : List Trailer) :
    ciFind coabLower (afterM t (t2 :: rs))
      = some ((renderLine t).drop 15 ++ [' '], afterM t2 rs) := by
  show ciFind coabLower ((renderLine t).drop 15 ++ ' ' :: flatMsg (t2 :: rs)) = _
  rw [show (renderLine t).drop 15 ++ ' ' :: flatMsg (t2 :: rs)
      = ((renderLine t).drop 15 ++ [' ']) ++ flatMsg (t2 :: rs) by simp]
  rw [ciFind_skip _ _ (lineTail_fails_mid h (flatMsg (t2 :: rs)))]
  rw [ciFind_flat t2 rs]
  simp

theorem ciSplit_parts {ts : List Trailer} (hokAll : ∀ tr ∈ ts, trailerOK tr = true) :
    ∀ (fuel : Nat) (t : Trailer) (rest : List Trailer), t ∈ ts → (∀ tr ∈ rest, tr ∈ ts) →
      ∀ part ∈ ciSplit coabLower fuel (afterM t rest),
        ∃ tr s, tr ∈ ts ∧ part = (renderLine tr).drop 15 ++ s := by
  intro fuel
  induction fuel with
  | zero =>
    intro t rest ht _ part hp
    rcases List.mem_singleton.mp hp with rfl
    cases rest with
    | nil => exact ⟨t, [], ht, by rw [List.append_nil]; rfl⟩
    | cons a b => exact ⟨t, ' ' :: flatMsg (a :: b), ht, rfl⟩
  | succ fuel ih =>
    intro t rest ht hrest part hp
    cases rest with
    | nil =>
      rw [ciSplit_succ, show afterM t [] = (renderLine t).drop 15 from rfl,
        ciFind_afterM_last (hokAll t ht)] at hp
      dsimp only at hp
      rcases List.mem_singleton.mp hp with rfl
      exact ⟨t, [], ht, by rw [List.append_nil]⟩
    | cons t2 rs =>
      rw [ciSplit_succ, ciFind_afterM_mid (hokAll t ht) t2 rs] at hp
      dsimp only at hp
      rcases List.mem_cons.mp hp with rfl | hp2
      · exact ⟨t, [' '], ht, rfl⟩
      · exact ih t2 rs (hrest t2 (List.mem_cons_self _ _))
          (fun tr htr => hrest tr (List.mem_cons_of_mem _ htr)) part hp2

theorem firstBracket_lineTail {tr : Trailer} (h : trailerOK tr = true) (s : List Char) :
    firstBracket? ((renderLine tr).drop 15 ++ s) = some (trEmail tr) := by
  obtain ⟨-, hnm, -, -, -, -, -, -, -, -⟩ := trailerOK_split h
  have hE := email_char_facts h
  rw [renderLine_drop15]
  rw [show (' ' :: (tr.tname ++ ' ' :: '<' :: (trEmail tr ++ ['>']))) ++ s
      = (' ' :: (tr.tname ++ [' '])) ++ '<' :: (trEmail tr ++ '>' :: s) by simp]
  rw [firstBracket_skip]
  · exact firstBracket_hit s (trEmail_ne_nil tr) (fun c hc => (hE c hc).2.1)
  · intro c hc
    rcases List.mem_cons.mp hc with rfl | hc
    · decide
    · rcases List.mem_append.mp hc with hc | hc
      · exact ne_of_pred (List.all_eq_true.mp hnm c hc) (by decide)
      · rw [List.mem_singleton.mp hc]; decide

theorem desperatePart_mem {tr : Trailer} (h : trailerOK tr = true) (s : List Char)
    (cand : Cand) (hc : cand ∈ desperatePart ((renderLine tr).drop 15 ++ s)) :
    cand.cemail = trEmail tr := by
  unfold desperatePart at hc
  rw [firstBracket_lineTail h s] at hc
  dsimp only at hc
  rcases List.mem_singleton.mp hc with rfl
  show trimS (trEmail tr) = trEmail tr
  exact trimS_trEmail h

theorem desperate_mem {ts : List Trailer} (hok : ∀ tr ∈ ts, trailerOK tr = true) :
    ∀ cand ∈ desperateStep (renderMsg ts), ∃ tr, tr ∈ ts ∧ cand.cemail = trEmail tr := by
  intro cand hc
  unfold desperateStep at hc
  dsimp only at hc
  rw [flat_renderMsg hok] at hc
  split at hc
  · cases ts with
    | nil => cases (show cand ∈ ([] : List Cand) from hc)
    | cons t rest =>
      obtain ⟨f0, hf0⟩ : ∃ f0, (flatMsg (t :: rest)).length = f0 + 1 := by
        have hposl : 0 < (flatMsg (t :: rest)).length := by
          rw [flatMsg_cons, renderLine_cons]
          simp
        exact ⟨(flatMsg (t :: rest)).length - 1, by omega⟩
      rw [hf0, ciSplit_succ, ciFind_flat t rest] at hc
      dsimp only at hc
      rw [show (([] : List Char) :: ciSplit coabLower f0 (afterM t rest)).drop 1
          = ciSplit coabLower f0 (afterM t rest) from rfl] at hc
      obtain ⟨l, hl, hcl⟩ := List.mem_flatten.mp hc
      obtain ⟨part, hpart, rfl⟩ := List.mem_map.mp hl
      obtain ⟨tr, s, htr, rfl⟩ := ciSplit_parts hok f0 t rest
        (List.mem_cons_self _ _) (fun x hx => List.mem_cons_of_mem _ hx) part hpart
      exact ⟨tr, htr, desperatePart_mem (hok tr htr) s cand hcl⟩
  · cases hc

/-! #### The extractor on a message of well-formed trailers -/

theorem extractCoAuthors_renderMsg {ts : List Trailer} (hne : ts ≠ [])
    (hok : ∀ tr ∈ ts, trailerOK tr = true)
    (hnodup : (ts.map (fun tr => lcs (trEmail tr))).Nodup) :
    extractCoAuthors (renderMsg ts)
      = ts.map (fun tr => ({ cname := tr.tname, cemail := trEmail tr,
                             csource := ("step1").toList } : Cand)) := by
  have hMne : renderMsg ts ≠ [] := by
    cases ts with
    | nil => exact absurd rfl hne
    | cons t rest =>
      obtain ⟨s, hs⟩ := renderMsg_cons_decomp t rest
      rw [hs, coabExact_cons]
      simp
  unfold extractCoAuthors
  rw [if_neg hMne, step1_renderMsg hne hok]
  have hassoc : ts.map (fun tr => ({ cname := tr.tname, cemail := trEmail tr,
                                     csource := ("step1").toList } : Cand))
      ++ step2 (renderMsg ts) ++ step3 (renderMsg ts) ++ step4 (renderMsg ts)
      ++ desperateStep (renderMsg ts)
    = ts.map (fun tr => ({ cname := tr.tname, cemail := trEmail tr,
                           csource := ("step1").toList } : Cand))
      ++ (step2 (renderMsg ts) ++ step3 (renderMsg ts) ++ step4 (renderMsg ts)
        ++ desperateStep (renderMsg ts)) := by
    simp [List.append_assoc]
  rw [hassoc]
  refine dedupCands_append_absorb _ _ [] ?_ ?_ ?_ ?_
  · intro a ha
    obtain ⟨tr, htr, rfl⟩ := List.mem_map.mp ha
    exact trEmail_ne_nil tr
  · rw [List.map_map]
    exact hnodup
  · intro a _
    exact List.not_mem_nil _
  · intro b hb
    have hbmem : ∃ tr, tr ∈ ts ∧ b.cemail = trEmail tr := by
      rcases List.mem_append.mp hb with hb | hb
      · rcases List.mem_append.mp hb with hb | hb
        · rcases List.mem_append.mp hb with hb | hb
          · exact step2_mem hok b hb
          · exact step3_mem hok b hb
        · exact step4_mem hok b hb
      · exact desperate_mem hok b hb
    obtain ⟨tr, htr, hbe⟩ := hbmem
    refine Or.inr (Or.inr ⟨{ cname := tr.tname, cemail := trEmail tr,
                             csource := ("step1").toList },
      List.mem_map_of_mem _ htr, ?_⟩)
    rw [hbe]

/-- C2 (amended): for every nonempty list of well-formed
`Co-Authored-By: Name <local@domain.tld>` trailers — names of ASCII
letters and inner spaces starting and ending with a letter, alphanumeric
local parts, domains of alphanumerics and dots, alphabetic top-level
domains of length at least two, any mix of upper and lower case
(`Bob Jones <Bob@users.noreply.GitHub.com>` is such a trailer) — whose
lowercased emails are pairwise distinct, the extractor applied to the
rendered one-per-line commit message returns exactly one candidate per
trailer, in order, with that trailer's name and email (from the
line-oriented first pass); hence exactly `N` candidates for `N` trailers,
whose lowercased emails are the trailers' lowercased emails; and on every
message whatsoever the returned sequence never contains two candidates
with the same lowercased email. -/
theorem extract_wellformed_trailers {ts : List Trailer} (hne : ts ≠ [])
    (hok : ∀ tr ∈ ts, trailerOK tr = true)
    (hnodup : (ts.map (fun tr => lcs (trEmail tr))).Nodup) :
    extractCoAuthors (renderMsg ts)
        = ts.map (fun tr => ({ cname := tr.tname, cemail := trEmail tr,
                               csource := ("step1").toList } : Cand))
      ∧ (extractCoAuthors (renderMsg ts)).length = ts.length
      ∧ (extractCoAuthors (renderMsg ts)).map (fun c => lcs c.cemail)
          = ts.map (fun tr => lcs (trEmail tr))
      ∧ ∀ msg : List Char,
          ((extractCoAuthors msg).map (fun c => lcs c.cemail)).Nodup := by
  have hmain := extractCoAuthors_renderMsg hne hok hnodup
  refine ⟨hmain, by rw [hmain]; simp, by rw [hmain, List.map_map]; rfl, ?_⟩
  intro msg
  unfold extractCoAuthors
  split
  · simp
  · exact (dedupCands_nodup_strong _ []).1

/-- First witness trailer: `Ann <X@Y.com>`, an uppercase email. -/
def witTrailerA : Trailer :=
  { tname := ("Ann").toList, tlocal := ("X").toList,
    tdom := ("Y").toList, ttld := ("com").toList }

/-- Second witness trailer: the spec's own worked example
`Bob Jones <Bob@users.noreply.GitHub.com>`, a two-word mixed-case name and
a multi-label mixed-case domain. -/
def witTrailerB : Trailer :=
  { tname := ("Bob Jones").toList, tlocal := ("Bob").toList,
    tdom := ("users.noreply.GitHub").toList, ttld := ("com").toList }

/-- C2 (amended, witness): the two-trailer instance `Ann <X@Y.com>`,
`Bob Jones <Bob@users.noreply.GitHub.com>`. -/
theorem extract_wellformed_trailers_witness :
    extractCoAuthors (renderMsg [witTrailerA, witTrailerB])
        = [witTrailerA, witTrailerB].map
            (fun tr => ({ cname := tr.tname, cemail := trEmail tr,
                          csource := ("step1").toList } : Cand))
      ∧ (extractCoAuthors (renderMsg [witTrailerA, witTrailerB])).length
        = ([witTrailerA, witTrailerB] : List Trailer).length
      ∧ (extractCoAuthors (renderMsg [witTrailerA, witTrailerB])).map
            (fun c => lcs c.cemail)
        = [witTrailerA, witTrailerB].map (fun tr => lcs (trEmail tr))
      ∧ ∀ msg : List Char,
          ((extractCoAuthors msg).map (fun c => lcs c.cemail)).Nodup :=
  extract_wellformed_trailers (by decide) (by decide) (by decide)

end CollectMetrics
